import Mathlib

/-!
Verification of the SvelteKit context-generator script (`app.py`).

The development shallowly embeds the script's pure core: path filtering,
gitignore matching, content-type classification, minification dispatch,
directory traversal (structure pass and content pass), block formatting,
size statistics and the command-line entry point.  External format-specific
minifiers (`jsmin`, `csscompressor`, `htmlmin`) are modelled as oracle
functions that may fail; the `json` module and the `pathspec` gitignore
matcher are modelled from their documented contracts where noted.

Python `float` arithmetic for the percentage strings is modelled by exact
integer/rational arithmetic with round-half-even formatting; the two agree
except at double-precision representation boundaries, which no claim here
touches.
-/

set_option maxRecDepth 100000

namespace App

/-! ### Basic list/string utilities -/

/-- Boolean test that `p` is a prestring (initial segment) of `l`. -/
def listPreB : List Char → List Char → Bool
  | [], _ => true
  | _ :: _, [] => false
  | a :: as, b :: bs => a = b && listPreB as bs

/-- Boolean test that `p` occurs contiguously inside `l`. -/
def listInfB (p : List Char) : List Char → Bool
  | [] => listPreB p []
  | b :: bs => listPreB p (b :: bs) || listInfB p bs

theorem listPreB_iff (p l : List Char) : listPreB p l = true ↔ p <+: l := by
  induction p generalizing l with
  | nil => simp [listPreB]
  | cons a as ih =>
    cases l with
    | nil => simp [listPreB]
    | cons b bs =>
      simp only [listPreB, Bool.and_eq_true, decide_eq_true_eq, ih]
      constructor
      · rintro ⟨rfl, h⟩; exact List.cons_prefix_cons.mpr ⟨rfl, h⟩
      · intro h
        rcases h with ⟨t, ht⟩
        simp only [List.cons_append] at ht
        cases ht
        exact ⟨rfl, ⟨t, rfl⟩⟩

theorem listInfB_iff (p l : List Char) : listInfB p l = true ↔ p <:+: l := by
  induction l with
  | nil => simp [listInfB, listPreB_iff]
  | cons b bs ih =>
    simp [listInfB, listPreB_iff, ih, List.infix_cons_iff]

/-- String-level containment test, mirroring Python `pattern in path`. -/
def strInfB (p s : String) : Bool := listInfB p.data s.data

/-- String-level containment proposition. -/
def StrInf (p s : String) : Prop := p.data <:+: s.data

instance (p s : String) : Decidable (StrInf p s) :=
  decidable_of_iff (listInfB p.data s.data = true) (listInfB_iff _ _)

/-- Whitespace characters recognised by Python `str.split`, `str.strip` and
the `\s` regex class (ASCII range, which is all the script's inputs use). -/
def isPyWs (c : Char) : Bool :=
  c = ' ' || c = '\t' || c = '\n' || c = '\x0d' || c = '\x0b' || c = '\x0c'

/-- Split a character list at every occurrence of `sep`, keeping empty
fields, as Python `str.split(sep)` does. -/
def splitList (sep : Char) : List Char → List (List Char)
  | [] => [[]]
  | c :: cs =>
    let rest := splitList sep cs
    if c = sep then [] :: rest
    else match rest with
      | [] => [[c]]
      | r :: rs => (c :: r) :: rs

/-- Join strings with a separator, as Python `sep.join(xs)` does. -/
def joinSep (sep : String) : List String → String
  | [] => ""
  | [x] => x
  | x :: xs => x ++ sep ++ joinSep sep xs

/-- Python `str.strip()`: remove leading and trailing whitespace. -/
def pyStrip (s : String) : String :=
  ⟨((s.data.dropWhile isPyWs).reverse.dropWhile isPyWs).reverse⟩

/-- Python `str.lower()` (ASCII case folding suffices here). -/
def strLower (s : String) : String := ⟨s.data.map Char.toLower⟩

/-- Index (from the front) of the last occurrence of `c`, if any. -/
def lastIdxOf (c : Char) (l : List Char) : Option Nat :=
  match l with
  | [] => none
  | a :: as =>
    match lastIdxOf c as with
    | some i => some (i + 1)
    | none => if a = c then some 0 else none

/-- `pathlib.Path(p).suffix`: the final extension of the last path
component, empty for names whose only dot is at position 0 (dotfiles). -/
def pySuffix (p : String) : String :=
  let base := (splitList '/' p.data).getLastD []
  match lastIdxOf '.' base with
  | some i => if i = 0 then "" else ⟨base.drop i⟩
  | none => ""

/-- Decimal digit character for `n < 10`. -/
def decDigit (n : Nat) : Char := Char.ofNat (48 + n % 10)

/-- Decimal digits of `n`, most significant first (fuelled helper). -/
def natToDecF : Nat → Nat → List Char
  | 0, n => [decDigit n]
  | fuel + 1, n =>
    if n < 10 then [decDigit n]
    else natToDecF fuel (n / 10) ++ [decDigit (n % 10)]

/-- Decimal rendering of a natural number, as Python `str(n)`. -/
def natToDec (n : Nat) : List Char := natToDecF n n

/-- Helper for `group3`: input is least-significant digit first. -/
def group3go : List Char → List Char
  | a :: b :: c :: d :: rest => group3go (d :: rest) ++ [','] ++ [c, b, a]
  | l => l.reverse

/-- Group decimal digits in threes with commas, as Python format `:,`. -/
def group3 (digits : List Char) : List Char := group3go digits.reverse

/-- Python format `n:,` for a natural number. -/
def natGrouped (n : Nat) : String := ⟨group3 (natToDec n)⟩

/-- Round-half-even of the rational `num / den` scaled by ten, then render
with exactly one decimal place: the model of Python format `x:.1f` applied
to the exact value. -/
def fmt1frac (num : Int) (den : Nat) : String :=
  if den = 0 then "" else
  let t : Int := 10 * num
  let f : Int := t.fdiv den
  let r : Int := t - f * den
  let v : Int :=
    if 2 * r < den then f
    else if 2 * r > den then f + 1
    else if f % 2 = 0 then f else f + 1
  let a : Nat := v.natAbs
  let sgn : String := if v < 0 then "-" else ""
  sgn ++ ⟨natToDec (a / 10)⟩ ++ "." ++ ⟨natToDec (a % 10)⟩

/-! ### Python string/regex operations used by the script -/

/-- Fuelled scanner for Python `s.replace(sub, repl)` (all non-overlapping
occurrences, left to right). -/
def pyReplaceF (sub repl : List Char) : Nat → List Char → List Char
  | 0, l => l
  | _ + 1, [] => []
  | fuel + 1, c :: cs =>
    if listPreB sub (c :: cs) then
      repl ++ pyReplaceF sub repl fuel ((c :: cs).drop sub.length)
    else c :: pyReplaceF sub repl fuel cs

/-- Python `s.replace(sub, repl)` for nonempty `sub`. -/
def pyReplace (s sub repl : String) : String :=
  if sub.data = [] then s
  else ⟨pyReplaceF sub.data repl.data (s.data.length + 1) s.data⟩

/-- Python `s.count(c)` for a single character. -/
def countChar (c : Char) (s : String) : Nat := s.data.count c

/-- Fuelled scanner for `re.sub` of `\s+` with a single space. -/
def wsCollapseF : Nat → List Char → List Char
  | 0, l => l
  | _ + 1, [] => []
  | fuel + 1, c :: cs =>
    if isPyWs c then ' ' :: wsCollapseF fuel (cs.dropWhile isPyWs)
    else c :: wsCollapseF fuel cs

/-- `re.sub` of `\s+` with a single space. -/
def wsCollapse (s : String) : String := ⟨wsCollapseF (s.data.length + 1) s.data⟩

/-- Fuelled scanner for `re.sub` of a greater-than sign, whitespace run and
less-than sign with the two adjacent brackets. -/
def gtLtF : Nat → List Char → List Char
  | 0, l => l
  | _ + 1, [] => []
  | fuel + 1, c :: cs =>
    if c = '>' then
      let run := cs.takeWhile isPyWs
      if run.length > 0 && ((cs.drop run.length).head? == some '<') then
        '>' :: '<' :: gtLtF fuel (cs.drop (run.length + 1))
      else '>' :: gtLtF fuel cs
    else c :: gtLtF fuel cs

/-- `re.sub` collapsing whitespace between consecutive tags. -/
def gtLtCollapse (s : String) : String := ⟨gtLtF (s.data.length + 1) s.data⟩

/-- Index of the first occurrence of `sub` in `l`, if any. -/
def firstIdx (sub : List Char) : List Char → Option Nat
  | [] => if listPreB sub [] then some 0 else none
  | c :: cs =>
    if listPreB sub (c :: cs) then some 0
    else (firstIdx sub cs).map (· + 1)

/-- Fuelled scanner for `re.sub` removing lazily-matched markup comments. -/
def stripCommentsF : Nat → List Char → List Char
  | 0, l => l
  | _ + 1, [] => []
  | fuel + 1, c :: cs =>
    if listPreB "<!--".data (c :: cs) then
      match firstIdx "-->".data ((c :: cs).drop 4) with
      | some i => stripCommentsF fuel ((c :: cs).drop (4 + i + 3))
      | none => c :: cs
    else c :: stripCommentsF fuel cs

/-- `re.sub` removing markup comments. -/
def stripComments (s : String) : String :=
  ⟨stripCommentsF (s.data.length + 1) s.data⟩

/-- Fuelled scanner for the script's tag-rewriting `re.sub` calls: the
pattern is the opening literal, any run of non-`>` characters (the
discarded attributes), `>`, a lazily-matched body, and the closing literal;
the replacement re-emits a bare opening tag around the transformed body.
`F` is the inner minifier, whose exception aborts the whole substitution. -/
def subTagF (openLit closeLit : List Char) (F : String → Except String String) :
    Nat → List Char → Except String (List Char)
  | 0, l => .ok l
  | _ + 1, [] => .ok []
  | fuel + 1, c :: cs =>
    if listPreB openLit (c :: cs) then
      let after := (c :: cs).drop openLit.length
      let attrs := after.takeWhile (· ≠ '>')
      match after.drop attrs.length with
      | '>' :: bodyStart =>
        match firstIdx closeLit bodyStart with
        | some i =>
          match F ⟨bodyStart.take i⟩ with
          | .error e => .error e
          | .ok m =>
            (subTagF openLit closeLit F fuel (bodyStart.drop (i + closeLit.length))).map
              (fun tail => openLit ++ '>' :: (m.data ++ closeLit ++ tail))
        | none => (subTagF openLit closeLit F fuel cs).map (c :: ·)
      | _ => (subTagF openLit closeLit F fuel cs).map (c :: ·)
    else (subTagF openLit closeLit F fuel cs).map (c :: ·)

/-- `re.sub` rewriting every tag block of the given name. -/
def subTag (tag : String) (F : String → Except String String) (s : String) :
    Except String String :=
  (subTagF ("<" ++ tag).data ("</" ++ tag ++ ">").data F (s.data.length + 1) s.data).map
    String.mk

/-- Numeric value of a list of decimal digit characters. -/
def decValue (ds : List Char) : Nat :=
  ds.foldl (fun a c => 10 * a + (c.toNat - 48)) 0

/-- The literal part of the size-extraction regex in `process_directory`. -/
def litMS : List Char := "minified_size=\x22".data

/-- Attempt the size-extraction regex at the head of `l`. -/
def tryMS (l : List Char) : Option Nat :=
  if listPreB litMS l then
    let rest := l.drop litMS.length
    let ds := rest.takeWhile Char.isDigit
    if ds.length > 0 && ((rest.drop ds.length).head? == some '\x22') then
      some (decValue ds)
    else none
  else none

/-- Leftmost match of the regex extracting the reported minified size, as
`re.search` followed by `int` in `process_directory`. -/
def findMSgo : List Char → Option Nat
  | [] => none
  | c :: cs =>
    match tryMS (c :: cs) with
    | some n => some n
    | none => findMSgo cs

/-- Leftmost minified-size attribute value in a formatted block. -/
def findMS (s : String) : Option Nat := findMSgo s.data

/-- Fuelled Python `content.split()` (split on whitespace runs, no empties). -/
def pyWordsF : Nat → List Char → List (List Char)
  | 0, _ => []
  | _ + 1, [] => []
  | fuel + 1, c :: cs =>
    if isPyWs c then pyWordsF fuel cs
    else (c :: cs.takeWhile (fun x => !isPyWs x)) ::
      pyWordsF fuel (cs.dropWhile (fun x => !isPyWs x))

/-- The generic minifier: join the whitespace-split words with one space. -/
def pyWordJoin (s : String) : String :=
  joinSep " " ((pyWordsF (s.data.length + 1) s.data).map String.mk)

/-! ### Path arithmetic (`os.path`) -/

/-- Collapse `.`/`..`/empty components, as `os.path.abspath` normalisation
does on an absolute path. -/
def normComps (cs : List String) : List String :=
  cs.foldl
    (fun acc c =>
      if c = "" || c = "." then acc
      else if c = ".." then acc.dropLast
      else acc ++ [c])
    []

/-- Length of the longest common initial segment of two component lists. -/
def commonPrefixLen : List String → List String → Nat
  | a :: as, b :: bs => if a = b then commonPrefixLen as bs + 1 else 0
  | _, _ => 0

/-- `os.path.relpath(p)` against a process working directory given as the
component list of an absolute path. -/
def pyRelpath (cwdComps : List String) (p : String) : String :=
  let pcs := (splitList '/' p.data).map String.mk
  let a := if p.data.head? = some '/' then normComps pcs
           else normComps (cwdComps ++ pcs)
  let c := normComps cwdComps
  let i := commonPrefixLen c a
  let res := List.replicate (c.length - i) ".." ++ a.drop i
  if res = [] then "." else joinSep "/" res

/-- `os.path.join(a, b)` for the shapes the script produces. -/
def pyJoin (a b : String) : String :=
  if a = "" then b
  else if a.data.getLast? = some '/' then a ++ b
  else a ++ "/" ++ b

/-! ### The structured-data (JSON) external collaborator

Modelled from the spec: the `json` module is an out-of-scope black box
("structured-data content is canonicalized by parsing and re-serializing
with no extraneous whitespace").  The model covers null, booleans, integer
numbers, escape-free strings and nested arrays/objects — the fragment the
spec's scenarios exercise; floats and string escapes are outside the
modelled subset (`jparseVal` rejects them, so dispatch falls back to the
original content there). -/

mutual

inductive Json where
  | null : Json
  | bool (b : Bool) : Json
  | int (n : Int) : Json
  | str (s : String) : Json
  | arr (xs : JList) : Json
  | obj (xs : JObj) : Json
  deriving DecidableEq

inductive JList where
  | nil : JList
  | cons (hd : Json) (tl : JList) : JList
  deriving DecidableEq

inductive JObj where
  | nil : JObj
  | cons (k : String) (v : Json) (tl : JObj) : JObj
  deriving DecidableEq

end

/-- Decimal rendering of an integer, as Python `str(n)`. -/
def intToStr (n : Int) : String :=
  if n < 0 then "-" ++ ⟨natToDec n.natAbs⟩ else ⟨natToDec n.natAbs⟩

mutual

/-- `json.dumps(v, separators=(',', ':'))`. -/
def jdump : Json → String
  | .null => "null"
  | .bool true => "true"
  | .bool false => "false"
  | .int n => intToStr n
  | .str s => "\x22" ++ s ++ "\x22"
  | .arr xs => "[" ++ jdumpList xs ++ "]"
  | .obj xs => "\x7b" ++ jdumpObj xs ++ "\x7d"

/-- Comma-joined dump of array elements. -/
def jdumpList : JList → String
  | .nil => ""
  | .cons h .nil => jdump h
  | .cons h (.cons h2 t) => jdump h ++ "," ++ jdumpList (.cons h2 t)

/-- Comma-joined dump of object members. -/
def jdumpObj : JObj → String
  | .nil => ""
  | .cons k v .nil => "\x22" ++ k ++ "\x22:" ++ jdump v
  | .cons k v (.cons k2 v2 t) =>
    "\x22" ++ k ++ "\x22:" ++ jdump v ++ "," ++ jdumpObj (.cons k2 v2 t)

end

/-- Whitespace skipped between JSON tokens. -/
def isJsonWs (c : Char) : Bool := c = ' ' || c = '\t' || c = '\n' || c = '\x0d'

/-- Parse a JSON string body (after the opening quote) up to the closing
quote; escapes and control characters are outside the modelled subset. -/
def jparseStr : List Char → Option (String × List Char)
  | [] => none
  | c :: cs =>
    if c = '\x22' then some ("", cs)
    else if c = '\\' || c.toNat < 32 then none
    else (jparseStr cs).map (fun p => (⟨c :: p.1.data⟩, p.2))

/-- Python `dict` construction step: assignment replaces the value of an
existing key in place, otherwise appends. -/
def jobjInsert (k : String) (v : Json) : JObj → JObj
  | .nil => .cons k v .nil
  | .cons k2 v2 t =>
    if k = k2 then .cons k2 v t else .cons k2 v2 (jobjInsert k v t)

/-- Fold a member list into a Python `dict`, in insertion order. -/
def pydictOf (ms : List (String × Json)) : JObj :=
  ms.foldl (fun d m => jobjInsert m.1 m.2 d) .nil

mutual

/-- Fuelled JSON value parser (`json.loads` scanner on the modelled
subset). -/
def jparseVal : Nat → List Char → Option (Json × List Char)
  | 0, _ => none
  | fuel + 1, input =>
    match input.dropWhile isJsonWs with
    | [] => none
    | c :: cs =>
      if c = 'n' then
        if listPreB "ull".data cs then some (.null, cs.drop 3) else none
      else if c = 't' then
        if listPreB "rue".data cs then some (.bool true, cs.drop 3) else none
      else if c = 'f' then
        if listPreB "alse".data cs then some (.bool false, cs.drop 4) else none
      else if c = '\x22' then
        (jparseStr cs).map (fun p => (.str p.1, p.2))
      else if c = '-' then
        match cs.takeWhile Char.isDigit with
        | [] => none
        | ds => some (.int (-(decValue ds : Int)), cs.drop ds.length)
      else if c.isDigit then
        let ds := (c :: cs).takeWhile Char.isDigit
        some (.int (decValue ds), (c :: cs).drop ds.length)
      else if c = '[' then
        match cs.dropWhile isJsonWs with
        | ']' :: r => some (.arr .nil, r)
        | _ => (jparseItems fuel cs).map (fun p => (.arr p.1, p.2))
      else if c = '\x7b' then
        match cs.dropWhile isJsonWs with
        | '\x7d' :: r => some (.obj .nil, r)
        | _ => (jparseMembers fuel cs).map (fun p => (.obj (pydictOf p.1), p.2))
      else none

/-- Fuelled parser for the elements of a nonempty array, up to and
including the closing bracket. -/
def jparseItems : Nat → List Char → Option (JList × List Char)
  | 0, _ => none
  | fuel + 1, l => do
    let (v, r) ← jparseVal fuel l
    match r.dropWhile isJsonWs with
    | ',' :: r2 =>
      let (xs, r3) ← jparseItems fuel r2
      some (.cons v xs, r3)
    | ']' :: r2 => some (.cons v .nil, r2)
    | _ => none

/-- Fuelled parser for the members of a nonempty object, up to and
including the closing brace, returned in source order. -/
def jparseMembers : Nat → List Char → Option (List (String × Json) × List Char)
  | 0, _ => none
  | fuel + 1, l =>
    match l.dropWhile isJsonWs with
    | '\x22' :: cs => do
      let (k, r) ← jparseStr cs
      match r.dropWhile isJsonWs with
      | ':' :: r2 => do
        let (v, r3) ← jparseVal fuel r2
        match r3.dropWhile isJsonWs with
        | ',' :: r4 =>
          let (xs, r5) ← jparseMembers fuel r4
          some ((k, v) :: xs, r5)
        | '\x7d' :: r4 => some ([(k, v)], r4)
        | _ => none
      | _ => none
    | _ => none

end

/-- `json.loads` on the modelled subset: parse one value, then require
only whitespace to remain. -/
def jsonLoads (s : String) : Option Json :=
  match jparseVal (s.data.length + 1) s.data with
  | some (v, r) => if r.dropWhile isJsonWs = [] then some v else none
  | none => none

/-- The members of an object, in order. -/
def jolist : JObj → List (String × Json)
  | .nil => []
  | .cons k v t => (k, v) :: jolist t

/-- The keys of an object, in order. -/
def jokeys : JObj → List String
  | .nil => []
  | .cons k _ t => k :: jokeys t

/-- Concatenation of member lists. -/
def joApp : JObj → JObj → JObj
  | .nil, e => e
  | .cons k v t, e => .cons k v (joApp t e)

/-- A character the modelled string parser accepts inside a string body. -/
def okChar (c : Char) : Bool :=
  !(c = '\x22') && !(c = '\\') && !(c.toNat < 32)

/-- A string the modelled parser can produce: no quote, backslash or
control character. -/
def strOK (s : String) : Bool := s.data.all okChar

mutual

/-- Values in the image of the modelled parser: parser-producible strings
everywhere and duplicate-free object keys. -/
def jwf : Json → Bool
  | .null => true
  | .bool _ => true
  | .int _ => true
  | .str s => strOK s
  | .arr xs => jlwf xs
  | .obj xs => jowf xs

/-- `jwf` on every element. -/
def jlwf : JList → Bool
  | .nil => true
  | .cons h t => jwf h && jlwf t

/-- `jwf` values, parser-producible keys, and no duplicate key. -/
def jowf : JObj → Bool
  | .nil => true
  | .cons k v t => strOK k && jwf v && jowf t && !((jokeys t).contains k)

end

/-! ### Minification dispatch (`minify_content`) -/

/-- The external per-format compressors (`jsmin.jsmin`,
`csscompressor.compress`, `htmlmin.minify`), modelled as oracles that
either return transformed text or raise. -/
structure MinOracles where
  jsminF : String → Except String String
  cssF : String → Except String String
  htmlF : String → Except String String

/-- The body of `minify_content`'s `try` block: format dispatch, where any
raised exception surfaces as an `error`. -/
def minifyDispatch (o : MinOracles) (content fileType : String) :
    Except String String :=
  if fileType = "javascript" || fileType = "typescript" then o.jsminF content
  else if fileType = "css" || fileType = "scss" then o.cssF content
  else if fileType = "html" then o.htmlF content
  else if fileType = "json" then
    match jsonLoads content with
    | some v => .ok (jdump v)
    | none => .error "Expecting value"
  else if fileType = "svelte" then do
    let c1 := stripComments content
    let c2 ← subTag "script" o.jsminF c1
    let c3 ← subTag "style" o.cssF c2
    .ok (pyStrip (gtLtCollapse (wsCollapse c3)))
  else .ok (pyWordJoin content)

/-- `minify_content`: the dispatch result, falling back to the original
content when the dispatch raises. -/
def minifyContent (o : MinOracles) (content fileType : String) : String :=
  match minifyDispatch o content fileType with
  | .ok s => s
  | .error _ => content

/-! ### The gitignore matcher (`GitignoreFilter` over `pathspec`)

Modelled from the spec: `pathspec` is an out-of-scope black box
("an ignore-pattern matcher conforming to standard glob-ignore semantics:
directory-relative patterns, `**` wildcards, negation").  The model covers
literal patterns with the standard gitignore structure — comments, blank
lines, `!` negation, trailing-slash directory-only patterns, slash
anchoring, matching any path component and everything beneath a matched
directory, last match wins; glob wildcards are outside the modelled subset
(no claim exercises them). -/

structure GiPattern where
  neg : Bool
  dirOnly : Bool
  anchored : Bool
  comps : List String
  deriving DecidableEq

/-- Parse one line of a gitignore file into a pattern, if it denotes one. -/
def parseGiLine (line : String) : Option GiPattern :=
  match line.data with
  | [] => none
  | '#' :: _ => none
  | _ =>
    let neg := line.data.head? = some '!'
    let body : List Char := if neg then line.data.tail else line.data
    if body = [] then none else
    let dirOnly := body.getLast? = some '/'
    let core : List Char := if dirOnly then body.dropLast else body
    if core = [] then none else
    let lead := core.head? = some '/'
    let core2 : List Char := if lead then core.tail else core
    let anchored := lead || core2.contains '/'
    some ⟨neg, dirOnly, anchored, (splitList '/' core2).map String.mk⟩

/-- Boolean initial-segment test on component lists. -/
def compsPreB : List String → List String → Bool
  | [], _ => true
  | _ :: _, [] => false
  | a :: as, b :: bs => a = b && compsPreB as bs

/-- One pattern against a root-relative path (as components): anchored
patterns match from the root, others match any component; a matched
directory covers everything beneath it; directory-only patterns need a
component after the match. -/
def giMatches (p : GiPattern) (path : List String) : Bool :=
  if p.anchored then
    compsPreB p.comps path && (!p.dirOnly || p.comps.length < path.length)
  else
    match p.comps with
    | [lit] => if p.dirOnly then path.dropLast.contains lit else path.contains lit
    | _ => false

/-- `PathSpec.match_file`: last matching pattern wins, default not
ignored. -/
def matchFile (ps : List GiPattern) (path : List String) : Bool :=
  (ps.foldl (fun acc p => if giMatches p path then some (!p.neg) else acc) none).getD
    false

/-! ### The filesystem model and inclusion filter -/

mutual

inductive Ent where
  | file (name : String) (content : Option String) : Ent
  | dir (name : String) (children : Ents) : Ent

inductive Ents where
  | nil : Ents
  | cons (e : Ent) (rest : Ents) : Ents

end

/-- The files of one directory, in listing order, with `none` standing for
content that does not decode as UTF-8. -/
def fileList : Ents → List (String × Option String)
  | .nil => []
  | .cons (.file n c) r => (n, c) :: fileList r
  | .cons (.dir _ _) r => fileList r

/-- Strict lexicographic comparison of character lists by code point, the
order Python string comparison uses. -/
def charsLtB : List Char → List Char → Bool
  | [], [] => false
  | [], _ :: _ => true
  | _ :: _, [] => false
  | a :: as, b :: bs =>
    if a.toNat < b.toNat then true
    else if b.toNat < a.toNat then false
    else charsLtB as bs

/-- Stable insertion of a named entry into a name-sorted list: a new entry
goes after existing entries with an equal name. -/
def insertByName (x : String × Option String) :
    List (String × Option String) → List (String × Option String)
  | [] => [x]
  | y :: ys =>
    if charsLtB x.1.data y.1.data then x :: y :: ys else y :: insertByName x ys

/-- Python `sorted(files)`: ascending by name, stable. -/
def sortByName (l : List (String × Option String)) :
    List (String × Option String) :=
  l.foldl (fun acc x => insertByName x acc) []

/-- `GitignoreFilter` construction: read `.gitignore` at the root if it
exists and decodes; otherwise the empty spec. -/
def loadGitignore (root : Ents) : List GiPattern :=
  match (fileList root).find? (fun f => f.1 = ".gitignore") with
  | some (_, some content) =>
    (splitList '\n' content.data).filterMap (fun l => parseGiLine ⟨l⟩)
  | _ => []

/-- The fixed skip list of `should_include_file` plus caller patterns. -/
def skipPatterns (excl : List String) : List String :=
  ["node_modules", ".git", ".svelte-kit", "build", "__pycache__", ".DS_Store",
    ".env", "package-lock.json", "package.json", "yarn.lock"] ++ excl

/-- The binary extensions `should_include_file` always skips. -/
def binaryExts : List String :=
  [".png", ".jpg", ".jpeg", ".gif", ".ico", ".woff", ".woff2", ".ttf", ".eot"]

/-- `should_include_file` on the file at root-relative components
`relComps`; the string path handed to the substring checks is the walk's
join of the command-line root argument with the relative path. -/
def shouldIncludeFile (giPats : List GiPattern) (excl : List String)
    (rootArg : String) (relComps : List String) : Bool :=
  let fullPath := pyJoin rootArg (joinSep "/" relComps)
  if matchFile giPats relComps then false
  else if strInfB ".DS_Store" fullPath then false
  else if strInfB "node_modules" fullPath then false
  else if (skipPatterns excl).any (fun p => strInfB p fullPath) then false
  else !(binaryExts.contains (strLower (pySuffix fullPath)))

/-- The extension-to-type table of `get_file_type`. -/
def fileTypesMap : List (String × String) :=
  [(".svelte", "svelte"), (".ts", "typescript"), (".js", "javascript"),
    (".css", "css"), (".scss", "scss"), (".json", "json"),
    (".md", "markdown"), (".html", "html")]

/-- `get_file_type`: classify by lower-cased extension, default text. -/
def getFileType (p : String) : String :=
  match fileTypesMap.lookup (strLower (pySuffix p)) with
  | some t => t
  | none => "text"

/-! ### Block formatting (`format_file_content`) -/

/-- UTF-8 byte length, as Python `len(s.encode('utf-8'))`. -/
def utf8Len (s : String) : Nat := s.utf8ByteSize

/-- The fenced tail of a formatted block. -/
def blockTail (fileType body : String) : String :=
  ">\n```" ++ fileType ++ "\n" ++ body ++
    (if body.data.getLast? = some '\n' then "" else "\n") ++ "```\n</file>\n\n"

/-- `format_file_content`; the `error` case is the `ZeroDivisionError`
that `calculate_size_reduction` raises on an empty original. -/
def formatFileContent (o : MinOracles) (cwd : List String)
    (filePath content fileType : String) (minify : Bool) :
    Except Unit String :=
  let relativePath := pyRelpath cwd filePath
  let base := "<file path=\x22" ++ relativePath ++ "\x22 type=\x22" ++
    fileType ++ "\x22"
  if minify then
    let minified := minifyContent o content fileType
    let origSize := utf8Len content
    let minSize := utf8Len minified
    if origSize = 0 then .error ()
    else
      .ok (base ++ " original_size=\x22" ++ (⟨natToDec origSize⟩ : String) ++
        "\x22 minified_size=\x22" ++ (⟨natToDec minSize⟩ : String) ++
        "\x22 reduction=\x22" ++
        fmt1frac ((origSize - minSize : Int) * 100) origSize ++ "%\x22" ++
        blockTail fileType minified)
  else .ok (base ++ blockTail fileType content)

/-! ### The two traversals of `process_directory` -/

/-- One line of the structure section: a visited directory, or a file the
inclusion filter kept. -/
inductive SItem where
  | dirLine (rel : List String) : SItem
  | fileLine (rel : List String) (name : String) : SItem
  deriving DecidableEq

/-- The structure pass's directory pruning predicate (`dirs[:] = ...`):
a subdirectory is dropped when the gitignore spec ignores it, a caller
exclude pattern occurs in its name, it is named `node_modules`, or its
name contains `.DS_Store`. -/
def pruneDir (giPats : List GiPattern) (excl : List String)
    (rel : List String) (d : String) : Bool :=
  matchFile giPats (rel ++ [d]) || excl.any (fun p => strInfB p d) ||
    d = "node_modules" || strInfB ".DS_Store" d

/-- The file lines the structure pass writes for one visited directory. -/
def structFilesHere (giPats : List GiPattern) (excl : List String)
    (rootArg : String) (rel : List String) (es : Ents) : List SItem :=
  (sortByName (fileList es)).filterMap fun f =>
    if shouldIncludeFile giPats excl rootArg (rel ++ [f.1]) then
      some (.fileLine rel f.1)
    else none

/-- The structure pass below one directory: `os.walk` order with the
pruned subdirectories removed before descent. -/
def structWalkSubs (giPats : List GiPattern) (excl : List String)
    (rootArg : String) (rel : List String) : Ents → List SItem
  | .nil => []
  | .cons (.file _ _) rest => structWalkSubs giPats excl rootArg rel rest
  | .cons (.dir d kids) rest =>
    (if pruneDir giPats excl rel d then []
     else .dirLine (rel ++ [d]) ::
       (structFilesHere giPats excl rootArg (rel ++ [d]) kids ++
         structWalkSubs giPats excl rootArg (rel ++ [d]) kids)) ++
    structWalkSubs giPats excl rootArg rel rest

/-- All structure-section items for the whole tree. -/
def structItems (giPats : List GiPattern) (excl : List String)
    (rootArg : String) (root : Ents) : List SItem :=
  structFilesHere giPats excl rootArg [] root ++
    structWalkSubs giPats excl rootArg [] root

/-- The root-relative path a structure item stands for, if it is a file. -/
def sItemPath : SItem → Option (List String)
  | .fileLine rel name => some (rel ++ [name])
  | .dirLine _ => none

/-- The root-relative paths of the files the structure section lists. -/
def structFilePaths (giPats : List GiPattern) (excl : List String)
    (rootArg : String) (root : Ents) : List (List String) :=
  (structItems giPats excl rootArg root).filterMap sItemPath

/-- The files of one directory as content-pass work items. -/
def contentFilesHere (rel : List String) (es : Ents) :
    List (List String × String × Option String) :=
  (sortByName (fileList es)).map fun f => (rel, f.1, f.2)

/-- The content pass below one directory: `os.walk` order with no pruning
(the second loop ignores the directory list). -/
def contentWalkSubs (rel : List String) :
    Ents → List (List String × String × Option String)
  | .nil => []
  | .cons (.file _ _) rest => contentWalkSubs rel rest
  | .cons (.dir d kids) rest =>
    (contentFilesHere (rel ++ [d]) kids ++ contentWalkSubs (rel ++ [d]) kids) ++
      contentWalkSubs rel rest

/-- All content-pass work items for the whole tree. -/
def contentItems (root : Ents) : List (List String × String × Option String) :=
  contentFilesHere [] root ++ contentWalkSubs [] root

/-- The directories the content pass's `os.walk` visits, in order. -/
def contentVisitSubs (rel : List String) : Ents → List (List String)
  | .nil => []
  | .cons (.file _ _) rest => contentVisitSubs rel rest
  | .cons (.dir d kids) rest =>
    (rel ++ [d]) :: (contentVisitSubs (rel ++ [d]) kids ++ contentVisitSubs rel rest)

/-- All directories the content pass visits, the root first. -/
def contentVisited (root : Ents) : List (List String) :=
  [] :: contentVisitSubs [] root

/-- Running state of the content pass: size totals, written blocks, the
per-file sizes the blocks report, and which files got a block. -/
structure EmitState where
  totO : Nat
  totM : Nat
  blocks : List String
  reported : List (Nat × Nat)
  emitted : List (List String)
  deriving DecidableEq

/-- One iteration of the content loop: filter, read (a `none` content is
the `UnicodeDecodeError` skip), accumulate the original size, format, and
re-extract the reported minified size with the regex; the per-file
`except` clauses turn a formatting failure into a skip. -/
def emitStep (o : MinOracles) (cwd : List String) (giPats : List GiPattern)
    (excl : List String) (rootArg : String) (minify : Bool)
    (st : EmitState) (item : List String × String × Option String) :
    EmitState :=
  let relFile := item.1 ++ [item.2.1]
  if shouldIncludeFile giPats excl rootArg relFile then
    match item.2.2 with
    | none => st
    | some content =>
      let filePath := pyJoin rootArg (joinSep "/" relFile)
      let fileType := getFileType filePath
      if minify then
        let origSize := utf8Len content
        let st1 := { st with totO := st.totO + origSize }
        match formatFileContent o cwd filePath content fileType true with
        | .error _ => st1
        | .ok blockStr =>
          match findMS blockStr with
          | some m =>
            { st1 with
              totM := st1.totM + m
              blocks := st1.blocks ++ [blockStr]
              reported := st1.reported ++
                [(origSize, utf8Len (minifyContent o content fileType))]
              emitted := st1.emitted ++ [relFile] }
          | none => st1
      else
        match formatFileContent o cwd filePath content fileType false with
        | .error _ => st
        | .ok blockStr =>
          { st with
            blocks := st.blocks ++ [blockStr]
            emitted := st.emitted ++ [relFile] }
  else st

/-- The whole content pass. -/
def emitAll (o : MinOracles) (cwd : List String) (giPats : List GiPattern)
    (excl : List String) (rootArg : String) (minify : Bool) (root : Ents) :
    EmitState :=
  (contentItems root).foldl (emitStep o cwd giPats excl rootArg minify)
    ⟨0, 0, [], [], []⟩

/-- Render one structure-section line, including the level computation
done by replacing the directory argument in the walk root and counting
separators. -/
def renderSItem (rootArg : String) : SItem → String
  | .dirLine rel =>
    let rootStr := pyJoin rootArg (joinSep "/" rel)
    let level := countChar '/' (pyReplace rootStr rootArg "")
    (⟨List.replicate (2 * level) ' '⟩ : String) ++ "- " ++ rel.getLastD "" ++ "/\n"
  | .fileLine rel name =>
    let rootStr := if rel = [] then rootArg else pyJoin rootArg (joinSep "/" rel)
    let level := countChar '/' (pyReplace rootStr rootArg "")
    (⟨List.replicate (2 * level) ' '⟩ : String) ++ "  - " ++ name ++ "\n"

/-- The one modelled fatal exception inside `process_directory`. -/
inductive PyErr where
  | zeroDivision : PyErr
  deriving DecidableEq

/-- `process_directory`: build the structure section, the files section
and (with minification) the statistics block; dividing the overall
reduction by a zero total original size raises. -/
def processDirectory (o : MinOracles) (cwd : List String) (rootArg : String)
    (root : Ents) (excl : List String) (minify : Bool) :
    Except PyErr String :=
  let giPats := loadGitignore root
  let st := emitAll o cwd giPats excl rootArg minify root
  let structureSec := "<structure>\n" ++
    String.join ((structItems giPats excl rootArg root).map (renderSItem rootArg)) ++
    "</structure>\n\n"
  let filesSec := "<files>\n" ++ String.join st.blocks ++ "</files>\n"
  if minify then
    if st.totO = 0 then .error .zeroDivision
    else
      .ok ("<project>\n\n" ++ structureSec ++ filesSec ++
        "\n<statistics>\nTotal original size: " ++ natGrouped st.totO ++
        " bytes\nTotal minified size: " ++ natGrouped st.totM ++
        " bytes\nOverall reduction: " ++
        fmt1frac ((st.totO - st.totM : Int) * 100) st.totO ++
        "%\n</statistics>\n</project>")
  else .ok ("<project>\n\n" ++ structureSec ++ filesSec ++ "</project>")

/-! ### The entry point (`main` and `exit(main())`) -/

/-- `main` after argument parsing: an invalid directory prints an error
and falls through a bare `return` (value `None`); otherwise the run maps
success to `0` and a raised exception to `1`. -/
def mainModel (dirIsValid : Bool) (runResult : Except PyErr String) :
    Option Int :=
  if !dirIsValid then none
  else
    match runResult with
    | .ok _ => some 0
    | .error _ => some 1

/-- `exit(main())`: `exit(None)` terminates with status `0`, `exit(n)`
with status `n`. -/
def exitCode (r : Option Int) : Int := r.getD 0

/-! ### Concrete fixtures used by witnesses and counterexamples -/

/-- Oracles that return their input unchanged (no claim below depends on
what the external compressors produce on these fixtures). -/
def idO : MinOracles := ⟨fun s => .ok s, fun s => .ok s, fun s => .ok s⟩

/-- Oracles whose script compressor raises. -/
def failO : MinOracles :=
  ⟨fun _ => .error "boom", fun s => .ok s, fun s => .ok s⟩

/-- The root of the spec's minification scenario: `a.json` with sloppy
spacing, a `.gitignore` ignoring `b.txt`, and `b.txt` itself. -/
def c1tree : Ents :=
  .cons (.file ".gitignore" (some "b.txt"))
    (.cons (.file "a.json" (some "\x7b\x22a\x22:   1\x7d"))
      (.cons (.file "b.txt" (some "hello")) .nil))

/-- The document the model produces for `c1tree` with minification. -/
def c1expected : String :=
  "<project>\n\n<structure>\n  - a.json\n</structure>\n\n<files>\n" ++
  "<file path=\x22proj/a.json\x22 type=\x22json\x22 original_size=\x2210\x22 " ++
  "minified_size=\x227\x22 reduction=\x2230.0%\x22>\n```json\n" ++
  "\x7b\x22a\x22:1\x7d\n```\n</file>\n\n</files>\n\n<statistics>\n" ++
  "Total original size: 10 bytes\nTotal minified size: 7 bytes\n" ++
  "Overall reduction: 30.0%\n</statistics>\n</project>"

/-- A root with one file whose bytes do not decode as UTF-8. -/
def c2tree : Ents := .cons (.file "data.txt" none) .nil

/-- A root with noise directories `.git` and `node_modules` plus one
ordinary file. -/
def c4tree : Ents :=
  .cons (.dir ".git" (.cons (.file "config" (some "x")) .nil))
    (.cons (.dir "node_modules" (.cons (.file "a.js" (some "y")) .nil))
      (.cons (.file "idx.md" (some "hi there")) .nil))

/-- A file name that embeds a string matching the size-extraction regex. -/
def c6name : String := "aminified_size=\x223\x22b.md"

/-- A root whose single file name spoofs the size-extraction regex. -/
def c6tree : Ents := .cons (.file c6name (some "hello  world")) .nil

/-- A root containing only a binary-extension file. -/
def c8tree : Ents := .cons (.file "logo.png" (some "z")) .nil

/-- The document the model produces for `c4tree` without minification. -/
def c4expected : String :=
  "<project>\n\n<structure>\n  - idx.md\n  - .git/\n</structure>\n\n" ++
  "<files>\n<file path=\x22proj/idx.md\x22 type=\x22markdown\x22>\n" ++
  "```markdown\nhi there\n```\n</file>\n\n</files>\n</project>"

/-- The noise-directory names claim C4 talks about (all are entries of the
fixed skip list). -/
def noiseNames : List String :=
  [".git", "node_modules", "build", "__pycache__", ".svelte-kit"]

/-- Every file content in the tree decodes, and — when `minify` is set —
is nonempty (so the per-file size reduction never divides by zero). -/
def contentsOk (minify : Bool) : Ents → Bool
  | .nil => true
  | .cons (.file _ none) _ => false
  | .cons (.file _ (some c)) r => (!minify || !c.data.isEmpty) && contentsOk minify r
  | .cons (.dir _ kids) r => contentsOk minify kids && contentsOk minify r

/-- A path string is clean when none of its slash-separated components is
empty, `.` or `..` (so `os.path` normalisation leaves it alone). -/
def cleanComps (s : String) : Prop :=
  ∀ c ∈ (splitList '/' s.data).map String.mk, c ≠ "" ∧ c ≠ "." ∧ c ≠ ".."

instance (s : String) : Decidable (cleanComps s) := by
  unfold cleanComps
  infer_instance

/-- The empty content-pass state. -/
def zeroES : EmitState := ⟨0, 0, [], [], []⟩

/-- Componentwise accumulation of content-pass state. -/
def addDelta (st d : EmitState) : EmitState :=
  ⟨st.totO + d.totO, st.totM + d.totM, st.blocks ++ d.blocks,
    st.reported ++ d.reported, st.emitted ++ d.emitted⟩

/-- What one content-pass iteration contributes, as a stand-alone state
(the same branch structure as `emitStep`). -/
def itemDelta (o : MinOracles) (cwd : List String) (giPats : List GiPattern)
    (excl : List String) (rootArg : String) (minify : Bool)
    (it : List String × String × Option String) : EmitState :=
  let relFile := it.1 ++ [it.2.1]
  if shouldIncludeFile giPats excl rootArg relFile then
    match it.2.2 with
    | none => zeroES
    | some content =>
      let filePath := pyJoin rootArg (joinSep "/" relFile)
      let fileType := getFileType filePath
      if minify then
        let origSize := utf8Len content
        match formatFileContent o cwd filePath content fileType true with
        | .error _ => ⟨origSize, 0, [], [], []⟩
        | .ok blockStr =>
          match findMS blockStr with
          | some m =>
            ⟨origSize, m, [blockStr],
              [(origSize, utf8Len (minifyContent o content fileType))],
              [relFile]⟩
          | none => ⟨origSize, 0, [], [], []⟩
      else
        match formatFileContent o cwd filePath content fileType false with
        | .error _ => zeroES
        | .ok blockStr => ⟨0, 0, [blockStr], [], [relFile]⟩
  else zeroES

/-- The combined contribution of a list of content-pass items. -/
def sumDeltas (o : MinOracles) (cwd : List String) (giPats : List GiPattern)
    (excl : List String) (rootArg : String) (minify : Bool)
    (l : List (List String × String × Option String)) : EmitState :=
  l.foldr (fun it acc => addDelta (itemDelta o cwd giPats excl rootArg minify it) acc)
    zeroES

/-! ### General lemmas -/

theorem strInf_append_left (p a s : String) (h : StrInf p s) :
    StrInf p (a ++ s) := by
  unfold StrInf at h ⊢
  rw [String.data_append]
  exact h.trans (List.suffix_append a.data s.data).isInfix

theorem strInf_append_right (p s a : String) (h : StrInf p s) :
    StrInf p (s ++ a) := by
  unfold StrInf at h ⊢
  rw [String.data_append]
  exact h.trans (List.prefix_append s.data a.data).isInfix

theorem strInf_refl (p : String) : StrInf p p := List.infix_refl p.data

theorem strInf_trans (p q s : String) (h1 : StrInf p q) (h2 : StrInf q s) :
    StrInf p s := h1.trans h2

theorem strInf_middle (p a b : String) : StrInf p (a ++ p ++ b) :=
  strInf_append_right p (a ++ p) b (strInf_append_left p a p (strInf_refl p))

theorem strInf_pyJoin (p a s : String) (h : StrInf p s) :
    StrInf p (pyJoin a s) := by
  unfold pyJoin
  split
  · exact h
  · split
    · exact strInf_append_left p a s h
    · have := strInf_append_left p "/" s h
      simpa [String.append_assoc] using strInf_append_left p a ("/" ++ s) this

theorem strInf_of_mem_joinSep (a : String) (comps : List String)
    (h : a ∈ comps) : StrInf a (joinSep "/" comps) := by
  induction comps with
  | nil => cases h
  | cons x xs ih =>
    rcases List.mem_cons.mp h with rfl | hx
    · cases xs with
      | nil => exact strInf_refl a
      | cons y ys =>
        show StrInf a (a ++ "/" ++ joinSep "/" (y :: ys))
        rw [String.append_assoc]
        exact strInf_append_right a a _ (strInf_refl a)
    · cases xs with
      | nil => cases hx
      | cons y ys =>
        show StrInf a (x ++ "/" ++ joinSep "/" (y :: ys))
        rw [String.append_assoc]
        exact strInf_append_left a x _ (strInf_append_left a "/" _ (ih hx))

theorem strInfB_iff (p s : String) : strInfB p s = true ↔ StrInf p s :=
  listInfB_iff p.data s.data

/-- An included file's joined path contains no skip pattern. -/
theorem shouldInclude_no_skip (giPats : List GiPattern) (excl : List String)
    (rootArg : String) (relComps : List String) (q : String)
    (hq : q ∈ skipPatterns excl)
    (h : shouldIncludeFile giPats excl rootArg relComps = true) :
    ¬ StrInf q (pyJoin rootArg (joinSep "/" relComps)) := by
  intro hinf
  unfold shouldIncludeFile at h
  have hB : strInfB q (pyJoin rootArg (joinSep "/" relComps)) = true :=
    (strInfB_iff _ _).mpr hinf
  have hany : (skipPatterns excl).any
      (fun p => strInfB p (pyJoin rootArg (joinSep "/" relComps))) = true :=
    List.any_eq_true.mpr ⟨q, hq, hB⟩
  simp only [hany] at h
  split at h <;> simp_all

/-- An included file's root-relative path contains no skip pattern
(noise-directory names in particular). -/
theorem shouldInclude_no_skip_rel (giPats : List GiPattern)
    (excl : List String) (rootArg : String) (relComps : List String)
    (q : String) (hq : q ∈ skipPatterns excl)
    (h : shouldIncludeFile giPats excl rootArg relComps = true) :
    ¬ StrInf q (joinSep "/" relComps) := fun hinf =>
  shouldInclude_no_skip giPats excl rootArg relComps q hq h
    (strInf_pyJoin q rootArg (joinSep "/" relComps) hinf)

theorem emitStep_eq_addDelta (o : MinOracles) (cwd : List String)
    (giPats : List GiPattern) (excl : List String) (rootArg : String)
    (minify : Bool) (st : EmitState)
    (it : List String × String × Option String) :
    emitStep o cwd giPats excl rootArg minify st it =
      addDelta st (itemDelta o cwd giPats excl rootArg minify it) := by
  rcases it with ⟨rel, name, contentOpt⟩
  unfold emitStep itemDelta
  by_cases hinc : shouldIncludeFile giPats excl rootArg (rel ++ [name]) = true
  · simp only [hinc, if_true]
    cases contentOpt with
    | none => simp [addDelta, zeroES]
    | some content =>
      cases minify with
      | false =>
        simp only [Bool.false_eq_true, if_false]
        cases hf : formatFileContent o cwd
            (pyJoin rootArg (joinSep "/" (rel ++ [name]))) content
            (getFileType (pyJoin rootArg (joinSep "/" (rel ++ [name])))) false with
        | error e => simp [hf, addDelta, zeroES]
        | ok b => simp [hf, addDelta, zeroES]
      | true =>
        simp only [if_true]
        cases hf : formatFileContent o cwd
            (pyJoin rootArg (joinSep "/" (rel ++ [name]))) content
            (getFileType (pyJoin rootArg (joinSep "/" (rel ++ [name])))) true with
        | error e => simp [hf, addDelta, zeroES]
        | ok b =>
          cases hm : findMS b with
          | some m => simp [hf, hm, addDelta, zeroES]
          | none => simp [hf, hm, addDelta, zeroES]
  · simp only [Bool.not_eq_true] at hinc
    simp [hinc, addDelta, zeroES]

theorem addDelta_zero (st : EmitState) : addDelta st zeroES = st := by
  simp [addDelta, zeroES]

theorem addDelta_assoc (a b c : EmitState) :
    addDelta (addDelta a b) c = addDelta a (addDelta b c) := by
  simp [addDelta, Nat.add_assoc, List.append_assoc]

theorem foldl_emitStep_eq (o : MinOracles) (cwd : List String)
    (giPats : List GiPattern) (excl : List String) (rootArg : String)
    (minify : Bool) (l : List (List String × String × Option String))
    (st : EmitState) :
    l.foldl (emitStep o cwd giPats excl rootArg minify) st =
      addDelta st (sumDeltas o cwd giPats excl rootArg minify l) := by
  induction l generalizing st with
  | nil => simp [sumDeltas, addDelta_zero]
  | cons a t ih =>
    simp only [List.foldl_cons, sumDeltas, List.foldr_cons]
    rw [emitStep_eq_addDelta, ih, ← addDelta_assoc]
    rfl

theorem emitAll_eq_sumDeltas (o : MinOracles) (cwd : List String)
    (giPats : List GiPattern) (excl : List String) (rootArg : String)
    (minify : Bool) (root : Ents) :
    emitAll o cwd giPats excl rootArg minify root =
      sumDeltas o cwd giPats excl rootArg minify (contentItems root) := by
  unfold emitAll
  rw [foldl_emitStep_eq]
  have : addDelta zeroES
      (sumDeltas o cwd giPats excl rootArg minify (contentItems root)) =
      sumDeltas o cwd giPats excl rootArg minify (contentItems root) := by
    simp [addDelta, zeroES]
  exact this

theorem sumDeltas_emitted (o : MinOracles) (cwd : List String)
    (giPats : List GiPattern) (excl : List String) (rootArg : String)
    (minify : Bool) (l : List (List String × String × Option String)) :
    (sumDeltas o cwd giPats excl rootArg minify l).emitted =
      l.flatMap (fun it => (itemDelta o cwd giPats excl rootArg minify it).emitted) := by
  induction l with
  | nil => rfl
  | cons a t ih => simp [sumDeltas, addDelta, List.flatMap_cons] at ih ⊢; simp [ih]

theorem emit_foldl_excluded (o : MinOracles) (cwd : List String)
    (giPats : List GiPattern) (excl : List String) (rootArg : String)
    (minify : Bool) (l : List (List String × String × Option String))
    (st : EmitState)
    (h : ∀ it ∈ l,
      shouldIncludeFile giPats excl rootArg (it.1 ++ [it.2.1]) = false) :
    l.foldl (emitStep o cwd giPats excl rootArg minify) st = st := by
  induction l generalizing st with
  | nil => rfl
  | cons a t ih =>
    have ha : emitStep o cwd giPats excl rootArg minify st a = st := by
      simp [emitStep, h a (List.mem_cons_self a t)]
    simpa [ha] using ih st (fun it hit => h it (List.mem_cons_of_mem a hit))

theorem structFilesHere_mem (giPats : List GiPattern) (excl : List String)
    (rootArg : String) (rel : List String) (es : Ents) (rel2 : List String)
    (name : String)
    (h : SItem.fileLine rel2 name ∈ structFilesHere giPats excl rootArg rel es) :
    rel2 = rel ∧ shouldIncludeFile giPats excl rootArg (rel ++ [name]) = true := by
  unfold structFilesHere at h
  rcases List.mem_filterMap.mp h with ⟨f, hf, hcond⟩
  by_cases hi : shouldIncludeFile giPats excl rootArg (rel ++ [f.1]) = true
  · simp only [hi, if_true, Option.some.injEq, SItem.fileLine.injEq] at hcond
    rcases hcond with ⟨rfl, rfl⟩
    exact ⟨rfl, hi⟩
  · simp [hi] at hcond

theorem structWalkSubs_fileLine (giPats : List GiPattern) (excl : List String)
    (rootArg : String) (rel2 : List String) (name : String) :
    ∀ (rel : List String) (es : Ents),
      SItem.fileLine rel2 name ∈ structWalkSubs giPats excl rootArg rel es →
        shouldIncludeFile giPats excl rootArg (rel2 ++ [name]) = true
  | _, .nil => by simp [structWalkSubs]
  | rel, .cons (.file n c) rest => fun h =>
    structWalkSubs_fileLine giPats excl rootArg rel2 name rel rest
      (by simpa [structWalkSubs] using h)
  | rel, .cons (.dir d kids) rest => fun h => by
    simp only [structWalkSubs] at h
    rcases List.mem_append.mp h with h1 | h2
    · by_cases hp : pruneDir giPats excl rel d = true
      · simp [hp] at h1
      · simp only [hp, Bool.false_eq_true, if_false, List.mem_cons] at h1
        rcases h1 with h1 | h1
        · cases h1
        · rcases List.mem_append.mp h1 with h3 | h4
          · rcases structFilesHere_mem giPats excl rootArg (rel ++ [d]) kids
              rel2 name h3 with ⟨rfl, hi⟩
            exact hi
          · exact structWalkSubs_fileLine giPats excl rootArg rel2 name
              (rel ++ [d]) kids h4
    · exact structWalkSubs_fileLine giPats excl rootArg rel2 name rel rest h2

theorem structItems_fileLine (giPats : List GiPattern) (excl : List String)
    (rootArg : String) (root : Ents) (rel2 : List String) (name : String)
    (h : SItem.fileLine rel2 name ∈ structItems giPats excl rootArg root) :
    shouldIncludeFile giPats excl rootArg (rel2 ++ [name]) = true := by
  unfold structItems at h
  rcases List.mem_append.mp h with h1 | h2
  · rcases structFilesHere_mem giPats excl rootArg [] root rel2 name h1 with
      ⟨rfl, hi⟩
    simpa using hi
  · exact structWalkSubs_fileLine giPats excl rootArg rel2 name [] root h2

theorem structFilePaths_included (giPats : List GiPattern)
    (excl : List String) (rootArg : String) (root : Ents) (fp : List String)
    (h : fp ∈ structFilePaths giPats excl rootArg root) :
    shouldIncludeFile giPats excl rootArg fp = true := by
  unfold structFilePaths at h
  rcases List.mem_filterMap.mp h with ⟨it, hit, hcond⟩
  cases it with
  | dirLine rel => simp [sItemPath] at hcond
  | fileLine rel name =>
    simp only [sItemPath, Option.some.injEq] at hcond
    subst hcond
    exact structItems_fileLine giPats excl rootArg root rel name hit

theorem pruneDir_false_not_nm (giPats : List GiPattern) (excl : List String)
    (rel : List String) (d : String) (h : pruneDir giPats excl rel d = false) :
    d ≠ "node_modules" := by
  unfold pruneDir at h
  simp only [Bool.or_eq_false_iff, decide_eq_false_iff_not] at h
  exact h.1.2

theorem structWalkSubs_dirLine_no_nm (giPats : List GiPattern)
    (excl : List String) (rootArg : String) (rel2 : List String) :
    ∀ (rel : List String) (es : Ents), "node_modules" ∉ rel →
      SItem.dirLine rel2 ∈ structWalkSubs giPats excl rootArg rel es →
        "node_modules" ∉ rel2
  | _, .nil, _ => by simp [structWalkSubs]
  | rel, .cons (.file n c) rest, hrel => fun h =>
    structWalkSubs_dirLine_no_nm giPats excl rootArg rel2 rel rest hrel
      (by simpa [structWalkSubs] using h)
  | rel, .cons (.dir d kids) rest, hrel => fun h => by
    simp only [structWalkSubs] at h
    rcases List.mem_append.mp h with h1 | h2
    · by_cases hp : pruneDir giPats excl rel d = true
      · simp [hp] at h1
      · simp only [hp, Bool.false_eq_true, if_false, List.mem_cons] at h1
        have hd : d ≠ "node_modules" :=
          pruneDir_false_not_nm giPats excl rel d (by simpa using hp)
        have hrel2 : "node_modules" ∉ rel ++ [d] := by
          intro hmem
          rcases List.mem_append.mp hmem with hmem | hmem
          · exact hrel hmem
          · simp at hmem; exact hd hmem.symm
        rcases h1 with h1 | h1
        · cases h1; exact hrel2
        · rcases List.mem_append.mp h1 with h3 | h4
          · exfalso
            unfold structFilesHere at h3
            rcases List.mem_filterMap.mp h3 with ⟨f, hf, hcond⟩
            by_cases hi : shouldIncludeFile giPats excl rootArg
                ((rel ++ [d]) ++ [f.1]) = true <;> simp [hi] at hcond
          · exact structWalkSubs_dirLine_no_nm giPats excl rootArg rel2
              (rel ++ [d]) kids hrel2 h4
    · exact structWalkSubs_dirLine_no_nm giPats excl rootArg rel2 rel rest
        hrel h2

theorem itemDelta_emitted_mem (o : MinOracles) (cwd : List String)
    (giPats : List GiPattern) (excl : List String) (rootArg : String)
    (minify : Bool) (it : List String × String × Option String)
    (r : List String)
    (h : r ∈ (itemDelta o cwd giPats excl rootArg minify it).emitted) :
    r = it.1 ++ [it.2.1] ∧
      shouldIncludeFile giPats excl rootArg (it.1 ++ [it.2.1]) = true := by
  rcases it with ⟨rel, name, contentOpt⟩
  unfold itemDelta at h
  by_cases hinc : shouldIncludeFile giPats excl rootArg (rel ++ [name]) = true
  · refine ⟨?_, hinc⟩
    simp only [hinc, if_true] at h
    cases contentOpt with
    | none => simp [zeroES] at h
    | some content =>
      cases minify with
      | false =>
        simp only [Bool.false_eq_true, if_false] at h
        cases hf : formatFileContent o cwd
            (pyJoin rootArg (joinSep "/" (rel ++ [name]))) content
            (getFileType (pyJoin rootArg (joinSep "/" (rel ++ [name])))) false with
        | error e => rw [hf] at h; simp [zeroES] at h
        | ok b => rw [hf] at h; simpa using h
      | true =>
        simp only [if_true] at h
        cases hf : formatFileContent o cwd
            (pyJoin rootArg (joinSep "/" (rel ++ [name]))) content
            (getFileType (pyJoin rootArg (joinSep "/" (rel ++ [name])))) true with
        | error e => rw [hf] at h; simp at h
        | ok b =>
          rw [hf] at h
          cases hm : findMS b with
          | some m => simp [hm] at h; simpa using h
          | none => simp [hm] at h
  · simp only [Bool.not_eq_true] at hinc
    simp [hinc, zeroES] at h

theorem compsPreB_iff (p l : List String) : compsPreB p l = true ↔ p <+: l := by
  induction p generalizing l with
  | nil => simp [compsPreB]
  | cons a as ih =>
    cases l with
    | nil => simp [compsPreB]
    | cons b bs =>
      simp only [compsPreB, Bool.and_eq_true, decide_eq_true_eq, ih]
      constructor
      · rintro ⟨rfl, h⟩; exact List.cons_prefix_cons.mpr ⟨rfl, h⟩
      · intro h
        rcases List.cons_prefix_cons.mp h with ⟨rfl, h2⟩
        exact ⟨rfl, h2⟩

theorem contains_append_left {α : Type} [BEq α] (l e : List α) (a : α)
    (h : l.contains a = true) : (l ++ e).contains a = true := by
  simp only [List.contains_eq_any_beq, List.any_eq_true] at h ⊢
  rcases h with ⟨x, hx, hb⟩
  exact ⟨x, List.mem_append_left e hx, hb⟩

theorem dropLast_mem_append (path ext : List String) (a : String)
    (h : a ∈ path.dropLast) : a ∈ (path ++ ext).dropLast := by
  cases ext with
  | nil => simpa using h
  | cons x xs =>
    rw [List.dropLast_append_of_ne_nil path (by simp)]
    exact List.mem_append_left _ (List.dropLast_subset path h)

/-- A matched path stays matched when the path descends further: the model
of gitignore's rule that ignoring a directory ignores its contents. -/
theorem giMatches_append (p : GiPattern) (path ext : List String)
    (h : giMatches p path = true) : giMatches p (path ++ ext) = true := by
  unfold giMatches at h ⊢
  by_cases ha : p.anchored = true
  · simp only [ha, if_true, Bool.and_eq_true] at h ⊢
    rcases h with ⟨hpre, hlen⟩
    constructor
    · rw [compsPreB_iff] at hpre ⊢
      exact hpre.trans (List.prefix_append path ext)
    · rcases Bool.or_eq_true _ _ |>.mp hlen with h1 | h1
      · exact Bool.or_eq_true _ _ |>.mpr (Or.inl h1)
      · refine Bool.or_eq_true _ _ |>.mpr (Or.inr ?_)
        simp only [decide_eq_true_eq] at h1 ⊢
        calc p.comps.length < path.length := h1
          _ ≤ (path ++ ext).length := by simp
  · simp only [Bool.not_eq_true] at ha
    simp only [ha, Bool.false_eq_true, if_false] at h ⊢
    cases hc : p.comps with
    | nil => rw [hc] at h; simp at h
    | cons lit tl =>
      cases tl with
      | cons b bs => rw [hc] at h; simp at h
      | nil =>
        rw [hc] at h
        dsimp only at h ⊢
        by_cases hd : p.dirOnly = true
        · simp only [hd, if_true] at h ⊢
          simp only [List.contains_eq_any_beq, List.any_eq_true] at h ⊢
          rcases h with ⟨x, hx, hb⟩
          exact ⟨x, dropLast_mem_append path ext x hx, hb⟩
        · simp only [Bool.not_eq_true] at hd
          simp only [hd, Bool.false_eq_true, if_false] at h ⊢
          exact contains_append_left path ext lit h

/-- With no negation patterns, `match_file` is just "some pattern
matches". -/
theorem matchFile_noneg (ps : List GiPattern) (path : List String)
    (h : ∀ p ∈ ps, p.neg = false) :
    matchFile ps path = ps.any (fun p => giMatches p path) := by
  unfold matchFile
  suffices hgen : ∀ acc : Option Bool, (acc = none ∨ acc = some true) →
      (ps.foldl (fun acc p => if giMatches p path then some (!p.neg) else acc)
        acc).getD false =
        (acc.getD false || ps.any (fun p => giMatches p path)) by
    simpa using hgen none (Or.inl rfl)
  induction ps with
  | nil => intro acc _; simp
  | cons q qs ih =>
    intro acc hacc
    have hq : q.neg = false := h q (List.mem_cons_self q qs)
    have hqs : ∀ p ∈ qs, p.neg = false := fun p hp =>
      h p (List.mem_cons_of_mem q hp)
    simp only [List.foldl_cons, List.any_cons]
    by_cases hm : giMatches q path = true
    · simp only [hm, if_true, hq, Bool.not_false]
      have := (ih hqs) (some true) (Or.inr rfl)
      rw [this]
      cases hacc with
      | inl ha => subst ha; simp
      | inr ha => subst ha; simp
    · simp only [hm, Bool.false_eq_true, if_false]
      have := (ih hqs) acc hacc
      rw [this]
      simp

/-- With no negation patterns, an ignored path stays ignored when it
descends further. -/
theorem matchFile_append (ps : List GiPattern) (path ext : List String)
    (hneg : ∀ p ∈ ps, p.neg = false) (h : matchFile ps path = true) :
    matchFile ps (path ++ ext) = true := by
  rw [matchFile_noneg ps path hneg] at h
  rw [matchFile_noneg ps (path ++ ext) hneg]
  rcases List.any_eq_true.mp h with ⟨p, hp, hm⟩
  exact List.any_eq_true.mpr ⟨p, hp, giMatches_append p path ext hm⟩

/-- An included path is not gitignore-matched. -/
theorem shouldInclude_no_gitignore (giPats : List GiPattern)
    (excl : List String) (rootArg : String) (relComps : List String)
    (h : shouldIncludeFile giPats excl rootArg relComps = true) :
    matchFile giPats relComps = false := by
  by_cases hm : matchFile giPats relComps = true
  · unfold shouldIncludeFile at h
    simp [hm] at h
  · simpa using hm

/-- Everything beneath a pruned directory is rejected by the inclusion
filter (given a negation-free gitignore spec): the structure pass's
pruning loses no files relative to the content pass. -/
theorem pruneDir_excludes (giPats : List GiPattern) (excl : List String)
    (rootArg : String) (rel : List String) (d : String) (ext : List String)
    (hneg : ∀ p ∈ giPats, p.neg = false)
    (hp : pruneDir giPats excl rel d = true) :
    shouldIncludeFile giPats excl rootArg (rel ++ d :: ext) = false := by
  by_cases hinc : shouldIncludeFile giPats excl rootArg (rel ++ d :: ext) = true
  · exfalso
    have hdmem : d ∈ rel ++ d :: ext := List.mem_append_right rel (by simp)
    have hdinf : StrInf d (joinSep "/" (rel ++ d :: ext)) :=
      strInf_of_mem_joinSep d (rel ++ d :: ext) hdmem
    unfold pruneDir at hp
    rcases Bool.or_eq_true _ _ |>.mp hp with hp3 | hds
    rcases Bool.or_eq_true _ _ |>.mp hp3 with hp2 | hnm
    rcases Bool.or_eq_true _ _ |>.mp hp2 with hgi | hex
    · have := matchFile_append giPats (rel ++ [d]) ext hneg hgi
      rw [List.append_cons] at hinc
      rw [shouldInclude_no_gitignore giPats excl rootArg _ hinc] at this
      cases this
    · rcases List.any_eq_true.mp hex with ⟨q, hq, hqd⟩
      have hqskip : q ∈ skipPatterns excl :=
        List.mem_append_right _ hq
      have : StrInf q (joinSep "/" (rel ++ d :: ext)) :=
        strInf_trans q d _ ((strInfB_iff q d).mp hqd) hdinf
      exact shouldInclude_no_skip_rel giPats excl rootArg _ q hqskip hinc this
    · simp only [decide_eq_true_eq] at hnm
      subst hnm
      have hqskip : "node_modules" ∈ skipPatterns excl := by
        unfold skipPatterns; exact List.mem_append_left _ (by decide)
      exact shouldInclude_no_skip_rel giPats excl rootArg _ "node_modules"
        hqskip hinc hdinf
    · have hqskip : ".DS_Store" ∈ skipPatterns excl := by
        unfold skipPatterns; exact List.mem_append_left _ (by decide)
      have : StrInf ".DS_Store" (joinSep "/" (rel ++ d :: ext)) :=
        strInf_trans _ d _ ((strInfB_iff _ d).mp hds) hdinf
      exact shouldInclude_no_skip_rel giPats excl rootArg _ ".DS_Store"
        hqskip hinc this
  · simpa using hinc

theorem decDigit_isDigit (n : Nat) : (decDigit n).isDigit = true := by
  unfold decDigit
  have h : n % 10 < 10 := Nat.mod_lt n (by norm_num)
  generalize hk : n % 10 = k at h ⊢
  interval_cases k <;> decide

theorem natToDecF_digits (fuel n : Nat) :
    ∀ c ∈ natToDecF fuel n, c.isDigit = true := by
  induction fuel generalizing n with
  | zero => intro c hc; simp [natToDecF] at hc; subst hc; exact decDigit_isDigit n
  | succ f ih =>
    intro c hc
    by_cases hn : n < 10
    · simp [natToDecF, hn] at hc; subst hc; exact decDigit_isDigit n
    · simp only [natToDecF, hn, if_false, List.mem_append, List.mem_singleton] at hc
      rcases hc with hc | hc
      · exact ih (n / 10) c hc
      · subst hc; exact decDigit_isDigit (n % 10)

theorem natToDec_digits (n : Nat) : ∀ c ∈ natToDec n, c.isDigit = true :=
  natToDecF_digits n n

theorem natToDecF_ne_nil (fuel n : Nat) : natToDecF fuel n ≠ [] := by
  cases fuel with
  | zero => simp [natToDecF]
  | succ f => by_cases hn : n < 10 <;> simp [natToDecF, hn]

theorem natToDec_ne_nil (n : Nat) : natToDec n ≠ [] := natToDecF_ne_nil n n

theorem takeWhile_append_all (p : Char → Bool) (l1 l2 : List Char)
    (h : ∀ a ∈ l1, p a = true) :
    (l1 ++ l2).takeWhile p = l1 ++ l2.takeWhile p := by
  induction l1 with
  | nil => simp
  | cons a t ih =>
    simp only [List.cons_append, List.takeWhile_cons,
      h a (List.mem_cons_self a t), if_true, List.cons.injEq, true_and]
    exact ih (fun x hx => h x (List.mem_cons_of_mem a hx))

theorem listPreB_append_self (p t : List Char) : listPreB p (p ++ t) = true :=
  (listPreB_iff p (p ++ t)).mpr (List.prefix_append p t)

/-- The size-extraction regex succeeds right at a genuine attribute. -/
theorem tryMS_at (m : Nat) (rest : List Char) :
    tryMS (litMS ++ (natToDec m ++ '\x22' :: rest)) =
      some (decValue (natToDec m)) := by
  unfold tryMS
  rw [listPreB_append_self, if_pos rfl]
  dsimp only
  rw [List.drop_left,
    takeWhile_append_all Char.isDigit (natToDec m) ('\x22' :: rest)
      (natToDec_digits m)]
  have hq : List.takeWhile Char.isDigit ('\x22' :: rest) = [] := by
    simp [List.takeWhile_cons]
  rw [hq, List.append_nil, List.drop_left]
  have hlen : 0 < (natToDec m).length :=
    List.length_pos.mpr (natToDec_ne_nil m)
  simp [hlen]

theorem findMSgo_append_isSome (l1 l2 : List Char)
    (h : (tryMS l2).isSome = true) : (findMSgo (l1 ++ l2)).isSome = true := by
  induction l1 with
  | nil =>
    cases l2 with
    | nil => simp [tryMS, listPreB, litMS] at h
    | cons c cs =>
      simp only [List.nil_append, findMSgo]
      cases ht : tryMS (c :: cs) with
      | some n => simp
      | none => rw [ht] at h; simp at h
  | cons a t ih =>
    simp only [List.cons_append, findMSgo]
    cases ht : tryMS (a :: (t ++ l2)) with
    | some n => simp
    | none => exact ih

/-- A formatted block always contains a genuine minified-size attribute,
so the extraction regex always finds a match. -/
theorem findMS_shape_isSome (a : String) (m : Nat) (rest : String) :
    (findMS (a ++ "minified_size=\x22" ++ (⟨natToDec m⟩ : String) ++ "\x22" ++
      rest)).isSome = true := by
  unfold findMS
  have hd : (a ++ "minified_size=\x22" ++ (⟨natToDec m⟩ : String) ++ "\x22" ++
      rest).data = a.data ++ (litMS ++ (natToDec m ++ '\x22' :: rest.data)) := by
    simp only [String.data_append, List.append_assoc]
    rfl
  rw [hd]
  exact findMSgo_append_isSome _ _ (by rw [tryMS_at]; rfl)

theorem utf8Len_ne_zero (c : String) (h : c.data ≠ []) : utf8Len c ≠ 0 := by
  unfold utf8Len
  rcases c with ⟨l⟩
  cases l with
  | nil => simp at h
  | cons a t =>
    have : String.utf8ByteSize ⟨a :: t⟩ = String.utf8ByteSize ⟨t⟩ + a.utf8Size := by
      simp [String.utf8ByteSize, String.utf8ByteSize.go]
    rw [this]
    have := Char.utf8Size_pos a
    omega

theorem insertByName_mem (x f : String × Option String)
    (l : List (String × Option String)) (h : f ∈ insertByName x l) :
    f = x ∨ f ∈ l := by
  induction l with
  | nil => simpa [insertByName] using h
  | cons y ys ih =>
    unfold insertByName at h
    by_cases hlt : charsLtB x.1.data y.1.data = true
    · simp only [hlt, if_true, List.mem_cons] at h
      rcases h with h | h | h
      · exact Or.inl h
      · exact Or.inr (List.mem_cons.mpr (Or.inl h))
      · exact Or.inr (List.mem_cons_of_mem y h)
    · simp only [hlt, Bool.false_eq_true, if_false, List.mem_cons] at h
      rcases h with h | h
      · exact Or.inr (List.mem_cons.mpr (Or.inl h))
      · rcases ih h with h2 | h2
        · exact Or.inl h2
        · exact Or.inr (List.mem_cons_of_mem y h2)

theorem sortByName_mem (l : List (String × Option String))
    (f : String × Option String) (h : f ∈ sortByName l) : f ∈ l := by
  unfold sortByName at h
  suffices hgen : ∀ (t : List (String × Option String)) acc, f ∈
      t.foldl (fun acc x => insertByName x acc) acc → f ∈ acc ∨ f ∈ t by
    rcases hgen l [] h with h2 | h2
    · simp at h2
    · exact h2
  intro t
  induction t with
  | nil => intro acc h2; exact Or.inl h2
  | cons a t2 ih =>
    intro acc h2
    simp only [List.foldl_cons] at h2
    rcases ih (insertByName a acc) h2 with h3 | h3
    · rcases insertByName_mem a f acc h3 with h4 | h4
      · exact Or.inr (h4 ▸ List.mem_cons_self a t2)
      · exact Or.inl h4
    · exact Or.inr (List.mem_cons_of_mem a h3)

theorem contentsOk_fileList (minify : Bool) :
    ∀ es : Ents, contentsOk minify es = true →
      ∀ f ∈ fileList es, ∃ c, f.2 = some c ∧ (minify = true → c.data ≠ [])
  | .nil => by simp [fileList]
  | .cons (.file n none) r => by simp [contentsOk]
  | .cons (.file n (some c)) r => by
    intro h f hf
    simp only [contentsOk, Bool.and_eq_true] at h
    simp only [fileList, List.mem_cons] at hf
    rcases hf with rfl | hf
    · refine ⟨c, rfl, fun hm => ?_⟩
      rcases h with ⟨h1, _⟩
      subst hm
      simpa [List.isEmpty_iff] using h1
    · exact contentsOk_fileList minify r h.2 f hf
  | .cons (.dir d kids) r => by
    intro h f hf
    simp only [contentsOk, Bool.and_eq_true] at h
    simp only [fileList] at hf
    exact contentsOk_fileList minify r h.2 f hf

theorem contentsOk_dir (minify : Bool) (d : String) (kids rest : Ents)
    (h : contentsOk minify (.cons (.dir d kids) rest) = true) :
    contentsOk minify kids = true ∧ contentsOk minify rest = true := by
  simpa [contentsOk] using h

theorem contentsOk_file (minify : Bool) (n : String) (c : Option String)
    (rest : Ents) (h : contentsOk minify (.cons (.file n c) rest) = true) :
    contentsOk minify rest = true := by
  cases c with
  | none => simp [contentsOk] at h
  | some s =>
    simp only [contentsOk, Bool.and_eq_true] at h
    exact h.2

theorem itemDelta_excluded (o : MinOracles) (cwd : List String)
    (giPats : List GiPattern) (excl : List String) (rootArg : String)
    (minify : Bool) (it : List String × String × Option String)
    (h : shouldIncludeFile giPats excl rootArg (it.1 ++ [it.2.1]) = false) :
    itemDelta o cwd giPats excl rootArg minify it = zeroES := by
  unfold itemDelta
  simp [h]

/-- With a nonzero original size, formatting under minification succeeds
and the produced block admits a regex match for the minified size. -/
theorem formatFileContent_findMS (o : MinOracles) (cwd : List String)
    (fp content ft : String) (h0 : utf8Len content ≠ 0) :
    ∃ b, formatFileContent o cwd fp content ft true = .ok b ∧
      (findMS b).isSome = true := by
  unfold formatFileContent
  dsimp only
  rw [if_neg h0]
  refine ⟨_, rfl, ?_⟩
  have heq :
      "<file path=\x22" ++ pyRelpath cwd fp ++ "\x22 type=\x22" ++ ft ++ "\x22" ++
          " original_size=\x22" ++ (⟨natToDec (utf8Len content)⟩ : String) ++
          "\x22 minified_size=\x22" ++
          (⟨natToDec (utf8Len (minifyContent o content ft))⟩ : String) ++
          "\x22 reduction=\x22" ++
          fmt1frac ((utf8Len content - utf8Len (minifyContent o content ft) : Int)
            * 100) (utf8Len content) ++ "%\x22" ++
          blockTail ft (minifyContent o content ft) =
        ("<file path=\x22" ++ pyRelpath cwd fp ++ "\x22 type=\x22" ++ ft ++
          "\x22" ++ " original_size=\x22" ++
          (⟨natToDec (utf8Len content)⟩ : String) ++ "\x22 ") ++
          "minified_size=\x22" ++
          (⟨natToDec (utf8Len (minifyContent o content ft))⟩ : String) ++
          "\x22" ++
          (" reduction=\x22" ++
            fmt1frac ((utf8Len content - utf8Len (minifyContent o content ft) : Int)
              * 100) (utf8Len content) ++ "%\x22" ++
            blockTail ft (minifyContent o content ft)) := by
    apply String.ext
    simp only [String.data_append, List.append_assoc]
    rfl
  rw [heq]
  exact findMS_shape_isSome _ _ _

/-- With well-behaved content, an included file always gets exactly one
block: the content pass emits its path. -/
theorem itemDelta_good_emitted (o : MinOracles) (cwd : List String)
    (giPats : List GiPattern) (excl : List String) (rootArg : String)
    (minify : Bool) (rel : List String) (name : String) (c : String)
    (hne : minify = true → c.data ≠ [])
    (hinc : shouldIncludeFile giPats excl rootArg (rel ++ [name]) = true) :
    (itemDelta o cwd giPats excl rootArg minify (rel, name, some c)).emitted =
      [rel ++ [name]] := by
  unfold itemDelta
  simp only [hinc, if_true]
  cases minify with
  | false =>
    simp only [Bool.false_eq_true, if_false]
    have hfmt : formatFileContent o cwd
        (pyJoin rootArg (joinSep "/" (rel ++ [name]))) c
        (getFileType (pyJoin rootArg (joinSep "/" (rel ++ [name])))) false =
        .ok ("<file path=\x22" ++
          pyRelpath cwd (pyJoin rootArg (joinSep "/" (rel ++ [name]))) ++
          "\x22 type=\x22" ++
          getFileType (pyJoin rootArg (joinSep "/" (rel ++ [name]))) ++
          "\x22" ++
          blockTail (getFileType (pyJoin rootArg (joinSep "/" (rel ++ [name])))) c) := by
      unfold formatFileContent
      simp
    rw [hfmt]
  | true =>
    simp only [if_true]
    have h0 : utf8Len c ≠ 0 := utf8Len_ne_zero c (hne rfl)
    rcases formatFileContent_findMS o cwd
      (pyJoin rootArg (joinSep "/" (rel ++ [name]))) c
      (getFileType (pyJoin rootArg (joinSep "/" (rel ++ [name])))) h0 with
      ⟨b, hb, hsome⟩
    rw [hb]
    rcases Option.isSome_iff_exists.mp hsome with ⟨m, hm⟩
    simp [hm]

/-- Items of the content walk under `rel` live strictly below `rel`. -/
theorem contentWalkSubs_shape :
    ∀ (rel : List String) (es : Ents)
      (it : List String × String × Option String),
      it ∈ contentWalkSubs rel es → ∃ d ext, it.1 = rel ++ d :: ext
  | _, .nil, _ => by simp [contentWalkSubs]
  | rel, .cons (.file n c) rest, it => fun h =>
    contentWalkSubs_shape rel rest it (by simpa [contentWalkSubs] using h)
  | rel, .cons (.dir d kids) rest, it => fun h => by
    simp only [contentWalkSubs, List.mem_append] at h
    rcases h with (h1 | h2) | h3
    · unfold contentFilesHere at h1
      rcases List.mem_map.mp h1 with ⟨f, hf, rfl⟩
      exact ⟨d, [], rfl⟩
    · rcases contentWalkSubs_shape (rel ++ [d]) kids it h2 with ⟨d2, ext, heq⟩
      exact ⟨d, d2 :: ext, by simpa [List.append_assoc] using heq⟩
    · exact contentWalkSubs_shape rel rest it h3

/-- List-level core of `filesHere_eq`: over any list of well-behaved
named contents, the emitted paths equal the listed paths. -/
theorem filesList_eq (o : MinOracles) (cwd : List String)
    (giPats : List GiPattern) (excl : List String) (rootArg : String)
    (minify : Bool) (rel : List String) :
    ∀ L : List (String × Option String),
      (∀ f ∈ L, ∃ c, f.2 = some c ∧ (minify = true → c.data ≠ [])) →
      (L.map (fun f => (rel, f.1, f.2))).flatMap
          (fun it => (itemDelta o cwd giPats excl rootArg minify it).emitted) =
        (L.filterMap (fun f =>
          if shouldIncludeFile giPats excl rootArg (rel ++ [f.1]) then
            some (SItem.fileLine rel f.1)
          else none)).filterMap sItemPath := by
  intro L
  induction L with
  | nil => intro _; simp
  | cons a t ih =>
    intro hgood
    rcases hgood a (List.mem_cons_self a t) with ⟨c, hc, hne⟩
    have ht := fun f hf => hgood f (List.mem_cons_of_mem a hf)
    simp only [List.map_cons, List.flatMap_cons, List.filterMap_cons]
    by_cases hinc : shouldIncludeFile giPats excl rootArg (rel ++ [a.1]) = true
    · rw [if_pos hinc]
      have hdelta : (itemDelta o cwd giPats excl rootArg minify
          (rel, a.1, a.2)).emitted = [rel ++ [a.1]] := by
        rw [show (rel, a.1, a.2) = (rel, a.1, some c) from by rw [← hc]]
        exact itemDelta_good_emitted o cwd giPats excl rootArg minify rel a.1
          c hne hinc
      rw [hdelta, ih ht]
      simp [sItemPath]
    · rw [if_neg hinc]
      have hdelta := itemDelta_excluded o cwd giPats excl rootArg minify
        (rel, a.1, a.2) (by simpa using hinc)
      rw [hdelta, ih ht]
      simp [zeroES]

/-- For the files of one directory, the content pass emits exactly the
paths the structure section lists (under well-behaved contents). -/
theorem filesHere_eq (o : MinOracles) (cwd : List String)
    (giPats : List GiPattern) (excl : List String) (rootArg : String)
    (minify : Bool) (rel : List String) (es : Ents)
    (hok : contentsOk minify es = true) :
    (contentFilesHere rel es).flatMap
        (fun it => (itemDelta o cwd giPats excl rootArg minify it).emitted) =
      (structFilesHere giPats excl rootArg rel es).filterMap sItemPath := by
  unfold contentFilesHere structFilesHere
  exact filesList_eq o cwd giPats excl rootArg minify rel
    (sortByName (fileList es))
    (fun f hf => contentsOk_fileList minify es hok f (sortByName_mem _ f hf))

/-- Below one directory, the content pass emits exactly the paths the
structure pass lists, given a negation-free gitignore and well-behaved
contents. -/
theorem walkSubs_emitted_eq (o : MinOracles) (cwd : List String)
    (giPats : List GiPattern) (excl : List String) (rootArg : String)
    (minify : Bool) (hneg : ∀ p ∈ giPats, p.neg = false) :
    ∀ (rel : List String) (es : Ents), contentsOk minify es = true →
      (contentWalkSubs rel es).flatMap
          (fun it => (itemDelta o cwd giPats excl rootArg minify it).emitted) =
        (structWalkSubs giPats excl rootArg rel es).filterMap sItemPath
  | _, .nil, _ => by simp [contentWalkSubs, structWalkSubs]
  | rel, .cons (.file n c) rest, hok => by
    have hr := contentsOk_file minify n c rest hok
    simpa [contentWalkSubs, structWalkSubs] using
      walkSubs_emitted_eq o cwd giPats excl rootArg minify hneg rel rest hr
  | rel, .cons (.dir d kids) rest, hok => by
    obtain ⟨hkids, hrest⟩ := contentsOk_dir minify d kids rest hok
    have ihkids := walkSubs_emitted_eq o cwd giPats excl rootArg minify hneg
      (rel ++ [d]) kids hkids
    have ihrest := walkSubs_emitted_eq o cwd giPats excl rootArg minify hneg
      rel rest hrest
    simp only [contentWalkSubs, structWalkSubs, List.flatMap_append,
      List.filterMap_append]
    by_cases hp : pruneDir giPats excl rel d = true
    · rw [if_pos hp]
      have hnilHere : (contentFilesHere (rel ++ [d]) kids).flatMap
          (fun it => (itemDelta o cwd giPats excl rootArg minify it).emitted) =
          [] := by
        apply List.flatMap_eq_nil_iff.mpr
        intro it hit
        unfold contentFilesHere at hit
        rcases List.mem_map.mp hit with ⟨f, hf, rfl⟩
        have hx : shouldIncludeFile giPats excl rootArg
            (rel ++ d :: [f.1]) = false :=
          pruneDir_excludes giPats excl rootArg rel d [f.1] hneg hp
        have := itemDelta_excluded o cwd giPats excl rootArg minify
          (rel ++ [d], f.1, f.2) (by simpa [List.append_assoc] using hx)
        rw [this]
        rfl
      have hnilSub : (contentWalkSubs (rel ++ [d]) kids).flatMap
          (fun it => (itemDelta o cwd giPats excl rootArg minify it).emitted) =
          [] := by
        apply List.flatMap_eq_nil_iff.mpr
        intro it hit
        rcases contentWalkSubs_shape (rel ++ [d]) kids it hit with ⟨d2, ext, heq⟩
        have hx : shouldIncludeFile giPats excl rootArg
            (rel ++ d :: (d2 :: ext ++ [it.2.1])) = false :=
          pruneDir_excludes giPats excl rootArg rel d (d2 :: ext ++ [it.2.1])
            hneg hp
        have := itemDelta_excluded o cwd giPats excl rootArg minify it
          (by
            rw [heq]
            simpa [List.append_assoc] using hx)
        rw [this]
        rfl
      rw [hnilHere, hnilSub, ihrest]
      simp
    · rw [if_neg hp]
      rw [filesHere_eq o cwd giPats excl rootArg minify (rel ++ [d]) kids
        hkids, ihkids, ihrest]
      simp [sItemPath]

/-! ### Claim C3 -/

/-- C3: the claim says an invalid root directory terminates with a
non-zero exit status, and zero is returned only on success.  In the code
`main` falls through a bare `return` (the value `None`) on an invalid
directory, and `exit(None)` terminates the process with status `0` —
whatever the would-be run result was. -/
theorem claim_C3_invalid_dir_exit_status (r : Except PyErr String) :
    exitCode (mainModel false r) = 0 := rfl

/-! ### Claim C5 -/

/-- C5: whenever the minifier dispatch raises (for any oracles, content
and file type), `minify_content` catches the exception and returns the
original content unmodified. -/
theorem claim_C5_minify_failure_falls_back (o : MinOracles)
    (content fileType e : String)
    (h : minifyDispatch o content fileType = .error e) :
    minifyContent o content fileType = content := by
  simp [minifyContent, h]

/-- Witness for C5 at a concrete failing oracle on a script file. -/
theorem claim_C5_witness :
    minifyDispatch failO "x \x7b\x7d" "javascript" = .error "boom" ∧
      minifyContent failO "x \x7b\x7d" "javascript" = "x \x7b\x7d" :=
  ⟨rfl, claim_C5_minify_failure_falls_back failO "x \x7b\x7d" "javascript"
    "boom" rfl⟩

/-! ### Claim C8 -/

/-- C8: when minification is enabled and the inclusion filter keeps no
file at all, the overall-reduction computation divides by a zero total
original size, so `process_directory` raises instead of writing a complete
bundle. -/
theorem claim_C8_zero_division (o : MinOracles) (cwd : List String)
    (rootArg : String) (root : Ents) (excl : List String)
    (h : ∀ it ∈ contentItems root,
      shouldIncludeFile (loadGitignore root) excl rootArg
        (it.1 ++ [it.2.1]) = false) :
    processDirectory o cwd rootArg root excl true = .error .zeroDivision := by
  have hst : emitAll o cwd (loadGitignore root) excl rootArg true root =
      ⟨0, 0, [], [], []⟩ :=
    emit_foldl_excluded _ _ _ _ _ _ _ _ h
  simp [processDirectory, hst]

/-- Witness for C8 at a root holding only `logo.png`. -/
theorem claim_C8_witness :
    (∀ it ∈ contentItems c8tree,
      shouldIncludeFile (loadGitignore c8tree) [] "proj"
        (it.1 ++ [it.2.1]) = false) ∧
      processDirectory idO ["home", "u"] "proj" c8tree [] true =
        .error .zeroDivision :=
  ⟨by decide, claim_C8_zero_division idO ["home", "u"] "proj" c8tree []
    (by decide)⟩

/-! ### Claim C1 -/

/-- C1 counterexample: on the spec's scenario the block for `a.json`
reports `minified_size="7"` and `reduction="30.0%"` — the claimed
`minified_size="8"` and `reduction="20.0%"` appear nowhere (the compact
serialisation of the ten-byte original is the seven-byte one). -/
theorem claim_C1_counterexample :
    processDirectory idO ["home", "u"] "proj" c1tree [] true =
        .ok c1expected ∧
      StrInf "minified_size=\x227\x22" c1expected ∧
      ¬ StrInf "minified_size=\x228\x22" c1expected ∧
      ¬ StrInf "reduction=\x2220.0%\x22" c1expected := by
  exact ⟨rfl, by decide, by decide, by decide⟩

/-- C1 (amended): on the scenario root, the run with minification emits a
files section whose only block is `a.json` with minified content, the
attributes `original_size="10"`, `minified_size="7"`,
`reduction="30.0%"`, and `b.txt` appears nowhere in the output. -/
theorem claim_C1_amended :
    processDirectory idO ["home", "u"] "proj" c1tree [] true =
        .ok c1expected ∧
      (emitAll idO ["home", "u"] (loadGitignore c1tree) [] "proj" true
        c1tree).emitted = [["a.json"]] ∧
      (emitAll idO ["home", "u"] (loadGitignore c1tree) [] "proj" true
        c1tree).reported = [(10, 7)] ∧
      StrInf "\x7b\x22a\x22:1\x7d" c1expected ∧
      StrInf "original_size=\x2210\x22" c1expected ∧
      StrInf "minified_size=\x227\x22" c1expected ∧
      StrInf "reduction=\x2230.0%\x22" c1expected ∧
      ¬ StrInf "b.txt" c1expected := by
  refine ⟨rfl, rfl, rfl, by decide, by decide, by decide,
    by decide, by decide⟩

/-! ### Claim C4 -/

/-- C4 counterexample: with a `.git` directory in the root, the structure
pass — which prunes only `node_modules`, gitignore matches, exclude
patterns and `.DS_Store` — emits the directory entry `- .git/`, and the
content pass (which never prunes) descends into both `.git` and
`node_modules`. -/
theorem claim_C4_counterexample :
    processDirectory idO ["home", "u"] "proj" c4tree [] false =
        .ok c4expected ∧
      StrInf "- .git/" c4expected ∧
      [".git"] ∈ contentVisited c4tree ∧
      ["node_modules"] ∈ contentVisited c4tree := by
  exact ⟨rfl, by decide, by decide, by decide⟩

/-- C4 (amended): no file whose root-relative path contains a fixed
noise-directory name reaches either output section (their paths would
contain a skip pattern), and the structure pass indeed never descends into
a `node_modules` directory; however the structure pass does write
directory entries for — and both passes descend into — the other noise
directories, so only the file-level exclusion part of the claim holds in
general. -/
theorem claim_C4_amended (o : MinOracles) (cwd : List String)
    (excl : List String) (rootArg : String) (root : Ents) (minify : Bool)
    (q : String) (hq : q ∈ noiseNames) :
    (∀ fp, fp ∈ structFilePaths (loadGitignore root) excl rootArg root →
      ¬ StrInf q (joinSep "/" fp)) ∧
    (∀ fp, fp ∈ (emitAll o cwd (loadGitignore root) excl rootArg minify
        root).emitted → ¬ StrInf q (joinSep "/" fp)) ∧
    (∀ rel, SItem.dirLine rel ∈ structItems (loadGitignore root) excl
        rootArg root → "node_modules" ∉ rel) := by
  have hskip : q ∈ skipPatterns excl := by
    unfold skipPatterns
    refine List.mem_append_left _ ?_
    fin_cases hq <;> decide
  refine ⟨?_, ?_, ?_⟩
  · intro fp hfp
    exact shouldInclude_no_skip_rel (loadGitignore root) excl rootArg fp q
      hskip (structFilePaths_included (loadGitignore root) excl rootArg root
        fp hfp)
  · intro fp hfp
    rw [emitAll_eq_sumDeltas, sumDeltas_emitted] at hfp
    rcases List.mem_flatMap.mp hfp with ⟨it, hit, hmem⟩
    rcases itemDelta_emitted_mem o cwd (loadGitignore root) excl rootArg
      minify it fp hmem with ⟨rfl, hinc⟩
    exact shouldInclude_no_skip_rel (loadGitignore root) excl rootArg _ q
      hskip hinc
  · intro rel hrel
    unfold structItems at hrel
    rcases List.mem_append.mp hrel with h1 | h2
    · exfalso
      unfold structFilesHere at h1
      rcases List.mem_filterMap.mp h1 with ⟨f, hf, hcond⟩
      by_cases hi : shouldIncludeFile (loadGitignore root) excl rootArg
          ([] ++ [f.1]) = true <;> simp [hi] at hcond
    · exact structWalkSubs_dirLine_no_nm (loadGitignore root) excl rootArg
        rel [] root (by simp) h2

/-- Witness for C4 (amended) at the noise name `.git` over `c4tree`. -/
theorem claim_C4_amended_witness :
    (∀ fp, fp ∈ structFilePaths (loadGitignore c4tree) [] "proj" c4tree →
      ¬ StrInf ".git" (joinSep "/" fp)) ∧
    (∀ fp, fp ∈ (emitAll idO ["home", "u"] (loadGitignore c4tree) [] "proj"
        false c4tree).emitted → ¬ StrInf ".git" (joinSep "/" fp)) ∧
    (∀ rel, SItem.dirLine rel ∈ structItems (loadGitignore c4tree) []
        "proj" c4tree → "node_modules" ∉ rel) :=
  claim_C4_amended idO ["home", "u"] [] "proj" c4tree false ".git" (by decide)

/-! ### Claim C2 -/

/-- C2 (amended): when every file in the tree decodes as UTF-8 (no
decoding skips), no file is empty under minification (no per-file division
by zero), and the gitignore holds no negation patterns (so a pruned
directory cannot hide re-included files from the structure pass), the
files emitted as blocks by the content pass are exactly — same set, same
relative order — the files listed in the structure section. -/
theorem claim_C2_amended (o : MinOracles) (cwd : List String)
    (rootArg : String) (root : Ents) (excl : List String) (minify : Bool)
    (hneg : ∀ p ∈ loadGitignore root, p.neg = false)
    (hok : contentsOk minify root = true) :
    (emitAll o cwd (loadGitignore root) excl rootArg minify root).emitted =
      structFilePaths (loadGitignore root) excl rootArg root := by
  rw [emitAll_eq_sumDeltas, sumDeltas_emitted]
  unfold contentItems structFilePaths structItems
  rw [List.flatMap_append, List.filterMap_append]
  exact congrArg₂ (· ++ ·)
    (filesHere_eq o cwd (loadGitignore root) excl rootArg minify [] root hok)
    (walkSubs_emitted_eq o cwd (loadGitignore root) excl rootArg minify hneg
      [] root hok)

/-- Witness for C2 (amended) on the minification scenario root. -/
theorem claim_C2_amended_witness :
    (emitAll idO ["home", "u"] (loadGitignore c1tree) [] "proj" true
        c1tree).emitted =
      structFilePaths (loadGitignore c1tree) [] "proj" c1tree :=
  claim_C2_amended idO ["home", "u"] "proj" c1tree [] true (by decide)
    (by decide)

/-! ### Claim C2 counterexample -/

/-- C2 counterexample: a root with one text file whose bytes do not decode
as UTF-8 — the structure section lists it, but the content pass skips it
on the decoding error, so the two sections disagree. -/
theorem claim_C2_counterexample :
    structFilePaths (loadGitignore c2tree) [] "proj" c2tree =
        [["data.txt"]] ∧
      (emitAll idO ["home", "u"] (loadGitignore c2tree) [] "proj" false
        c2tree).emitted = [] ∧
      structFilePaths (loadGitignore c2tree) [] "proj" c2tree ≠
        (emitAll idO ["home", "u"] (loadGitignore c2tree) [] "proj" false
          c2tree).emitted := by
  refine ⟨rfl, rfl, by decide⟩

/-! ### Path-arithmetic lemmas for claim C10 -/

theorem splitList_ne_nil (sep : Char) (l : List Char) :
    splitList sep l ≠ [] := by
  cases l with
  | nil => simp [splitList]
  | cons c cs =>
    unfold splitList
    by_cases hc : c = sep
    · simp [hc]
    · simp only [hc, if_false]
      cases h : splitList sep cs <;> simp

theorem splitList_append_sep (sep : Char) (x y : List Char) :
    splitList sep (x ++ sep :: y) = splitList sep x ++ splitList sep y := by
  induction x with
  | nil => simp [splitList]
  | cons c cs ih =>
    rw [List.cons_append]
    by_cases hc : c = sep
    · show splitList sep (c :: (cs ++ sep :: y)) =
        splitList sep (c :: cs) ++ splitList sep y
      simp only [splitList, if_pos hc]
      rw [ih]
      rfl
    · show splitList sep (c :: (cs ++ sep :: y)) =
        splitList sep (c :: cs) ++ splitList sep y
      simp only [splitList, hc, if_false]
      rw [ih]
      cases h : splitList sep cs with
      | nil => exact absurd h (splitList_ne_nil sep cs)
      | cons r rs => simp

theorem joinSep_cons_char (c : Char) (r : List Char) (L : List String) :
    (joinSep "/" (⟨c :: r⟩ :: L)).data = c :: (joinSep "/" (⟨r⟩ :: L)).data := by
  cases L with
  | nil => rfl
  | cons b bs =>
    show ((⟨c :: r⟩ : String) ++ "/" ++ joinSep "/" (b :: bs)).data =
      c :: ((⟨r⟩ : String) ++ "/" ++ joinSep "/" (b :: bs)).data
    simp [String.data_append]

theorem joinSep_map_splitList_data (l : List Char) :
    (joinSep "/" ((splitList '/' l).map String.mk)).data = l := by
  induction l with
  | nil => rfl
  | cons c cs ih =>
    by_cases hc : c = '/'
    · have hrw : splitList '/' (c :: cs) = [] :: splitList '/' cs := by
        simp [splitList, hc]
      rw [hrw, List.map_cons]
      cases h : (splitList '/' cs).map String.mk with
      | nil => exact absurd (List.map_eq_nil_iff.mp h) (splitList_ne_nil '/' cs)
      | cons r rs =>
        rw [h] at ih
        show (("" : String) ++ "/" ++ joinSep "/" (r :: rs)).data = c :: cs
        rw [hc]
        simp [String.data_append, ih]
    · cases h : splitList '/' cs with
      | nil => exact absurd h (splitList_ne_nil '/' cs)
      | cons r rs =>
        have hrw : splitList '/' (c :: cs) = (c :: r) :: rs := by
          simp only [splitList, hc, if_false]
          rw [h]
        rw [hrw]
        rw [h] at ih
        simp only [List.map_cons] at ih ⊢
        rw [joinSep_cons_char c r (rs.map String.mk), ih]

theorem joinSep_map_splitList (l : List Char) :
    joinSep "/" ((splitList '/' l).map String.mk) = ⟨l⟩ :=
  String.ext (joinSep_map_splitList_data l)

theorem normComps_append_clean (xs ys : List String)
    (h : ∀ c ∈ ys, c ≠ "" ∧ c ≠ "." ∧ c ≠ "..") :
    normComps (xs ++ ys) = normComps xs ++ ys := by
  unfold normComps
  rw [List.foldl_append]
  suffices hgen : ∀ (acc : List String) (ys2 : List String),
      (∀ c ∈ ys2, c ≠ "" ∧ c ≠ "." ∧ c ≠ "..") →
      ys2.foldl (fun acc c =>
        if c = "" || c = "." then acc
        else if c = ".." then acc.dropLast
        else acc ++ [c]) acc = acc ++ ys2 by
    exact hgen _ ys h
  intro acc ys2
  induction ys2 generalizing acc with
  | nil => intro _; simp
  | cons y t ih =>
    intro hy
    rcases hy y (List.mem_cons_self y t) with ⟨h1, h2, h3⟩
    rw [List.foldl_cons, if_neg (by simp [h1, h2]), if_neg h3,
      ih (acc ++ [y]) (fun c hc => hy c (List.mem_cons_of_mem y hc))]
    simp

theorem commonPrefixLen_self_append (xs ys : List String) :
    commonPrefixLen xs (xs ++ ys) = xs.length := by
  induction xs with
  | nil => cases ys <;> simp [commonPrefixLen]
  | cons a t ih => simp [commonPrefixLen, ih]

theorem cleanComps_ne_empty (s : String) (h : cleanComps s) : s.data ≠ [] := by
  intro he
  have : ("" : String) ∈ (splitList '/' s.data).map String.mk := by
    rw [he]; simp [splitList]
  exact (h "" this).1 rfl

theorem cleanComps_head_ne_slash (s : String) (h : cleanComps s) :
    s.data.head? ≠ some '/' := by
  intro hh
  cases hd : s.data with
  | nil => rw [hd] at hh; simp at hh
  | cons c cs =>
    rw [hd] at hh
    simp only [List.head?_cons, Option.some.injEq] at hh
    subst hh
    have : ("" : String) ∈ (splitList '/' s.data).map String.mk := by
      rw [hd]
      simp [splitList]
    exact (h "" this).1 rfl

theorem cleanComps_getLast_ne_slash (s : String) (h : cleanComps s) :
    s.data.getLast? ≠ some '/' := by
  intro hl
  rcases List.getLast?_eq_some_iff.mp hl with ⟨l2, hl2⟩
  have : ("" : String) ∈ (splitList '/' s.data).map String.mk := by
    rw [hl2]
    have : splitList '/' (l2 ++ ['/']) =
        splitList '/' l2 ++ splitList '/' [] := by
      simpa using splitList_append_sep '/' l2 []
    rw [this]
    simp [splitList]
  exact (h "" this).1 rfl

theorem pyJoin_clean (a b : String) (h : cleanComps a) :
    pyJoin a b = a ++ "/" ++ b := by
  unfold pyJoin
  have h1 : a ≠ "" := by
    intro he
    exact cleanComps_ne_empty a h (by simp [he])
  have h2 : a.data.getLast? ≠ some '/' := cleanComps_getLast_ne_slash a h
  simp only [h1, if_false]
  rw [if_neg h2]

theorem joinSep_append_of_ne_nil (xs ys : List String) (hx : xs ≠ [])
    (hy : ys ≠ []) :
    joinSep "/" (xs ++ ys) = joinSep "/" xs ++ "/" ++ joinSep "/" ys := by
  induction xs with
  | nil => exact absurd rfl hx
  | cons a t ih =>
    cases t with
    | nil =>
      cases ys with
      | nil => exact absurd rfl hy
      | cons b u => rfl
    | cons a2 t2 =>
      have ihx := ih (by simp)
      show a ++ "/" ++ joinSep "/" ((a2 :: t2) ++ ys) =
        (a ++ "/" ++ joinSep "/" (a2 :: t2)) ++ "/" ++ joinSep "/" ys
      rw [ihx]
      simp [String.append_assoc]

/-! ### Leftmost-match analysis of the size-extraction regex (claim C6) -/

theorem prefix_shorten {α : Type} (p a b : List α) (h : p <+: a ++ b)
    (hl : p.length ≤ a.length) : p <+: a := by
  rw [List.prefix_iff_eq_take] at h ⊢
  rw [List.take_append_of_le_length hl] at h
  exact h

theorem infix_of_prefix_drop {α : Type} (p l : List α) (k : Nat)
    (h : p <+: l.drop k) : p <:+: l :=
  h.isInfix.trans (List.drop_suffix k l).isInfix

theorem tryMS_none_of_not_pre (l : List Char)
    (h : listPreB litMS l = false) : tryMS l = none := by
  unfold tryMS
  rw [h]
  simp

/-- No regex match can start inside a chunk that contains no `mi` and does
not end in `m`. -/
theorem tryMS_none_chunk (x rest : List Char)
    (hmi : listInfB "mi".data x = false)
    (hlast : x.getLast? ≠ some 'm') :
    ∀ k, k < x.length → tryMS (x.drop k ++ rest) = none := by
  intro k hk
  by_cases hpre : listPreB litMS (x.drop k ++ rest) = true
  · exfalso
    have hlit : litMS <+: x.drop k ++ rest := (listPreB_iff _ _).mp hpre
    have hmipre : "mi".data <+: x.drop k ++ rest := by
      have h2 : "mi".data <+: litMS := by decide
      exact h2.trans hlit
    have hdklen : 1 ≤ (x.drop k).length := by
      simp only [List.length_drop]
      omega
    by_cases h2len : 2 ≤ (x.drop k).length
    · have : "mi".data <+: x.drop k :=
        prefix_shorten _ _ _ hmipre (by simpa using h2len)
      have : "mi".data <:+: x := infix_of_prefix_drop _ _ k this
      rw [← listInfB_iff] at this
      rw [hmi] at this
      cases this
    · have h1len : (x.drop k).length = 1 := by omega
      rcases List.length_eq_one.mp h1len with ⟨c, hc⟩
      have hcm : c = 'm' := by
        rw [hc] at hmipre
        rcases hmipre with ⟨t, ht⟩
        simp only [List.cons_append, List.nil_append] at ht
        have := congrArg (fun l => l.head?) ht
        simpa [show "mi".data = ['m', 'i'] from rfl] using this.symm
      have hgl : x.getLast? = some c := by
        have h3 : (x.drop k).getLast? =
            if x.length ≤ k then none else x.getLast? := List.getLast?_drop
        rw [hc, if_neg (by omega : ¬ x.length ≤ k)] at h3
        simpa using h3.symm
      exact hlast (hcm ▸ hgl)
  · exact tryMS_none_of_not_pre _ (by simpa using hpre)

/-- No regex match can start inside a quote-free chunk that is followed by
a quote and a space (the tail of the path and type attributes). -/
theorem tryMS_none_quotefree (x : List Char) (hq : '\x22' ∉ x)
    (ys : List Char) :
    ∀ k, k < x.length → tryMS (x.drop k ++ '\x22' :: ' ' :: ys) = none := by
  intro k hk
  by_cases hpre : listPreB litMS (x.drop k ++ '\x22' :: ' ' :: ys) = true
  · have hlit : litMS <+: x.drop k ++ '\x22' :: ' ' :: ys :=
      (listPreB_iff _ _).mp hpre
    have hdkq : '\x22' ∉ x.drop k := fun hmem =>
      hq (List.mem_of_mem_drop hmem)
    rcases Nat.lt_trichotomy (x.drop k).length 14 with hlen | hlen | hlen
    · exfalso
      rcases hlit with ⟨t, ht⟩
      have hidx := congrArg (fun l => l[(x.drop k).length]?) ht
      simp only at hidx
      rw [List.getElem?_append_right (Nat.le_refl _)] at hidx
      rw [List.getElem?_append] at hidx
      rw [if_pos (by rw [show litMS.length = 15 from rfl]; omega)] at hidx
      simp only [Nat.sub_self, List.getElem?_cons_zero] at hidx
      have hql : '\x22' ∈ litMS.take 14 := by
        have hidx2 : (litMS.take 14)[(x.drop k).length]? = some '\x22' := by
          rw [List.getElem?_take, if_pos hlen]
          exact hidx
        exact List.getElem?_mem hidx2
      have : '\x22' ∉ litMS.take 14 := by decide
      exact this hql
    · -- the chunk ends exactly with `minified_size=`: the digits check
      -- then fails on the following space
      unfold tryMS
      rw [if_pos hpre]
      dsimp only
      rw [show litMS.length = 15 from rfl]
      have hdrop : (x.drop k ++ '\x22' :: ' ' :: ys).drop 15 = ' ' :: ys := by
        rw [show (15 : Nat) = (x.drop k).length + 1 from by omega]
        rw [List.drop_append]
        rfl
      rw [hdrop]
      simp [List.takeWhile]
    · exfalso
      have h15 : 15 ≤ (x.drop k).length := by omega
      have : litMS <+: x.drop k :=
        prefix_shorten _ _ _ hlit (by rw [show litMS.length = 15 from rfl]; omega)
      have hqin : '\x22' ∈ x.drop k := this.subset (by decide)
      exact hdkq hqin
  · exact tryMS_none_of_not_pre _ (by simpa using hpre)

/-- Combine no-match guarantees across a chunk boundary. -/
theorem noMatch_append (x y rest : List Char)
    (hx : ∀ k, k < x.length → tryMS (x.drop k ++ (y ++ rest)) = none)
    (hy : ∀ k, k < y.length → tryMS (y.drop k ++ rest) = none) :
    ∀ k, k < (x ++ y).length → tryMS ((x ++ y).drop k ++ rest) = none := by
  intro k hk
  by_cases hkx : k < x.length
  · rw [List.drop_append_of_le_length (Nat.le_of_lt hkx), List.append_assoc]
    exact hx k hkx
  · have hk2 : k = x.length + (k - x.length) := by omega
    rw [hk2, List.drop_append]
    apply hy
    simp only [List.length_append] at hk
    omega

/-- Skipping a prefix in which no match starts. -/
theorem findMSgo_append_of_none (l1 l2 : List Char)
    (h : ∀ k, k < l1.length → tryMS (l1.drop k ++ l2) = none) :
    findMSgo (l1 ++ l2) = findMSgo l2 := by
  induction l1 with
  | nil => rfl
  | cons a t ih =>
    show findMSgo (a :: (t ++ l2)) = findMSgo l2
    have h0 := h 0 (by simp)
    simp only [List.drop_zero, List.cons_append] at h0
    have hstep : findMSgo (a :: (t ++ l2)) = findMSgo (t ++ l2) := by
      show (match tryMS (a :: (t ++ l2)) with
        | some n => some n
        | none => findMSgo (t ++ l2)) = findMSgo (t ++ l2)
      rw [h0]
    rw [hstep]
    exact ih (fun k hk => by
      have := h (k + 1) (by simpa using Nat.succ_lt_succ hk)
      simpa using this)

theorem findMSgo_head_some (l : List Char) (n : Nat) (h : tryMS l = some n)
    (hne : l ≠ []) : findMSgo l = some n := by
  cases l with
  | nil => exact absurd rfl hne
  | cons c cs =>
    unfold findMSgo
    rw [h]

theorem decDigit_toNat (n : Nat) : (decDigit n).toNat = 48 + n % 10 := by
  unfold decDigit
  have h : n % 10 < 10 := Nat.mod_lt n (by norm_num)
  generalize hk : n % 10 = k at h ⊢
  interval_cases k <;> decide

theorem decValue_append_digit (l : List Char) (d : Char) :
    decValue (l ++ [d]) = 10 * decValue l + (d.toNat - 48) := by
  unfold decValue
  rw [List.foldl_append]
  rfl

theorem decValue_natToDecF (fuel n : Nat) (h : n ≤ fuel) :
    decValue (natToDecF fuel n) = n := by
  induction fuel generalizing n with
  | zero =>
    have : n = 0 := by omega
    subst this
    decide
  | succ f ih =>
    by_cases hn : n < 10
    · unfold natToDecF
      rw [if_pos hn]
      show decValue [decDigit n] = n
      unfold decValue
      simp only [List.foldl_cons, List.foldl_nil]
      rw [decDigit_toNat]
      omega
    · unfold natToDecF
      rw [if_neg hn]
      rw [decValue_append_digit]
      have hdiv : n / 10 ≤ f := by
        have := Nat.div_lt_self (by omega : 0 < n) (by norm_num : 1 < 10)
        omega
      rw [ih (n / 10) hdiv, decDigit_toNat]
      omega

theorem decValue_natToDec (n : Nat) : decValue (natToDec n) = n :=
  decValue_natToDecF n n (Nat.le_refl n)

theorem digits_no_mi (x : List Char) (h : ∀ c ∈ x, c.isDigit = true) :
    listInfB "mi".data x = false := by
  cases hB : listInfB "mi".data x with
  | false => rfl
  | true =>
    exfalso
    have hinf : "mi".data <:+: x := (listInfB_iff _ _).mp hB
    have hm : 'm' ∈ x := hinf.subset (by decide)
    have := h 'm' hm
    simp at this

theorem digits_last_ne_m (x : List Char) (h : ∀ c ∈ x, c.isDigit = true) :
    x.getLast? ≠ some 'm' := by
  intro hl
  rcases List.getLast?_eq_some_iff.mp hl with ⟨l2, hl2⟩
  have hm : 'm' ∈ x := by rw [hl2]; simp
  have := h 'm' hm
  simp at this

theorem lookup_mem_values {α β : Type} [BEq α] (k : α) (l : List (α × β))
    (v : β) (h : List.lookup k l = some v) : v ∈ l.map Prod.snd := by
  induction l with
  | nil => simp [List.lookup] at h
  | cons a t ih =>
    rcases a with ⟨a1, b1⟩
    simp only [List.lookup] at h
    by_cases hk : (k == a1) = true
    · simp only [hk, Option.some.injEq] at h
      subst h
      simp
    · have hk2 : (k == a1) = false := by simpa using hk
      simp only [hk2] at h
      exact List.mem_cons_of_mem _ (ih h)

/-- The content-type classifier only ever yields these nine names. -/
theorem getFileType_mem (p : String) : getFileType p ∈
    (["svelte", "typescript", "javascript", "css", "scss", "json",
      "markdown", "html", "text"] : List String) := by
  unfold getFileType
  cases h : List.lookup (strLower (pySuffix p)) fileTypesMap with
  | none => simp
  | some t =>
    have hmem := lookup_mem_values _ _ _ h
    have hvals : fileTypesMap.map Prod.snd =
        ["svelte", "typescript", "javascript", "css", "scss", "json",
          "markdown", "html"] := rfl
    rw [hvals] at hmem
    simp only [List.mem_cons, List.not_mem_nil, or_false] at hmem ⊢
    tauto

/-- The leftmost match of the size-extraction regex on a full formatted
block is the genuine minified-size attribute, provided the path attribute
contains no double quote. -/
theorem findMS_block_exact (P T : String) (orig minSize : Nat) (rest : String)
    (hP : '\x22' ∉ P.data)
    (hT : T ∈ (["svelte", "typescript", "javascript", "css", "scss", "json",
      "markdown", "html", "text"] : List String)) :
    findMS ("<file path=\x22" ++ P ++ "\x22 type=\x22" ++ T ++
      "\x22 original_size=\x22" ++ (⟨natToDec orig⟩ : String) ++
      "\x22 minified_size=\x22" ++ (⟨natToDec minSize⟩ : String) ++
      "\x22" ++ rest) = some minSize := by
  unfold findMS
  have hdata : ("<file path=\x22" ++ P ++ "\x22 type=\x22" ++ T ++
      "\x22 original_size=\x22" ++ (⟨natToDec orig⟩ : String) ++
      "\x22 minified_size=\x22" ++ (⟨natToDec minSize⟩ : String) ++
      "\x22" ++ rest).data =
      "<file path=\x22".data ++ (P.data ++ ("\x22 type=\x22".data ++
        (T.data ++ ("\x22 original_size=\x22".data ++ (natToDec orig ++
          (['\x22', ' '] ++ (litMS ++ (natToDec minSize ++
            ('\x22' :: rest.data))))))))) := by
    simp only [String.data_append, List.append_assoc]
    rfl
  rw [hdata]
  have hsfxA : ∀ k, k < "<file path=\x22".data.length →
      tryMS ("<file path=\x22".data.drop k ++ (P.data ++ ("\x22 type=\x22".data ++
        (T.data ++ ("\x22 original_size=\x22".data ++ (natToDec orig ++
          (['\x22', ' '] ++ (litMS ++ (natToDec minSize ++
            ('\x22' :: rest.data)))))))))) = none :=
    tryMS_none_chunk _ _ (by decide) (by decide)
  rw [findMSgo_append_of_none _ _ hsfxA]
  have hsfxP : ∀ k, k < P.data.length →
      tryMS (P.data.drop k ++ ("\x22 type=\x22".data ++
        (T.data ++ ("\x22 original_size=\x22".data ++ (natToDec orig ++
          (['\x22', ' '] ++ (litMS ++ (natToDec minSize ++
            ('\x22' :: rest.data))))))))) = none :=
    tryMS_none_quotefree P.data hP _
  rw [findMSgo_append_of_none _ _ hsfxP]
  have hsfxB : ∀ k, k < "\x22 type=\x22".data.length →
      tryMS ("\x22 type=\x22".data.drop k ++
        (T.data ++ ("\x22 original_size=\x22".data ++ (natToDec orig ++
          (['\x22', ' '] ++ (litMS ++ (natToDec minSize ++
            ('\x22' :: rest.data)))))))) = none :=
    tryMS_none_chunk _ _ (by decide) (by decide)
  rw [findMSgo_append_of_none _ _ hsfxB]
  have hsfxT : ∀ k, k < T.data.length →
      tryMS (T.data.drop k ++
        ("\x22 original_size=\x22".data ++ (natToDec orig ++
          (['\x22', ' '] ++ (litMS ++ (natToDec minSize ++
            ('\x22' :: rest.data))))))) = none := by
    refine tryMS_none_chunk _ _ ?_ ?_
    · fin_cases hT <;> decide
    · fin_cases hT <;> decide
  rw [findMSgo_append_of_none _ _ hsfxT]
  have hsfxC : ∀ k, k < "\x22 original_size=\x22".data.length →
      tryMS ("\x22 original_size=\x22".data.drop k ++ (natToDec orig ++
        (['\x22', ' '] ++ (litMS ++ (natToDec minSize ++
          ('\x22' :: rest.data)))))) = none :=
    tryMS_none_chunk _ _ (by decide) (by decide)
  rw [findMSgo_append_of_none _ _ hsfxC]
  have hsfxN : ∀ k, k < (natToDec orig).length →
      tryMS ((natToDec orig).drop k ++
        (['\x22', ' '] ++ (litMS ++ (natToDec minSize ++
          ('\x22' :: rest.data))))) = none :=
    tryMS_none_chunk _ _ (digits_no_mi _ (natToDec_digits orig))
      (digits_last_ne_m _ (natToDec_digits orig))
  rw [findMSgo_append_of_none _ _ hsfxN]
  have hsfxD : ∀ k, k < (['\x22', ' '] : List Char).length →
      tryMS ((['\x22', ' '] : List Char).drop k ++ (litMS ++ (natToDec minSize ++
        ('\x22' :: rest.data)))) = none :=
    tryMS_none_chunk _ _ (by decide) (by decide)
  rw [findMSgo_append_of_none _ _ hsfxD]
  have htry : tryMS (litMS ++ (natToDec minSize ++ ('\x22' :: rest.data))) =
      some minSize := by
    rw [tryMS_at, decValue_natToDec]
  exact findMSgo_head_some _ _ htry (by simp [litMS])

/-- Under a quote-free path attribute, formatting succeeds and the regex
recovers exactly the reported minified size. -/
theorem formatFileContent_findMS_exact (o : MinOracles) (cwd : List String)
    (fp content ft : String) (h0 : utf8Len content ≠ 0)
    (hP : '\x22' ∉ (pyRelpath cwd fp).data)
    (hT : ft ∈ (["svelte", "typescript", "javascript", "css", "scss", "json",
      "markdown", "html", "text"] : List String)) :
    ∃ b, formatFileContent o cwd fp content ft true = .ok b ∧
      findMS b = some (utf8Len (minifyContent o content ft)) := by
  unfold formatFileContent
  dsimp only
  rw [if_neg h0]
  refine ⟨_, rfl, ?_⟩
  have heq :
      "<file path=\x22" ++ pyRelpath cwd fp ++ "\x22 type=\x22" ++ ft ++ "\x22" ++
          " original_size=\x22" ++ (⟨natToDec (utf8Len content)⟩ : String) ++
          "\x22 minified_size=\x22" ++
          (⟨natToDec (utf8Len (minifyContent o content ft))⟩ : String) ++
          "\x22 reduction=\x22" ++
          fmt1frac ((utf8Len content - utf8Len (minifyContent o content ft) : Int)
            * 100) (utf8Len content) ++ "%\x22" ++
          blockTail ft (minifyContent o content ft) =
        "<file path=\x22" ++ pyRelpath cwd fp ++ "\x22 type=\x22" ++ ft ++
          "\x22 original_size=\x22" ++ (⟨natToDec (utf8Len content)⟩ : String) ++
          "\x22 minified_size=\x22" ++
          (⟨natToDec (utf8Len (minifyContent o content ft))⟩ : String) ++
          "\x22" ++
          (" reduction=\x22" ++
            fmt1frac ((utf8Len content - utf8Len (minifyContent o content ft) : Int)
              * 100) (utf8Len content) ++ "%\x22" ++
            blockTail ft (minifyContent o content ft)) := by
    apply String.ext
    simp only [String.data_append, List.append_assoc]
    rfl
  rw [heq]
  exact findMS_block_exact (pyRelpath cwd fp) ft (utf8Len content)
    (utf8Len (minifyContent o content ft)) _ hP hT

/-- Each content-pass item keeps its own totals consistent with what its
block reports, provided its path attribute is quote-free. -/
theorem itemDelta_consistent (o : MinOracles) (cwd : List String)
    (giPats : List GiPattern) (excl : List String) (rootArg : String)
    (it : List String × String × Option String)
    (hP : '\x22' ∉
      (pyRelpath cwd (pyJoin rootArg (joinSep "/" (it.1 ++ [it.2.1])))).data) :
    (itemDelta o cwd giPats excl rootArg true it).totO =
      ((itemDelta o cwd giPats excl rootArg true it).reported.map Prod.fst).sum ∧
    (itemDelta o cwd giPats excl rootArg true it).totM =
      ((itemDelta o cwd giPats excl rootArg true it).reported.map Prod.snd).sum := by
  rcases it with ⟨rel, name, co⟩
  unfold itemDelta
  by_cases hinc : shouldIncludeFile giPats excl rootArg (rel ++ [name]) = true
  · simp only [hinc, if_true]
    cases co with
    | none => simp [zeroES]
    | some c =>
      dsimp only
      by_cases h0 : utf8Len c = 0
      · have hfmt : formatFileContent o cwd
            (pyJoin rootArg (joinSep "/" (rel ++ [name]))) c
            (getFileType (pyJoin rootArg (joinSep "/" (rel ++ [name])))) true =
            .error () := by
          unfold formatFileContent
          dsimp only
          rw [if_pos h0]
          rfl
        rw [hfmt]
        simp [h0]
      · rcases formatFileContent_findMS_exact o cwd
          (pyJoin rootArg (joinSep "/" (rel ++ [name]))) c
          (getFileType (pyJoin rootArg (joinSep "/" (rel ++ [name])))) h0 hP
          (getFileType_mem _) with ⟨b, hb, hfind⟩
        rw [hb]
        simp [hfind]
  · simp only [Bool.not_eq_true] at hinc
    simp [hinc, zeroES]

theorem sumDeltas_totO (o : MinOracles) (cwd : List String)
    (giPats : List GiPattern) (excl : List String) (rootArg : String)
    (minify : Bool) (l : List (List String × String × Option String)) :
    (sumDeltas o cwd giPats excl rootArg minify l).totO =
      (l.map (fun it => (itemDelta o cwd giPats excl rootArg minify it).totO)).sum := by
  induction l with
  | nil => rfl
  | cons a t ih => simp only [sumDeltas, List.foldr_cons, List.map_cons,
      List.sum_cons] at ih ⊢; rw [← ih]; rfl

theorem sumDeltas_totM (o : MinOracles) (cwd : List String)
    (giPats : List GiPattern) (excl : List String) (rootArg : String)
    (minify : Bool) (l : List (List String × String × Option String)) :
    (sumDeltas o cwd giPats excl rootArg minify l).totM =
      (l.map (fun it => (itemDelta o cwd giPats excl rootArg minify it).totM)).sum := by
  induction l with
  | nil => rfl
  | cons a t ih => simp only [sumDeltas, List.foldr_cons, List.map_cons,
      List.sum_cons] at ih ⊢; rw [← ih]; rfl

theorem sumDeltas_reported (o : MinOracles) (cwd : List String)
    (giPats : List GiPattern) (excl : List String) (rootArg : String)
    (minify : Bool) (l : List (List String × String × Option String)) :
    (sumDeltas o cwd giPats excl rootArg minify l).reported =
      l.flatMap (fun it => (itemDelta o cwd giPats excl rootArg minify it).reported) := by
  induction l with
  | nil => rfl
  | cons a t ih => simp only [sumDeltas, List.foldr_cons,
      List.flatMap_cons] at ih ⊢; rw [← ih]; rfl

/-- What one item reports is the UTF-8 byte length of its decoded content
and of that content's minified form. -/
theorem itemDelta_reported_utf8 (o : MinOracles) (cwd : List String)
    (giPats : List GiPattern) (excl : List String) (rootArg : String)
    (minify : Bool) (it : List String × String × Option String)
    (pr : Nat × Nat)
    (h : pr ∈ (itemDelta o cwd giPats excl rootArg minify it).reported) :
    ∃ c, it.2.2 = some c ∧ pr = (utf8Len c,
      utf8Len (minifyContent o c
        (getFileType (pyJoin rootArg (joinSep "/" (it.1 ++ [it.2.1])))))) := by
  rcases it with ⟨rel, name, co⟩
  unfold itemDelta at h
  by_cases hinc : shouldIncludeFile giPats excl rootArg (rel ++ [name]) = true
  · simp only [hinc, if_true] at h
    cases co with
    | none => simp [zeroES] at h
    | some c =>
      refine ⟨c, rfl, ?_⟩
      cases minify with
      | false =>
        simp only [Bool.false_eq_true, if_false] at h
        cases hf : formatFileContent o cwd
            (pyJoin rootArg (joinSep "/" (rel ++ [name]))) c
            (getFileType (pyJoin rootArg (joinSep "/" (rel ++ [name])))) false with
        | error e => rw [hf] at h; simp [zeroES] at h
        | ok b => rw [hf] at h; simp at h
      | true =>
        simp only [if_true] at h
        cases hf : formatFileContent o cwd
            (pyJoin rootArg (joinSep "/" (rel ++ [name]))) c
            (getFileType (pyJoin rootArg (joinSep "/" (rel ++ [name])))) true with
        | error e => rw [hf] at h; simp at h
        | ok b =>
          rw [hf] at h
          cases hm : findMS b with
          | some m => simp [hm] at h; simpa using h
          | none => simp [hm] at h
  · simp only [Bool.not_eq_true] at hinc
    simp [hinc, zeroES] at h

/-! ### Claim C6 -/

/-- C6 counterexample: a file whose name embeds text matching the
size-extraction regex makes the accumulated minified total (here `3`,
parsed out of the path attribute) diverge from the per-file value the
block actually reports (`11`). -/
theorem claim_C6_counterexample :
    (emitAll idO ["home", "u"] (loadGitignore c6tree) [] "proj" true
        c6tree).totM = 3 ∧
      ((emitAll idO ["home", "u"] (loadGitignore c6tree) [] "proj" true
        c6tree).reported.map Prod.snd).sum = 11 ∧
      (emitAll idO ["home", "u"] (loadGitignore c6tree) [] "proj" true
        c6tree).totM ≠
        ((emitAll idO ["home", "u"] (loadGitignore c6tree) [] "proj" true
          c6tree).reported.map Prod.snd).sum := by
  exact ⟨rfl, rfl, by decide⟩

/-- C6 (amended): when no emitted path attribute contains a double quote
(so the leftmost regex match in each block is the genuine attribute), the
statistics totals equal the sums of the per-file original and minified
sizes reported in the files section; every reported size is the UTF-8
byte count of the content or of its minified form; and the overall
reduction line renders exactly
`(total_original - total_minified) / total_original * 100` to one decimal
place. -/
theorem claim_C6_amended (o : MinOracles) (cwd : List String)
    (rootArg : String) (root : Ents) (excl : List String)
    (hq : ∀ it ∈ contentItems root, '\x22' ∉
      (pyRelpath cwd (pyJoin rootArg (joinSep "/" (it.1 ++ [it.2.1])))).data) :
    (emitAll o cwd (loadGitignore root) excl rootArg true root).totO =
      ((emitAll o cwd (loadGitignore root) excl rootArg true root).reported.map
        Prod.fst).sum ∧
    (emitAll o cwd (loadGitignore root) excl rootArg true root).totM =
      ((emitAll o cwd (loadGitignore root) excl rootArg true root).reported.map
        Prod.snd).sum ∧
    (∀ it ∈ contentItems root, ∀ pr ∈
        (itemDelta o cwd (loadGitignore root) excl rootArg true it).reported,
      ∃ c, it.2.2 = some c ∧ pr = (utf8Len c,
        utf8Len (minifyContent o c
          (getFileType (pyJoin rootArg (joinSep "/" (it.1 ++ [it.2.1]))))))) ∧
    (∀ out, processDirectory o cwd rootArg root excl true = .ok out →
      StrInf ("Overall reduction: " ++
        fmt1frac (((emitAll o cwd (loadGitignore root) excl rootArg true
            root).totO -
          (emitAll o cwd (loadGitignore root) excl rootArg true root).totM :
            Int) * 100)
          (emitAll o cwd (loadGitignore root) excl rootArg true root).totO ++
        "%") out) := by
  have hcons : ∀ it ∈ contentItems root,
      (itemDelta o cwd (loadGitignore root) excl rootArg true it).totO =
        ((itemDelta o cwd (loadGitignore root) excl rootArg true it).reported.map
          Prod.fst).sum ∧
      (itemDelta o cwd (loadGitignore root) excl rootArg true it).totM =
        ((itemDelta o cwd (loadGitignore root) excl rootArg true it).reported.map
          Prod.snd).sum := fun it hit =>
    itemDelta_consistent o cwd (loadGitignore root) excl rootArg it (hq it hit)
  have hsum : ∀ (g : Nat × Nat → Nat)
      (l : List (List String × String × Option String)),
      ((l.flatMap (fun it =>
          (itemDelta o cwd (loadGitignore root) excl rootArg true
            it).reported)).map g).sum =
        (l.map (fun it =>
          ((itemDelta o cwd (loadGitignore root) excl rootArg true
            it).reported.map g).sum)).sum := by
    intro g l
    induction l with
    | nil => rfl
    | cons a t ih =>
      simp only [List.flatMap_cons, List.map_cons, List.map_append,
        List.sum_append, List.sum_cons, ih]
  refine ⟨?_, ?_, ?_, ?_⟩
  · rw [emitAll_eq_sumDeltas, sumDeltas_totO, sumDeltas_reported, hsum]
    exact congrArg List.sum
      (List.map_congr_left (fun it hit => (hcons it hit).1))
  · rw [emitAll_eq_sumDeltas, sumDeltas_totM, sumDeltas_reported, hsum]
    exact congrArg List.sum
      (List.map_congr_left (fun it hit => (hcons it hit).2))
  · intro it hit pr hpr
    exact itemDelta_reported_utf8 o cwd (loadGitignore root) excl rootArg
      true it pr hpr
  · intro out hout
    unfold processDirectory at hout
    dsimp only at hout
    rw [if_pos rfl] at hout
    by_cases h0 :
        (emitAll o cwd (loadGitignore root) excl rootArg true root).totO = 0
    · rw [if_pos h0] at hout
      exact Except.noConfusion hout
    · rw [if_neg h0] at hout
      have hbe := Except.ok.inj hout
      rw [← hbe]
      have l1 : (" bytes\nOverall reduction: " : String) =
          " bytes\n" ++ "Overall reduction: " := rfl
      have l2 : ("%\n</statistics>\n</project>" : String) =
          "%" ++ "\n</statistics>\n</project>" := rfl
      rw [l1, l2]
      have hmid := strInf_middle
        ("Overall reduction: " ++
          fmt1frac
            (((emitAll o cwd (loadGitignore root) excl rootArg true
                root).totO -
              (emitAll o cwd (loadGitignore root) excl rootArg true
                root).totM : Int) * 100)
            (emitAll o cwd (loadGitignore root) excl rootArg true
              root).totO ++ "%")
        ("<project>\n\n" ++
          ("<structure>\n" ++
            String.join ((structItems (loadGitignore root) excl rootArg
              root).map (renderSItem rootArg)) ++ "</structure>\n\n") ++
          ("<files>\n" ++
            String.join (emitAll o cwd (loadGitignore root) excl rootArg
              true root).blocks ++ "</files>\n") ++
          "\n<statistics>\nTotal original size: " ++
          natGrouped (emitAll o cwd (loadGitignore root) excl rootArg true
            root).totO ++
          " bytes\nTotal minified size: " ++
          natGrouped (emitAll o cwd (loadGitignore root) excl rootArg true
            root).totM ++ " bytes\n")
        "\n</statistics>\n</project>"
      simpa only [String.append_assoc] using hmid

/-- Witness for the amended C6 at the C1 scenario tree: every emitted
path attribute is quote-free, so totals, per-file reports and the
reduction line all agree. -/
theorem claim_C6_amended_witness :
    (∀ it ∈ contentItems c1tree, '\x22' ∉
      (pyRelpath ["home", "u"]
        (pyJoin "proj" (joinSep "/" (it.1 ++ [it.2.1])))).data) ∧
    ((emitAll idO ["home", "u"] (loadGitignore c1tree) [] "proj" true
        c1tree).totO =
      ((emitAll idO ["home", "u"] (loadGitignore c1tree) [] "proj" true
        c1tree).reported.map Prod.fst).sum ∧
    (emitAll idO ["home", "u"] (loadGitignore c1tree) [] "proj" true
        c1tree).totM =
      ((emitAll idO ["home", "u"] (loadGitignore c1tree) [] "proj" true
        c1tree).reported.map Prod.snd).sum ∧
    (∀ it ∈ contentItems c1tree, ∀ pr ∈
        (itemDelta idO ["home", "u"] (loadGitignore c1tree) [] "proj" true
          it).reported,
      ∃ c, it.2.2 = some c ∧ pr = (utf8Len c,
        utf8Len (minifyContent idO c
          (getFileType (pyJoin "proj" (joinSep "/" (it.1 ++ [it.2.1]))))))) ∧
    (∀ out,
        processDirectory idO ["home", "u"] "proj" c1tree [] true = .ok out →
      StrInf ("Overall reduction: " ++
        fmt1frac (((emitAll idO ["home", "u"] (loadGitignore c1tree) []
            "proj" true c1tree).totO -
          (emitAll idO ["home", "u"] (loadGitignore c1tree) [] "proj" true
            c1tree).totM : Int) * 100)
          (emitAll idO ["home", "u"] (loadGitignore c1tree) [] "proj" true
            c1tree).totO ++
        "%") out)) :=
  ⟨by decide,
    claim_C6_amended idO ["home", "u"] "proj" c1tree [] (by decide)⟩

/-! ### Claim C10 -/

/-- C10: the path attribute is computed by `os.path.relpath` against the
process working directory, not against the root argument.  For a clean
relative root the attribute is the root-prefixed path — never the
root-relative one — and it lands verbatim inside the emitted block; for an
absolute root and an unrelated working directory the attribute carries
parent-directory segments. -/
theorem claim_C10_path_attr (o : MinOracles) (cwd : List String)
    (rootArg rj : String) (h1 : cleanComps rootArg) (h2 : cleanComps rj) :
    pyRelpath cwd (pyJoin rootArg rj) = rootArg ++ "/" ++ rj ∧
    rootArg ++ "/" ++ rj ≠ rj ∧
    (∀ content ft b, formatFileContent o cwd (pyJoin rootArg rj) content ft
        false = .ok b →
      StrInf ("<file path=\x22" ++ (rootArg ++ "/" ++ rj) ++ "\x22") b) ∧
    pyRelpath ["home", "u"] (pyJoin "/srv/proj" rj) = "../../srv/proj/" ++ rj := by
  have hdata : (rootArg ++ "/" ++ rj).data = rootArg.data ++ '/' :: rj.data := by
    simp [String.data_append]
  have hsplit : splitList '/' (rootArg ++ "/" ++ rj).data =
      splitList '/' rootArg.data ++ splitList '/' rj.data := by
    rw [hdata]; exact splitList_append_sep '/' rootArg.data rj.data
  have hjoin : pyJoin rootArg rj = rootArg ++ "/" ++ rj := pyJoin_clean rootArg rj h1
  have hclean : ∀ c ∈ (splitList '/' (rootArg ++ "/" ++ rj).data).map String.mk,
      c ≠ "" ∧ c ≠ "." ∧ c ≠ ".." := by
    intro c hc
    rw [hsplit, List.map_append] at hc
    rcases List.mem_append.mp hc with hc | hc
    · exact h1 c hc
    · exact h2 c hc
  have hmain : pyRelpath cwd (pyJoin rootArg rj) = rootArg ++ "/" ++ rj := by
    rw [hjoin]
    unfold pyRelpath
    dsimp only
    have hhead : (rootArg ++ "/" ++ rj).data.head? ≠ some '/' := by
      rw [hdata]
      cases hra : rootArg.data with
      | nil => exact absurd hra (cleanComps_ne_empty rootArg h1)
      | cons c cs =>
        have := cleanComps_head_ne_slash rootArg h1
        rw [hra] at this
        simpa using this
    rw [if_neg hhead]
    rw [normComps_append_clean cwd _ hclean]
    rw [commonPrefixLen_self_append (normComps cwd) _]
    simp only [Nat.sub_self, List.replicate_zero, List.nil_append,
      List.drop_left]
    have hne : (splitList '/' (rootArg ++ "/" ++ rj).data).map String.mk ≠ [] := by
      intro he
      exact splitList_ne_nil '/' _ (List.map_eq_nil_iff.mp he)
    rw [if_neg hne]
    exact joinSep_map_splitList _
  have hne2 : rootArg ++ "/" ++ rj ≠ rj := by
    intro he
    have := congrArg String.data he
    rw [hdata] at this
    have hlen := congrArg List.length this
    simp at hlen
    have : rootArg.data.length + (rj.data.length + 1) = rj.data.length := by
      simpa [Nat.add_comm, Nat.add_assoc, Nat.add_left_comm] using hlen
    omega
  refine ⟨hmain, hne2, ?_, ?_⟩
  · intro content ft b hb
    unfold formatFileContent at hb
    simp only [Bool.false_eq_true, if_false, Except.ok.injEq] at hb
    rw [hmain] at hb
    subst hb
    unfold StrInf
    refine List.IsPrefix.isInfix ?_
    have : ("<file path=\x22" ++ (rootArg ++ "/" ++ rj) ++ "\x22").data ++
        ("\x22 type=\x22".data.drop 1 ++ (ft ++ "\x22" ++
          blockTail ft content).data) =
        ("<file path=\x22" ++ (rootArg ++ "/" ++ rj) ++ "\x22 type=\x22" ++
          ft ++ "\x22" ++ blockTail ft content).data := by
      simp [String.data_append]
    exact ⟨_, this⟩
  · have hjoin2 : pyJoin "/srv/proj" rj = "/srv/proj" ++ "/" ++ rj := by
      unfold pyJoin
      rw [if_neg (by decide), if_neg (by decide)]
    rw [hjoin2]
    unfold pyRelpath
    dsimp only
    have hdata2 : ("/srv/proj" ++ "/" ++ rj).data =
        "/srv/proj".data ++ '/' :: rj.data := by simp [String.data_append]
    have hhead2 : ("/srv/proj" ++ "/" ++ rj).data.head? = some '/' := by
      rw [hdata2]; rfl
    rw [if_pos hhead2]
    have hsplit2 : splitList '/' ("/srv/proj" ++ "/" ++ rj).data =
        splitList '/' "/srv/proj".data ++ splitList '/' rj.data := by
      rw [hdata2]; exact splitList_append_sep '/' _ _
    rw [hsplit2]
    have hlit : splitList '/' "/srv/proj".data = [[], "srv".data, "proj".data] := by
      decide
    rw [hlit]
    have hstep : ([[], "srv".data, "proj".data] ++
        splitList '/' rj.data).map String.mk =
        (["", "srv", "proj"] : List String) ++
          (splitList '/' rj.data).map String.mk := by
      simp
    rw [hstep]
    have hnorm : normComps ((["", "srv", "proj"] : List String) ++
        (splitList '/' rj.data).map String.mk) =
        (["srv", "proj"] : List String) ++
          (splitList '/' rj.data).map String.mk := by
      have : (["", "srv", "proj"] : List String) ++
          (splitList '/' rj.data).map String.mk =
          ([""] : List String) ++ (["srv", "proj"] ++
            (splitList '/' rj.data).map String.mk) := by simp
      rw [this]
      rw [normComps_append_clean [""] _ (by
        intro c hc
        rcases List.mem_append.mp hc with hc | hc
        · fin_cases hc <;> exact ⟨by decide, by decide, by decide⟩
        · exact h2 c hc)]
      rfl
    rw [hnorm]
    have hcwd : normComps (["home", "u"] : List String) = ["home", "u"] := by decide
    rw [hcwd]
    have hcpl : commonPrefixLen (["home", "u"] : List String)
        ((["srv", "proj"] : List String) ++
          (splitList '/' rj.data).map String.mk) = 0 := by
      simp [commonPrefixLen]
    rw [hcpl]
    have hres : (List.replicate (2 - 0) "..") ++
        ((["srv", "proj"] : List String) ++
          (splitList '/' rj.data).map String.mk).drop 0 =
        (["..", "..", "srv", "proj"] : List String) ++
          (splitList '/' rj.data).map String.mk := by
      simp [List.replicate]
    simp only [List.length_cons, List.length_nil, hres]
    have hne3 : (["..", "..", "srv", "proj"] : List String) ++
        (splitList '/' rj.data).map String.mk ≠ [] := by simp
    rw [if_neg hne3]
    rw [joinSep_append_of_ne_nil _ _ (by simp)
      (fun he => splitList_ne_nil '/' _ (List.map_eq_nil_iff.mp he))]
    rw [joinSep_map_splitList]
    apply String.ext
    simp [String.data_append]
    rfl

/-- Witness for C10 at a concrete relative root and file. -/
theorem claim_C10_witness :
    pyRelpath ["home", "u"] (pyJoin "proj" "src/a.ts") =
        "proj" ++ "/" ++ "src/a.ts" ∧
      "proj" ++ "/" ++ "src/a.ts" ≠ "src/a.ts" ∧
      (∀ content ft b, formatFileContent idO ["home", "u"]
          (pyJoin "proj" "src/a.ts") content ft false = .ok b →
        StrInf ("<file path=\x22" ++ ("proj" ++ "/" ++ "src/a.ts") ++ "\x22") b) ∧
      pyRelpath ["home", "u"] (pyJoin "/srv/proj" "src/a.ts") =
        "../../srv/proj/" ++ "src/a.ts" :=
  claim_C10_path_attr idO ["home", "u"] "proj" "src/a.ts" (by decide) (by decide)


/-! ### Claim C7: round-trip of the structured-data canonicalisation -/

theorem digit_char_ne (c : Char) (h : c.isDigit = true) (d : Char)
    (hd : d.isDigit = false) : c ≠ d := by
  intro he
  rw [he, hd] at h
  exact Bool.noConfusion h

theorem digit_not_ws (c : Char) (h : c.isDigit = true) :
    isJsonWs c = false := by
  have h1 : c ≠ ' ' := digit_char_ne c h ' ' (by decide)
  have h2 : c ≠ '\t' := digit_char_ne c h '\t' (by decide)
  have h3 : c ≠ '\n' := digit_char_ne c h '\n' (by decide)
  have h4 : c ≠ '\x0d' := digit_char_ne c h '\x0d' (by decide)
  simp [isJsonWs, h1, h2, h3, h4]

theorem joApp_nil : ∀ d : JObj, joApp d .nil = d
  | .nil => rfl
  | .cons k v t => congrArg (JObj.cons k v) (joApp_nil t)

theorem jokeys_joApp : ∀ d e : JObj, jokeys (joApp d e) = jokeys d ++ jokeys e
  | .nil, _ => rfl
  | .cons k _ t, e => congrArg (List.cons k) (jokeys_joApp t e)

theorem joApp_cons_nil : ∀ (d : JObj) (k : String) (v : Json) (t : JObj),
    joApp (joApp d (.cons k v .nil)) t = joApp d (.cons k v t)
  | .nil, _, _, _ => rfl
  | .cons k2 v2 d', k, v, t =>
    congrArg (JObj.cons k2 v2) (joApp_cons_nil d' k v t)

theorem jobjInsert_fresh : ∀ (d : JObj) (k : String) (v : Json),
    (jokeys d).contains k = false → jobjInsert k v d = joApp d (.cons k v .nil)
  | .nil, _, _, _ => rfl
  | .cons k2 v2 t, k, v, h => by
    simp only [jokeys, List.contains_cons, Bool.or_eq_false_iff,
      beq_eq_false_iff_ne, ne_eq] at h
    rw [jobjInsert, if_neg h.1]
    exact congrArg (JObj.cons k2 v2) (jobjInsert_fresh t k v h.2)

theorem jokeys_jobjInsert : ∀ (d : JObj) (k : String) (v : Json),
    jokeys (jobjInsert k v d) =
      if (jokeys d).contains k = true then jokeys d else jokeys d ++ [k]
  | .nil, k, v => by simp [jobjInsert, jokeys]
  | .cons k2 v2 t, k, v => by
    by_cases hk : k = k2
    · rw [jobjInsert, if_pos hk]
      have hc : (jokeys (JObj.cons k2 v2 t)).contains k = true := by
        simp [jokeys, List.contains_cons, hk]
      rw [if_pos hc]
      rfl
    · rw [jobjInsert, if_neg hk]
      have hcc : (jokeys (JObj.cons k2 v2 t)).contains k =
          (jokeys t).contains k := by
        simp [jokeys, List.contains_cons, hk]
      show k2 :: jokeys (jobjInsert k v t) = _
      rw [jokeys_jobjInsert t k v]
      by_cases ht : (jokeys t).contains k = true
      · rw [if_pos ht, if_pos (by rw [hcc]; exact ht)]
        rfl
      · rw [if_neg ht, if_neg (by rw [hcc]; exact ht)]
        rfl

theorem jowf_jobjInsert : ∀ (d : JObj) (k : String) (v : Json),
    jowf d = true → strOK k = true → jwf v = true →
    jowf (jobjInsert k v d) = true
  | .nil, k, v, _, hk, hv => by simp [jobjInsert, jowf, jokeys, hk, hv]
  | .cons k2 v2 t, k, v, hd, hk, hv => by
    simp only [jowf, Bool.and_eq_true, Bool.not_eq_true'] at hd
    obtain ⟨⟨⟨hk2, hv2⟩, ht⟩, hnc⟩ := hd
    have hnm : k2 ∉ jokeys t := by simpa using hnc
    by_cases hkk : k = k2
    · rw [jobjInsert, if_pos hkk]
      simp [jowf, hk2, hv, ht, hnm]
    · rw [jobjInsert, if_neg hkk]
      have hrec := jowf_jobjInsert t k v ht hk hv
      have hkeys := jokeys_jobjInsert t k v
      simp only [jowf, Bool.and_eq_true, Bool.not_eq_true']
      refine ⟨⟨⟨hk2, hv2⟩, hrec⟩, ?_⟩
      rw [hkeys]
      by_cases htc : (jokeys t).contains k = true
      · rw [if_pos htc]; exact hnc
      · rw [if_neg htc]
        have hne : k2 ≠ k := fun he => hkk he.symm
        simp [hnm, hne]

theorem pydict_wf_aux : ∀ (ms : List (String × Json)) (d : JObj),
    jowf d = true → (∀ p ∈ ms, strOK p.1 = true ∧ jwf p.2 = true) →
    jowf (ms.foldl (fun d m => jobjInsert m.1 m.2 d) d) = true := by
  intro ms
  induction ms with
  | nil => intro d hd _; exact hd
  | cons a t ih =>
    intro d hd h
    rw [List.foldl_cons]
    exact ih (jobjInsert a.1 a.2 d)
      (jowf_jobjInsert d a.1 a.2 hd (h a (by simp)).1 (h a (by simp)).2)
      (fun p hp => h p (by simp [hp]))

theorem pydictOf_wf (ms : List (String × Json))
    (h : ∀ p ∈ ms, strOK p.1 = true ∧ jwf p.2 = true) :
    jowf (pydictOf ms) = true :=
  pydict_wf_aux ms .nil rfl h

theorem pydict_jolist_aux : ∀ (xs : JObj) (d : JObj),
    jowf xs = true → (∀ k ∈ jokeys xs, (jokeys d).contains k = false) →
    (jolist xs).foldl (fun d m => jobjInsert m.1 m.2 d) d = joApp d xs
  | .nil, d, _, _ => (joApp_nil d).symm
  | .cons k v t, d, hwf, hf => by
    simp only [jowf, Bool.and_eq_true, Bool.not_eq_true'] at hwf
    obtain ⟨⟨⟨hk, hv⟩, ht⟩, hnc⟩ := hwf
    rw [jolist, List.foldl_cons]
    have hfk : (jokeys d).contains k = false := hf k (by simp [jokeys])
    rw [jobjInsert_fresh d k v hfk]
    have hstep := pydict_jolist_aux t (joApp d (.cons k v .nil)) ht ?_
    · rw [hstep]
      exact joApp_cons_nil d k v t
    · intro k2 hk2
      rw [jokeys_joApp]
      have h1 : (jokeys d).contains k2 = false :=
        hf k2 (by simp [jokeys, hk2])
      have hnm : k ∉ jokeys t := by simpa using hnc
      have h1m : k2 ∉ jokeys d := by simpa using h1
      have h2 : k2 ≠ k := fun he => hnm (he ▸ hk2)
      simp [jokeys, h1m, h2]

theorem pydictOf_jolist (xs : JObj) (h : jowf xs = true) :
    pydictOf (jolist xs) = xs := by
  have := pydict_jolist_aux xs .nil h (by intro k _; rfl)
  exact this

theorem jparseStr_strOK : ∀ (l : List Char) (s : String) (r : List Char),
    jparseStr l = some (s, r) → strOK s = true := by
  intro l
  induction l with
  | nil => intro s r h; simp [jparseStr] at h
  | cons c cs ih =>
    intro s r h
    rw [jparseStr] at h
    by_cases hq : c = '\x22'
    · rw [if_pos hq] at h
      injection h with h'
      injection h' with h1 h2
      subst h1
      rfl
    · rw [if_neg hq] at h
      by_cases hb : (c = '\\' || decide (c.toNat < 32)) = true
      · rw [if_pos hb] at h; exact Option.noConfusion h
      · rw [if_neg hb] at h
        cases hps : jparseStr cs with
        | none => rw [hps] at h; exact Option.noConfusion h
        | some p =>
          rw [hps] at h
          simp only [Option.map_some'] at h
          injection h with h'
          injection h' with h1 h2
          subst h1
          have hok : okChar c = true := by
            simp only [Bool.or_eq_true, not_or, Bool.not_eq_true] at hb
            simp [okChar, hq, hb]
          have := ih p.1 p.2 (by rw [hps])
          simp only [strOK, List.all_cons, Bool.and_eq_true]
          exact ⟨hok, this⟩

theorem jparseStr_dump : ∀ (l rest : List Char),
    (∀ c ∈ l, okChar c = true) →
    jparseStr (l ++ '\x22' :: rest) = some (⟨l⟩, rest) := by
  intro l
  induction l with
  | nil =>
    intro rest _
    rw [List.nil_append, jparseStr, if_pos rfl]
  | cons c cs ih =>
    intro rest h
    have hok : okChar c = true := h c (by simp)
    simp only [okChar, Bool.and_eq_true, Bool.not_eq_true',
      decide_eq_false_iff_not] at hok
    rw [List.cons_append, jparseStr,
      if_neg (by simpa using hok.1.1),
      if_neg (by simp [hok.1.2, hok.2]),
      ih rest (fun c2 hc2 => h c2 (by simp [hc2]))]
    rfl

theorem jparse_wf : ∀ fuel : Nat,
    (∀ l v r, jparseVal fuel l = some (v, r) → jwf v = true) ∧
    (∀ l xs r, jparseItems fuel l = some (xs, r) → jlwf xs = true) ∧
    (∀ l ms r, jparseMembers fuel l = some (ms, r) →
      ∀ p ∈ ms, strOK p.1 = true ∧ jwf p.2 = true) := by
  intro fuel
  induction fuel with
  | zero =>
    refine ⟨?_, ?_, ?_⟩
    · intro l v r h; exact Option.noConfusion h
    · intro l xs r h; exact Option.noConfusion h
    · intro l ms r h; exact Option.noConfusion h
  | succ f ih =>
    obtain ⟨ih1, ih2, ih3⟩ := ih
    refine ⟨?_, ?_, ?_⟩
    · intro l v r h
      rw [jparseVal] at h
      repeat' split at h
      all_goals
        first
          | exact Option.noConfusion h
          | (injection h with h'; injection h' with hv hr; subst hv; rfl)
          | skip
      · obtain ⟨q, hq, hfq⟩ := Option.map_eq_some'.mp h
        injection hfq with hv hr
        subst hv
        exact jparseStr_strOK _ q.1 q.2 (by rw [hq])
      · obtain ⟨q, hq, hfq⟩ := Option.map_eq_some'.mp h
        injection hfq with hv hr
        subst hv
        exact ih2 _ q.1 q.2 (by rw [hq])
      · obtain ⟨q, hq, hfq⟩ := Option.map_eq_some'.mp h
        injection hfq with hv hr
        subst hv
        exact pydictOf_wf q.1 (ih3 _ q.1 q.2 (by rw [hq]))
    · intro l xs r h
      rw [jparseItems] at h
      cases hpv : jparseVal f l with
      | none => rw [hpv] at h; exact Option.noConfusion h
      | some p =>
        obtain ⟨v1, r1⟩ := p
        rw [hpv] at h
        simp only [Option.bind_eq_bind, Option.some_bind] at h
        split at h
        · rename_i r2 heq
          cases hpi : jparseItems f r2 with
          | none => rw [hpi] at h; exact Option.noConfusion h
          | some q =>
            obtain ⟨xs2, r3⟩ := q
            rw [hpi] at h
            simp only [Option.bind_eq_bind, Option.some_bind] at h
            injection h with h'
            injection h' with hxs hr
            subst hxs
            have h1 := ih1 l v1 r1 hpv
            have h2 := ih2 r2 xs2 r3 hpi
            simp [jlwf, h1, h2]
        · rename_i r2 heq
          injection h with h'
          injection h' with hxs hr
          subst hxs
          have h1 := ih1 l v1 r1 hpv
          simp [jlwf, h1]
        · exact Option.noConfusion h
    · intro l ms r h
      rw [jparseMembers] at h
      split at h
      · rename_i cs heq
        cases hps : jparseStr cs with
        | none => rw [hps] at h; exact Option.noConfusion h
        | some pk =>
          obtain ⟨k1, r1⟩ := pk
          rw [hps] at h
          simp only [Option.bind_eq_bind, Option.some_bind] at h
          split at h
          · rename_i r2 heq2
            cases hpv : jparseVal f r2 with
            | none => rw [hpv] at h; exact Option.noConfusion h
            | some pv =>
              obtain ⟨v1, r3⟩ := pv
              rw [hpv] at h
              simp only [Option.bind_eq_bind, Option.some_bind] at h
              split at h
              · rename_i r4 heq3
                cases hpm : jparseMembers f r4 with
                | none => rw [hpm] at h; exact Option.noConfusion h
                | some pm =>
                  obtain ⟨ms2, r5⟩ := pm
                  rw [hpm] at h
                  simp only [Option.bind_eq_bind, Option.some_bind] at h
                  injection h with h'
                  injection h' with hms hr
                  subst hms
                  intro p hp
                  rcases List.mem_cons.mp hp with hp1 | hp2
                  · subst hp1
                    exact ⟨jparseStr_strOK cs k1 r1 (by rw [hps]),
                      ih1 r2 v1 r3 hpv⟩
                  · exact ih3 r4 ms2 r5 hpm p hp2
              · rename_i r4 heq3
                injection h with h'
                injection h' with hms hr
                subst hms
                intro p hp
                rcases List.mem_cons.mp hp with hp1 | hp2
                · subst hp1
                  exact ⟨jparseStr_strOK cs k1 r1 (by rw [hps]),
                    ih1 r2 v1 r3 hpv⟩
                · simp at hp2
              · exact Option.noConfusion h
          · exact Option.noConfusion h
      · exact Option.noConfusion h

theorem jsonLoads_wf (s : String) (v : Json) (h : jsonLoads s = some v) :
    jwf v = true := by
  unfold jsonLoads at h
  cases hpv : jparseVal (s.data.length + 1) s.data with
  | none => rw [hpv] at h; exact Option.noConfusion h
  | some p =>
    obtain ⟨v1, r1⟩ := p
    rw [hpv] at h
    simp only [] at h
    by_cases hdw : r1.dropWhile isJsonWs = []
    · rw [if_pos hdw] at h
      injection h with hv
      subst hv
      exact (jparse_wf (s.data.length + 1)).1 s.data v1 r1 hpv
    · rw [if_neg hdw] at h
      exact Option.noConfusion h

theorem jdump_head (v : Json) : ∃ c l, (jdump v).data = c :: l ∧
    isJsonWs c = false ∧ c ≠ ']' ∧ c ≠ '\x7d' := by
  cases v with
  | null => refine ⟨'n', _, rfl, ?_, ?_, ?_⟩ <;> decide
  | bool b =>
    cases b with
    | true => refine ⟨'t', _, rfl, ?_, ?_, ?_⟩ <;> decide
    | false => refine ⟨'f', _, rfl, ?_, ?_, ?_⟩ <;> decide
  | int n =>
    by_cases hn : n < 0
    · refine ⟨'-', natToDec n.natAbs, ?_, by decide, by decide, by decide⟩
      show (intToStr n).data = _
      unfold intToStr
      rw [if_pos hn]
      rfl
    · cases hnd : natToDec n.natAbs with
      | nil => exact absurd hnd (natToDec_ne_nil _)
      | cons d dl =>
        have hdig : d.isDigit = true :=
          natToDec_digits n.natAbs d (by rw [hnd]; simp)
        refine ⟨d, dl, ?_, digit_not_ws d hdig,
          digit_char_ne d hdig ']' (by decide),
          digit_char_ne d hdig '\x7d' (by decide)⟩
        show (intToStr n).data = _
        unfold intToStr
        rw [if_neg hn]
        exact hnd
  | str s => refine ⟨'\x22', s.data ++ ['\x22'], rfl, ?_, ?_, ?_⟩ <;> decide
  | arr xs => refine ⟨'[', _, rfl, ?_, ?_, ?_⟩ <;> decide
  | obj xs => refine ⟨'\x7b', _, rfl, ?_, ?_, ?_⟩ <;> decide

theorem jparseVal_digit (f : Nat) (c : Char) (cs : List Char)
    (h : c.isDigit = true) :
    jparseVal (f + 1) (c :: cs) =
      some (.int (decValue ((c :: cs).takeWhile Char.isDigit)),
        (c :: cs).drop ((c :: cs).takeWhile Char.isDigit).length) := by
  have hd : (c :: cs).dropWhile isJsonWs = c :: cs := by
    rw [List.dropWhile_cons, if_neg (by simp [digit_not_ws c h])]
  rw [jparseVal, hd]
  simp only []
  rw [if_neg (digit_char_ne c h 'n' (by decide)),
    if_neg (digit_char_ne c h 't' (by decide)),
    if_neg (digit_char_ne c h 'f' (by decide)),
    if_neg (digit_char_ne c h '\x22' (by decide)),
    if_neg (digit_char_ne c h '-' (by decide)),
    if_pos h]

theorem jparseVal_dash (f : Nat) (cs : List Char) (d : Char) (dl : List Char)
    (htw : cs.takeWhile Char.isDigit = d :: dl) :
    jparseVal (f + 1) ('-' :: cs) =
      some (.int (-(decValue (d :: dl) : Int)), cs.drop (d :: dl).length) := by
  have hd : ('-' :: cs).dropWhile isJsonWs = '-' :: cs := by
    rw [List.dropWhile_cons, if_neg (by decide)]
  rw [jparseVal, hd]
  simp only []
  rw [if_neg (by decide), if_neg (by decide), if_neg (by decide),
    if_neg (by decide), if_pos trivial, htw]

theorem jparseVal_lbrack (f : Nat) (cs : List Char) (c0 : Char)
    (l2 : List Char) (hdw : cs.dropWhile isJsonWs = c0 :: l2)
    (hne : c0 ≠ ']') :
    jparseVal (f + 1) ('[' :: cs) =
      (jparseItems f cs).map (fun p => (Json.arr p.1, p.2)) := by
  have hd : ('[' :: cs).dropWhile isJsonWs = '[' :: cs := by
    rw [List.dropWhile_cons, if_neg (by decide)]
  rw [jparseVal, hd]
  simp only []
  rw [if_neg (by decide), if_neg (by decide), if_neg (by decide),
    if_neg (by decide), if_neg (by decide), if_neg (by decide),
    if_pos trivial]
  split
  · rename_i r heq
    rw [hdw] at heq
    injection heq with h1 h2
    exact absurd h1 hne
  · rfl

theorem jparseVal_lbrace (f : Nat) (cs : List Char) (c0 : Char)
    (l2 : List Char) (hdw : cs.dropWhile isJsonWs = c0 :: l2)
    (hne : c0 ≠ '\x7d') :
    jparseVal (f + 1) ('\x7b' :: cs) =
      (jparseMembers f cs).map (fun p => (Json.obj (pydictOf p.1), p.2)) := by
  have hd : ('\x7b' :: cs).dropWhile isJsonWs = '\x7b' :: cs := by
    rw [List.dropWhile_cons, if_neg (by decide)]
  rw [jparseVal, hd]
  simp only []
  rw [if_neg (by decide), if_neg (by decide), if_neg (by decide),
    if_neg (by decide), if_neg (by decide), if_neg (by decide),
    if_neg (by decide), if_pos trivial]
  split
  · rename_i r heq
    rw [hdw] at heq
    injection heq with h1 h2
    exact absurd h1 hne
  · rfl

theorem jparseItems_step (f : Nat) (l : List Char) (v : Json) (r : List Char)
    (hv : jparseVal f l = some (v, r)) :
    jparseItems (f + 1) l =
      match r.dropWhile isJsonWs with
      | ',' :: r2 => (jparseItems f r2).bind
          (fun q => some (JList.cons v q.1, q.2))
      | ']' :: r2 => some (JList.cons v JList.nil, r2)
      | _ => none := by
  rw [jparseItems, hv]
  rfl

theorem jparseMembers_step (f : Nat) (l cs : List Char) (k1 : String)
    (r : List Char) (hdw : l.dropWhile isJsonWs = '\x22' :: cs)
    (hk : jparseStr cs = some (k1, r)) :
    jparseMembers (f + 1) l =
      match r.dropWhile isJsonWs with
      | ':' :: r2 => (jparseVal f r2).bind (fun pv =>
          match pv.2.dropWhile isJsonWs with
          | ',' :: r4 => (jparseMembers f r4).bind
              (fun pm => some ((k1, pv.1) :: pm.1, pm.2))
          | '\x7d' :: r4 => some ([(k1, pv.1)], r4)
          | _ => none)
      | _ => none := by
  rw [jparseMembers, hdw]
  show (jparseStr cs).bind (fun pk =>
      match pk.2.dropWhile isJsonWs with
      | ':' :: r2 => (jparseVal f r2).bind (fun pv =>
          match pv.2.dropWhile isJsonWs with
          | ',' :: r4 => (jparseMembers f r4).bind
              (fun pm => some ((pk.1, pv.1) :: pm.1, pm.2))
          | '\x7d' :: r4 => some ([(pk.1, pv.1)], r4)
          | _ => none)
      | _ => none) = _
  rw [hk]
  rfl

theorem jdump_parse : ∀ fuel : Nat,
    (∀ v rest, jwf v = true → (jdump v).data.length + 1 ≤ fuel →
      rest.takeWhile Char.isDigit = [] →
      jparseVal fuel ((jdump v).data ++ rest) = some (v, rest)) ∧
    (∀ h t rest, jlwf (JList.cons h t) = true →
      (jdumpList (JList.cons h t)).data.length + 2 ≤ fuel →
      jparseItems fuel ((jdumpList (JList.cons h t)).data ++ ']' :: rest) =
        some (JList.cons h t, rest)) ∧
    (∀ k v t rest, jowf (JObj.cons k v t) = true →
      (jdumpObj (JObj.cons k v t)).data.length + 2 ≤ fuel →
      jparseMembers fuel
          ((jdumpObj (JObj.cons k v t)).data ++ '\x7d' :: rest) =
        some (jolist (JObj.cons k v t), rest)) := by
  intro fuel
  induction fuel with
  | zero =>
    refine ⟨?_, ?_, ?_⟩
    · intro v rest _ hlen _; exact absurd hlen (by omega)
    · intro h t rest _ hlen; exact absurd hlen (by omega)
    · intro k v t rest _ hlen; exact absurd hlen (by omega)
  | succ f ih =>
    obtain ⟨ih1, ih2, ih3⟩ := ih
    refine ⟨?_, ?_, ?_⟩
    · intro v rest hwf hlen hrest
      cases v with
      | null => rfl
      | bool b =>
        cases b with
        | true => rfl
        | false => rfl
      | int n =>
        by_cases hn : n < 0
        · cases hnd : natToDec n.natAbs with
          | nil => exact absurd hnd (natToDec_ne_nil _)
          | cons d dl =>
            have he : (jdump (Json.int n)).data ++ rest =
                '-' :: ((d :: dl) ++ rest) := by
              show (intToStr n).data ++ rest = _
              unfold intToStr
              rw [if_pos hn]
              show '-' :: (natToDec n.natAbs ++ rest) = _
              rw [hnd]
            have hall : ∀ c ∈ (d :: dl), c.isDigit = true := by
              rw [← hnd]; exact natToDec_digits _
            have htw : ((d :: dl) ++ rest).takeWhile Char.isDigit = d :: dl := by
              rw [takeWhile_append_all _ _ _ hall, hrest, List.append_nil]
            rw [he, jparseVal_dash f _ d dl htw]
            have hdrop : ((d :: dl) ++ rest).drop (d :: dl).length = rest :=
              List.drop_left _ _
            rw [hdrop]
            have hval : (-(decValue (d :: dl) : Int)) = n := by
              rw [← hnd, decValue_natToDec]
              omega
            rw [hval]
        · cases hnd : natToDec n.natAbs with
          | nil => exact absurd hnd (natToDec_ne_nil _)
          | cons d dl =>
            have he : (jdump (Json.int n)).data ++ rest =
                d :: (dl ++ rest) := by
              show (intToStr n).data ++ rest = _
              unfold intToStr
              rw [if_neg hn]
              show natToDec n.natAbs ++ rest = _
              rw [hnd]
              rfl
            have hdig : d.isDigit = true :=
              natToDec_digits n.natAbs d (by rw [hnd]; simp)
            rw [he, jparseVal_digit f d (dl ++ rest) hdig]
            have hrec : d :: (dl ++ rest) = (d :: dl) ++ rest := rfl
            have hall : ∀ c ∈ (d :: dl), c.isDigit = true := by
              rw [← hnd]; exact natToDec_digits _
            have htw : (d :: (dl ++ rest)).takeWhile Char.isDigit = d :: dl := by
              rw [hrec, takeWhile_append_all _ _ _ hall, hrest, List.append_nil]
            rw [htw]
            have hdrop : (d :: (dl ++ rest)).drop (d :: dl).length = rest := by
              rw [hrec]; exact List.drop_left _ _
            rw [hdrop]
            have hval : ((decValue (d :: dl) : Nat) : Int) = n := by
              rw [← hnd, decValue_natToDec]
              exact Int.natAbs_of_nonneg (Int.not_lt.mp hn)
            rw [hval]
      | str s =>
        have hOK : ∀ c ∈ s.data, okChar c = true :=
          List.all_eq_true.mp (hwf : s.data.all okChar = true)
        have he : (jdump (Json.str s)).data ++ rest =
            '\x22' :: (s.data ++ '\x22' :: rest) := by
          show ('\x22' :: (s.data ++ ['\x22'])) ++ rest = _
          simp [List.append_assoc]
        rw [he]
        rw [show jparseVal (f + 1) ('\x22' :: (s.data ++ '\x22' :: rest)) =
            (jparseStr (s.data ++ '\x22' :: rest)).map
              (fun p => (Json.str p.1, p.2)) from rfl]
        rw [jparseStr_dump s.data rest hOK]
        rfl
      | arr xs =>
        cases xs with
        | nil => rfl
        | cons h t =>
          have hlb : ("[" : String).data = ['['] := rfl
          have hrb : ("]" : String).data = [']'] := rfl
          have he : (jdump (Json.arr (JList.cons h t))).data ++ rest =
              '[' :: ((jdumpList (JList.cons h t)).data ++ ']' :: rest) := by
            show ("[" ++ jdumpList (JList.cons h t) ++ "]").data ++ rest = _
            rw [String.data_append, String.data_append, hlb, hrb]
            simp [List.append_assoc]
          obtain ⟨c0, l0, hc0, hws0, hne0, _⟩ := jdump_head h
          have hl2 : ∃ l2, (jdumpList (JList.cons h t)).data = c0 :: l2 := by
            cases t with
            | nil => exact ⟨l0, hc0⟩
            | cons h2 t2 =>
              have hcm : ("," : String).data = [','] := rfl
              refine ⟨l0 ++ ',' :: (jdumpList (JList.cons h2 t2)).data, ?_⟩
              show ((jdump h ++ ",") ++ jdumpList (JList.cons h2 t2)).data = _
              rw [String.data_append, String.data_append, hcm, hc0]
              simp [List.append_assoc]
          obtain ⟨l2, hl2⟩ := hl2
          have hcs : (jdumpList (JList.cons h t)).data ++ ']' :: rest =
              c0 :: (l2 ++ ']' :: rest) := by rw [hl2]; rfl
          have hdw : ((jdumpList (JList.cons h t)).data ++
              ']' :: rest).dropWhile isJsonWs = c0 :: (l2 ++ ']' :: rest) := by
            rw [hcs, List.dropWhile_cons, if_neg (by simp [hws0])]
          rw [he, jparseVal_lbrack f _ c0 _ hdw hne0]
          have hL : (jdump (Json.arr (JList.cons h t))).data.length =
              (jdumpList (JList.cons h t)).data.length + 2 := by
            show (("[" ++ jdumpList (JList.cons h t) ++ "]").data).length = _
            rw [String.data_append, String.data_append, hlb, hrb]
            simp only [List.length_append, List.length_cons, List.length_nil]
            try omega
          have hlenL : (jdumpList (JList.cons h t)).data.length + 2 ≤ f := by
            rw [hL] at hlen; omega
          rw [ih2 h t rest (hwf : jlwf (JList.cons h t) = true) hlenL]
          rfl
      | obj xs =>
        cases xs with
        | nil => rfl
        | cons k v t =>
          have hlb : ("\x7b" : String).data = ['\x7b'] := rfl
          have hrb : ("\x7d" : String).data = ['\x7d'] := rfl
          have he : (jdump (Json.obj (JObj.cons k v t))).data ++ rest =
              '\x7b' :: ((jdumpObj (JObj.cons k v t)).data ++ '\x7d' :: rest) := by
            show ("\x7b" ++ jdumpObj (JObj.cons k v t) ++ "\x7d").data ++ rest = _
            rw [String.data_append, String.data_append, hlb, hrb]
            simp [List.append_assoc]
          have hq : ("\x22" : String).data = ['\x22'] := rfl
          have hqc : ("\x22:" : String).data = ['\x22', ':'] := rfl
          have hl2 : ∃ l2, (jdumpObj (JObj.cons k v t)).data = '\x22' :: l2 := by
            cases t with
            | nil =>
              refine ⟨k.data ++ '\x22' :: ':' :: (jdump v).data, ?_⟩
              show ((("\x22" ++ k) ++ "\x22:") ++ jdump v).data = _
              rw [String.data_append, String.data_append, String.data_append,
                hq, hqc]
              simp [List.append_assoc]
            | cons k2 v2 t2 =>
              have hcm : ("," : String).data = [','] := rfl
              refine ⟨k.data ++ '\x22' :: ':' :: ((jdump v).data ++
                ',' :: (jdumpObj (JObj.cons k2 v2 t2)).data), ?_⟩
              show (((("\x22" ++ k) ++ "\x22:") ++ jdump v ++ ",") ++
                jdumpObj (JObj.cons k2 v2 t2)).data = _
              rw [String.data_append, String.data_append, String.data_append,
                String.data_append, String.data_append, hq, hqc, hcm]
              simp [List.append_assoc]
          obtain ⟨l2, hl2⟩ := hl2
          have hcs : (jdumpObj (JObj.cons k v t)).data ++ '\x7d' :: rest =
              '\x22' :: (l2 ++ '\x7d' :: rest) := by rw [hl2]; rfl
          have hdw : ((jdumpObj (JObj.cons k v t)).data ++
              '\x7d' :: rest).dropWhile isJsonWs =
              '\x22' :: (l2 ++ '\x7d' :: rest) := by
            rw [hcs, List.dropWhile_cons, if_neg (by decide)]
          rw [he, jparseVal_lbrace f _ '\x22' _ hdw (by decide)]
          have hL : (jdump (Json.obj (JObj.cons k v t))).data.length =
              (jdumpObj (JObj.cons k v t)).data.length + 2 := by
            show (("\x7b" ++ jdumpObj (JObj.cons k v t) ++ "\x7d").data).length = _
            rw [String.data_append, String.data_append, hlb, hrb]
            simp only [List.length_append, List.length_cons, List.length_nil]
            try omega
          have hlenO : (jdumpObj (JObj.cons k v t)).data.length + 2 ≤ f := by
            rw [hL] at hlen; omega
          rw [ih3 k v t rest (hwf : jowf (JObj.cons k v t) = true) hlenO]
          simp only [Option.map_some']
          rw [pydictOf_jolist (JObj.cons k v t)
            (hwf : jowf (JObj.cons k v t) = true)]
    · intro h t rest hlw hlen
      cases t with
      | nil =>
        have hdl : jdumpList (JList.cons h JList.nil) = jdump h := rfl
        have hwfh : jwf h = true := by
          simp only [jlwf, Bool.and_eq_true] at hlw
          exact hlw.1
        have hlenh : (jdump h).data.length + 1 ≤ f := by
          rw [hdl] at hlen; omega
        rw [hdl]
        rw [jparseItems_step f _ h (']' :: rest)
          (ih1 h (']' :: rest) hwfh hlenh (by simp))]
        rfl
      | cons h2 t2 =>
        have hwfs : jwf h = true ∧ jlwf (JList.cons h2 t2) = true := by
          simp only [jlwf, Bool.and_eq_true] at hlw
          refine ⟨hlw.1, ?_⟩
          simp only [jlwf, Bool.and_eq_true]
          exact hlw.2
        have hcm : ("," : String).data = [','] := rfl
        have he : (jdumpList (JList.cons h (JList.cons h2 t2))).data ++
            ']' :: rest =
            (jdump h).data ++
              ',' :: ((jdumpList (JList.cons h2 t2)).data ++ ']' :: rest) := by
          show ((jdump h ++ ",") ++ jdumpList (JList.cons h2 t2)).data ++
            ']' :: rest = _
          rw [String.data_append, String.data_append, hcm]
          simp [List.append_assoc]
        have hlens : (jdumpList (JList.cons h (JList.cons h2 t2))).data.length =
            (jdump h).data.length + 1 +
              (jdumpList (JList.cons h2 t2)).data.length := by
          show (((jdump h ++ ",") ++ jdumpList (JList.cons h2 t2)).data).length = _
          rw [String.data_append, String.data_append, hcm]
          simp only [List.length_append, List.length_cons, List.length_nil]
          try omega
        have hlen' := hlen
        rw [hlens] at hlen'
        have hlen1 : (jdump h).data.length + 1 ≤ f := by omega
        have hlen2 : (jdumpList (JList.cons h2 t2)).data.length + 2 ≤ f := by
          omega
        rw [he]
        rw [jparseItems_step f _ h
          (',' :: ((jdumpList (JList.cons h2 t2)).data ++ ']' :: rest))
          (ih1 h _ hwfs.1 hlen1 (by simp))]
        show (jparseItems f
            ((jdumpList (JList.cons h2 t2)).data ++ ']' :: rest)).bind
          (fun q => some (JList.cons h q.1, q.2)) = _
        rw [ih2 h2 t2 rest hwfs.2 hlen2]
        rfl
    · intro k v t rest how hlen
      have hq : ("\x22" : String).data = ['\x22'] := rfl
      have hqc : ("\x22:" : String).data = ['\x22', ':'] := rfl
      have hOK : ∀ c ∈ k.data, okChar c = true := by
        apply List.all_eq_true.mp
        show strOK k = true
        simp only [jowf, Bool.and_eq_true] at how
        exact how.1.1.1
      have hwv : jwf v = true := by
        simp only [jowf, Bool.and_eq_true] at how
        exact how.1.1.2
      cases t with
      | nil =>
        have he : (jdumpObj (JObj.cons k v JObj.nil)).data ++ '\x7d' :: rest =
            '\x22' :: (k.data ++ '\x22' ::
              (':' :: ((jdump v).data ++ '\x7d' :: rest))) := by
          show ((("\x22" ++ k) ++ "\x22:") ++ jdump v).data ++ '\x7d' :: rest = _
          rw [String.data_append, String.data_append, String.data_append,
            hq, hqc]
          simp [List.append_assoc]
        have hlenv : (jdump v).data.length + 1 ≤ f := by
          have hL : (jdumpObj (JObj.cons k v JObj.nil)).data.length =
              k.data.length + 3 + (jdump v).data.length := by
            show ((("\x22" ++ k) ++ "\x22:") ++ jdump v).data.length = _
            rw [String.data_append, String.data_append, String.data_append,
              hq, hqc]
            simp only [List.length_append, List.length_cons, List.length_nil]
            try omega
          rw [hL] at hlen
          omega
        rw [he]
        rw [jparseMembers_step f _ (k.data ++ '\x22' ::
            (':' :: ((jdump v).data ++ '\x7d' :: rest))) k
          (':' :: ((jdump v).data ++ '\x7d' :: rest))
          (by rw [List.dropWhile_cons, if_neg (by decide)])
          (jparseStr_dump k.data _ hOK)]
        show (jparseVal f ((jdump v).data ++ '\x7d' :: rest)).bind (fun pv =>
            match pv.2.dropWhile isJsonWs with
            | ',' :: r4 => (jparseMembers f r4).bind
                (fun pm => some ((k, pv.1) :: pm.1, pm.2))
            | '\x7d' :: r4 => some ([(k, pv.1)], r4)
            | _ => none) = _
        rw [ih1 v ('\x7d' :: rest) hwv hlenv (by simp)]
        rfl
      | cons k2 v2 t2 =>
        have hcm : ("," : String).data = [','] := rfl
        have hwo2 : jowf (JObj.cons k2 v2 t2) = true := by
          simp only [jowf, Bool.and_eq_true] at how
          simp only [jowf, Bool.and_eq_true]
          exact how.1.2
        have he : (jdumpObj (JObj.cons k v (JObj.cons k2 v2 t2))).data ++
            '\x7d' :: rest =
            '\x22' :: (k.data ++ '\x22' :: (':' :: ((jdump v).data ++
              ',' :: ((jdumpObj (JObj.cons k2 v2 t2)).data ++
                '\x7d' :: rest)))) := by
          show (((("\x22" ++ k) ++ "\x22:") ++ jdump v ++ ",") ++
            jdumpObj (JObj.cons k2 v2 t2)).data ++ '\x7d' :: rest = _
          rw [String.data_append, String.data_append, String.data_append,
            String.data_append, String.data_append, hq, hqc, hcm]
          simp [List.append_assoc]
        have hL : (jdumpObj (JObj.cons k v (JObj.cons k2 v2 t2))).data.length =
            k.data.length + 4 + (jdump v).data.length +
              (jdumpObj (JObj.cons k2 v2 t2)).data.length := by
          show (((("\x22" ++ k) ++ "\x22:") ++ jdump v ++ ",") ++
            jdumpObj (JObj.cons k2 v2 t2)).data.length = _
          rw [String.data_append, String.data_append, String.data_append,
            String.data_append, String.data_append, hq, hqc, hcm]
          simp only [List.length_append, List.length_cons, List.length_nil]
          try omega
        have hlen' := hlen
        rw [hL] at hlen'
        have hlenv : (jdump v).data.length + 1 ≤ f := by omega
        have hleno : (jdumpObj (JObj.cons k2 v2 t2)).data.length + 2 ≤ f := by
          omega
        rw [he]
        rw [jparseMembers_step f _ (k.data ++ '\x22' :: (':' :: ((jdump v).data ++
            ',' :: ((jdumpObj (JObj.cons k2 v2 t2)).data ++ '\x7d' :: rest)))) k
          (':' :: ((jdump v).data ++
            ',' :: ((jdumpObj (JObj.cons k2 v2 t2)).data ++ '\x7d' :: rest)))
          (by rw [List.dropWhile_cons, if_neg (by decide)])
          (jparseStr_dump k.data _ hOK)]
        show (jparseVal f ((jdump v).data ++
            ',' :: ((jdumpObj (JObj.cons k2 v2 t2)).data ++
              '\x7d' :: rest))).bind (fun pv =>
            match pv.2.dropWhile isJsonWs with
            | ',' :: r4 => (jparseMembers f r4).bind
                (fun pm => some ((k, pv.1) :: pm.1, pm.2))
            | '\x7d' :: r4 => some ([(k, pv.1)], r4)
            | _ => none) = _
        rw [ih1 v _ hwv hlenv (by simp)]
        show (jparseMembers f ((jdumpObj (JObj.cons k2 v2 t2)).data ++
            '\x7d' :: rest)).bind
          (fun pm => some ((k, v) :: pm.1, pm.2)) = _
        rw [ih3 k2 v2 t2 rest hwo2 hleno]
        rfl

theorem jsonLoads_jdump (v : Json) (hwf : jwf v = true) :
    jsonLoads (jdump v) = some v := by
  have h := (jdump_parse ((jdump v).data.length + 1)).1 v [] hwf
    (by omega) rfl
  rw [List.append_nil] at h
  unfold jsonLoads
  rw [h]
  rfl

/-- C7: for every string the modelled `json.loads` parses to a value, the
minification path (`json.dumps(json.loads(content), separators=(',',':'))`)
produces a string that parses back to the same value: semantic round-trip
equivalence of the structured-data canonicalisation. -/
theorem claim_C7_json_roundtrip (o : MinOracles) (s : String) (v : Json)
    (h : jsonLoads s = some v) :
    jsonLoads (minifyContent o s "json") = some v := by
  have hwf := jsonLoads_wf s v h
  have hd : minifyDispatch o s "json" = .ok (jdump v) := by
    unfold minifyDispatch
    rw [if_neg (by decide), if_neg (by decide), if_neg (by decide),
      if_pos rfl, h]
  unfold minifyContent
  rw [hd]
  exact jsonLoads_jdump v hwf

/-- Witness for C7 at the spec scenario content. -/
theorem claim_C7_witness :
    jsonLoads "\x7b\x22a\x22:   1\x7d" =
        some (Json.obj (JObj.cons "a" (Json.int 1) JObj.nil)) ∧
      jsonLoads (minifyContent idO "\x7b\x22a\x22:   1\x7d" "json") =
        some (Json.obj (JObj.cons "a" (Json.int 1) JObj.nil)) :=
  ⟨by decide, claim_C7_json_roundtrip idO "\x7b\x22a\x22:   1\x7d"
    (Json.obj (JObj.cons "a" (Json.int 1) JObj.nil)) (by decide)⟩

/-! ### Claim C9: the svelte tag-rewriting passes -/

theorem subTagF_nil (ol cl : List Char) (F : String → Except String String) :
    ∀ fuel, subTagF ol cl F fuel [] = .ok []
  | 0 => rfl
  | _ + 1 => rfl

theorem subTagF_cons (ol cl : List Char) (F : String → Except String String)
    (fuel : Nat) (c : Char) (cs : List Char) :
    subTagF ol cl F (fuel + 1) (c :: cs) =
      if listPreB ol (c :: cs) then
        match ((c :: cs).drop ol.length).drop
            (((c :: cs).drop ol.length).takeWhile (fun x => x ≠ '>')).length with
        | '>' :: bodyStart =>
          match firstIdx cl bodyStart with
          | some i =>
            match F ⟨bodyStart.take i⟩ with
            | .error e => .error e
            | .ok m =>
              (subTagF ol cl F fuel (bodyStart.drop (i + cl.length))).map
                (fun tail => ol ++ '>' :: (m.data ++ cl ++ tail))
          | none => (subTagF ol cl F fuel cs).map (c :: ·)
        | _ => (subTagF ol cl F fuel cs).map (c :: ·)
      else (subTagF ol cl F fuel cs).map (c :: ·) := rfl

theorem subTagF_id (ol cl : List Char) (F : String → Except String String) :
    ∀ fuel l, listInfB ol l = false → subTagF ol cl F fuel l = .ok l
  | 0, _, _ => rfl
  | _ + 1, [], _ => rfl
  | fuel + 1, c :: cs, h => by
    simp only [listInfB, Bool.or_eq_false_iff] at h
    rw [subTagF_cons, if_neg (by simp [h.1]),
      subTagF_id ol cl F fuel cs h.2]
    rfl

theorem stripCommentsF_id : ∀ (fuel : Nat) (l : List Char),
    listInfB "<!--".data l = false → stripCommentsF fuel l = l
  | 0, _, _ => rfl
  | _ + 1, [], _ => rfl
  | fuel + 1, c :: cs, h => by
    simp only [listInfB, Bool.or_eq_false_iff] at h
    rw [stripCommentsF, if_neg (by simp [h.1]),
      stripCommentsF_id fuel cs h.2]

theorem stripComments_id (s : String)
    (h : listInfB "<!--".data s.data = false) : stripComments s = s := by
  show String.mk (stripCommentsF (s.data.length + 1) s.data) = s
  rw [stripCommentsF_id _ _ h]

theorem wsCollapseF_id : ∀ (fuel : Nat) (l : List Char),
    (∀ c ∈ l, isPyWs c = false) → wsCollapseF fuel l = l
  | 0, _, _ => rfl
  | _ + 1, [], _ => rfl
  | fuel + 1, c :: cs, h => by
    rw [wsCollapseF, if_neg (by simp [h c (by simp)]),
      wsCollapseF_id fuel cs (fun x hx => h x (by simp [hx]))]

theorem wsCollapse_id (s : String) (h : ∀ c ∈ s.data, isPyWs c = false) :
    wsCollapse s = s := by
  show String.mk (wsCollapseF (s.data.length + 1) s.data) = s
  rw [wsCollapseF_id _ _ h]

theorem gtLtF_id : ∀ (fuel : Nat) (l : List Char),
    (∀ c ∈ l, isPyWs c = false) → gtLtF fuel l = l
  | 0, _, _ => rfl
  | _ + 1, [], _ => rfl
  | fuel + 1, c :: cs, h => by
    by_cases hc : c = '>'
    · subst hc
      rw [gtLtF, if_pos rfl]
      have hrun : cs.takeWhile isPyWs = [] := by
        cases cs with
        | nil => rfl
        | cons d ds =>
          rw [List.takeWhile_cons, if_neg (by simp [h d (by simp)])]
      simp only [hrun]
      rw [if_neg (by simp)]
      rw [gtLtF_id fuel cs (fun x hx => h x (by simp [hx]))]
    · rw [gtLtF, if_neg hc,
        gtLtF_id fuel cs (fun x hx => h x (by simp [hx]))]

theorem gtLtCollapse_id (s : String) (h : ∀ c ∈ s.data, isPyWs c = false) :
    gtLtCollapse s = s := by
  show String.mk (gtLtF (s.data.length + 1) s.data) = s
  rw [gtLtF_id _ _ h]

theorem dropWhile_all_false (p : Char → Bool) (l : List Char)
    (h : ∀ c ∈ l, p c = false) : l.dropWhile p = l := by
  cases l with
  | nil => rfl
  | cons c cs => rw [List.dropWhile_cons, if_neg (by simp [h c (by simp)])]

theorem pyStrip_id (s : String) (h : ∀ c ∈ s.data, isPyWs c = false) :
    pyStrip s = s := by
  show String.mk (((s.data.dropWhile isPyWs).reverse.dropWhile
    isPyWs).reverse) = s
  rw [dropWhile_all_false _ _ h,
    dropWhile_all_false _ _ (fun c hc => h c (List.mem_reverse.mp hc)),
    List.reverse_reverse]

theorem firstIdx_clean : ∀ (l q : List Char), (∀ c ∈ l, c ≠ '<') →
    firstIdx ('<' :: q) (l ++ '<' :: q) = some l.length
  | [], q, _ => by
    rw [List.nil_append, firstIdx]
    have hp : listPreB ('<' :: q) ('<' :: q) = true := by
      have := listPreB_append_self ('<' :: q) ([] : List Char)
      rwa [List.append_nil] at this
    rw [if_pos hp]
    rfl
  | c :: cs, q, h => by
    rw [List.cons_append, firstIdx]
    have hne : listPreB ('<' :: q) (c :: (cs ++ '<' :: q)) = false := by
      cases hB : listPreB ('<' :: q) (c :: (cs ++ '<' :: q)) with
      | false => rfl
      | true =>
        exfalso
        have hpre := (listPreB_iff _ _).mp hB
        have hhd : '<' = c := (List.cons_prefix_cons.mp hpre).1
        exact h c (by simp) hhd.symm
    rw [if_neg (by simp [hne]), firstIdx_clean cs q
      (fun x hx => h x (by simp [hx]))]
    rfl

theorem subTagF_rewrite (c0 : Char) (ol' cl : List Char)
    (F : String → Except String String) (N : Nat)
    (attrs body : List Char) (m : String)
    (hattrs : ∀ c ∈ attrs, c ≠ '>')
    (hfirst : firstIdx cl (body ++ cl) = some body.length)
    (hF : F ⟨body⟩ = .ok m) :
    subTagF (c0 :: ol') cl F (N + 1)
        ((c0 :: ol') ++ (attrs ++ '>' :: (body ++ cl))) =
      .ok ((c0 :: ol') ++ '>' :: (m.data ++ cl)) := by
  have hin : (c0 :: ol') ++ (attrs ++ '>' :: (body ++ cl)) =
      c0 :: (ol' ++ (attrs ++ '>' :: (body ++ cl))) := rfl
  have hpre : listPreB (c0 :: ol')
      (c0 :: (ol' ++ (attrs ++ '>' :: (body ++ cl)))) = true :=
    listPreB_append_self (c0 :: ol') (attrs ++ '>' :: (body ++ cl))
  rw [hin, subTagF_cons, if_pos hpre]
  have h1 : (c0 :: (ol' ++ (attrs ++ '>' :: (body ++ cl)))).drop
      (c0 :: ol').length = attrs ++ '>' :: (body ++ cl) :=
    List.drop_left (c0 :: ol') (attrs ++ '>' :: (body ++ cl))
  rw [h1]
  have h2 : (attrs ++ '>' :: (body ++ cl)).takeWhile (fun x => x ≠ '>') =
      attrs := by
    rw [takeWhile_append_all _ _ _
      (by intro a ha; simp [hattrs a ha]),
      List.takeWhile_cons, if_neg (by simp)]
    exact List.append_nil attrs
  rw [h2]
  have h3 : (attrs ++ '>' :: (body ++ cl)).drop attrs.length =
      '>' :: (body ++ cl) := List.drop_left attrs ('>' :: (body ++ cl))
  rw [h3]
  show (match firstIdx cl (body ++ cl) with
    | some i =>
      match F ⟨(body ++ cl).take i⟩ with
      | .error e => (Except.error e : Except String (List Char))
      | .ok m2 =>
        (subTagF (c0 :: ol') cl F N
            ((body ++ cl).drop (i + cl.length))).map
          (fun tail => (c0 :: ol') ++ '>' :: (m2.data ++ cl ++ tail))
    | none => (subTagF (c0 :: ol') cl F N
        (ol' ++ (attrs ++ '>' :: (body ++ cl)))).map (c0 :: ·)) = _
  rw [hfirst]
  show (match F ⟨(body ++ cl).take body.length⟩ with
    | .error e => (Except.error e : Except String (List Char))
    | .ok m2 =>
      (subTagF (c0 :: ol') cl F N
          ((body ++ cl).drop (body.length + cl.length))).map
        (fun tail => (c0 :: ol') ++ '>' :: (m2.data ++ cl ++ tail))) = _
  have h4 : (body ++ cl).take body.length = body :=
    List.take_left body cl
  rw [h4, hF]
  show (subTagF (c0 :: ol') cl F N
      ((body ++ cl).drop (body.length + cl.length))).map
    (fun tail => (c0 :: ol') ++ '>' :: (m.data ++ cl ++ tail)) = _
  have h5 : (body ++ cl).drop (body.length + cl.length) = [] := by
    apply List.drop_eq_nil_of_le
    simp [List.length_append]
  rw [h5, subTagF_nil]
  show Except.ok ((c0 :: ol') ++ '>' :: (m.data ++ cl ++ ([] : List Char))) = _
  rw [List.append_nil]

theorem minifyDispatch_svelte (o : MinOracles) (content : String) :
    minifyDispatch o content "svelte" =
      (subTag "script" o.jsminF (stripComments content)).bind
        (fun c2 => (subTag "style" o.cssF c2).bind
          (fun c3 => Except.ok (pyStrip (gtLtCollapse (wsCollapse c3))))) := by
  unfold minifyDispatch
  rw [if_neg (by decide), if_neg (by decide), if_neg (by decide),
    if_neg (by decide), if_pos rfl]
  rfl

/-- C9: under the svelte minification pipeline, a script block whose
opening tag carries attributes is rewritten with a bare `<script>` opening
tag — the attributes are discarded from the emitted output — and likewise
a style block with attributes is rewritten with a bare `<style>` tag. -/
theorem claim_C9_svelte_bare_tags (o : MinOracles)
    (attrs body m attrs2 css mc : String)
    (hattrs : ∀ c ∈ attrs.data, c ≠ '>')
    (hbody : ∀ c ∈ body.data, c ≠ '<')
    (hjs : o.jsminF body = .ok m)
    (hmws : ∀ c ∈ m.data, isPyWs c = false)
    (hcmt : listInfB "<!--".data
      ("<script" ++ attrs ++ ">" ++ body ++ "</script>").data = false)
    (hsty : listInfB "<style".data
      ("<script>" ++ m ++ "</script>").data = false)
    (hattrs2 : ∀ c ∈ attrs2.data, c ≠ '>')
    (hcss : ∀ c ∈ css.data, c ≠ '<')
    (hcssF : o.cssF css = .ok mc)
    (hmcws : ∀ c ∈ mc.data, isPyWs c = false)
    (hcmt2 : listInfB "<!--".data
      ("<style" ++ attrs2 ++ ">" ++ css ++ "</style>").data = false)
    (hscr2 : listInfB "<script".data
      ("<style" ++ attrs2 ++ ">" ++ css ++ "</style>").data = false) :
    minifyContent o ("<script" ++ attrs ++ ">" ++ body ++ "</script>")
        "svelte" = "<script>" ++ m ++ "</script>" ∧
      minifyContent o ("<style" ++ attrs2 ++ ">" ++ css ++ "</style>")
        "svelte" = "<style>" ++ mc ++ "</style>" := by
  constructor
  · have hdata : ("<script" ++ attrs ++ ">" ++ body ++ "</script>").data =
        ('<' :: "script".data) ++
          (attrs.data ++ '>' :: (body.data ++ "</script>".data)) := by
      rw [String.data_append, String.data_append, String.data_append,
        String.data_append]
      rw [show ("<script" : String).data = '<' :: "script".data from rfl,
        show (">" : String).data = ['>'] from rfl]
      simp [List.append_assoc]
    have hfirst1 : firstIdx "</script>".data
        (body.data ++ "</script>".data) = some body.data.length :=
      firstIdx_clean body.data "/script>".data hbody
    have hjs' : o.jsminF ⟨body.data⟩ = .ok m := hjs
    have hsub1 : subTag "script" o.jsminF
        ("<script" ++ attrs ++ ">" ++ body ++ "</script>") =
        .ok ("<script>" ++ m ++ "</script>") := by
      unfold subTag
      rw [show ("<" ++ "script" : String).data = '<' :: "script".data
          from rfl,
        show ("</" ++ "script" ++ ">" : String).data = "</script>".data
          from rfl,
        hdata,
        subTagF_rewrite '<' "script".data "</script>".data o.jsminF _
          attrs.data body.data m hattrs hfirst1 hjs']
      have hmk : String.mk (('<' :: "script".data) ++
          '>' :: (m.data ++ "</script>".data)) =
          "<script>" ++ m ++ "</script>" := by
        have hT : ("<script>" ++ m ++ "</script>").data =
            ('<' :: "script".data) ++ '>' :: (m.data ++ "</script>".data) := by
          rw [String.data_append, String.data_append,
            show ("<script>" : String).data =
              ('<' :: "script".data) ++ ['>'] from rfl]
          simp [List.append_assoc]
        rw [← hT]
      rw [show (Except.ok (('<' :: "script".data) ++
          '>' :: (m.data ++ "</script>".data)) :
            Except String (List Char)).map String.mk =
          Except.ok (String.mk (('<' :: "script".data) ++
            '>' :: (m.data ++ "</script>".data))) from rfl, hmk]
    have hsub2 : subTag "style" o.cssF ("<script>" ++ m ++ "</script>") =
        .ok ("<script>" ++ m ++ "</script>") := by
      unfold subTag
      rw [show ("<" ++ "style" : String).data = "<style".data from rfl,
        subTagF_id _ _ _ _ _ hsty]
      rfl
    have hchars : ∀ c ∈ ("<script>" ++ m ++ "</script>").data,
        isPyWs c = false := by
      intro c hc
      rw [show ("<script>" ++ m ++ "</script>").data =
          "<script>".data ++ (m.data ++ "</script>".data) from by
        rw [String.data_append, String.data_append, List.append_assoc]] at hc
      rcases List.mem_append.mp hc with h1 | h2
      · exact (by decide :
          ∀ x ∈ ("<script>" : String).data, isPyWs x = false) c h1
      · rcases List.mem_append.mp h2 with h3 | h4
        · exact hmws c h3
        · exact (by decide :
            ∀ x ∈ ("</script>" : String).data, isPyWs x = false) c h4
    have hdisp : minifyDispatch o
        ("<script" ++ attrs ++ ">" ++ body ++ "</script>") "svelte" =
        .ok ("<script>" ++ m ++ "</script>") := by
      rw [minifyDispatch_svelte, stripComments_id _ hcmt, hsub1]
      show (subTag "style" o.cssF ("<script>" ++ m ++ "</script>")).bind
        (fun c3 => Except.ok (pyStrip (gtLtCollapse (wsCollapse c3)))) = _
      rw [hsub2]
      show Except.ok (pyStrip (gtLtCollapse (wsCollapse
        ("<script>" ++ m ++ "</script>")))) = _
      rw [wsCollapse_id _ hchars, gtLtCollapse_id _ hchars,
        pyStrip_id _ hchars]
    unfold minifyContent
    rw [hdisp]
  · have hdata : ("<style" ++ attrs2 ++ ">" ++ css ++ "</style>").data =
        ('<' :: "style".data) ++
          (attrs2.data ++ '>' :: (css.data ++ "</style>".data)) := by
      rw [String.data_append, String.data_append, String.data_append,
        String.data_append]
      rw [show ("<style" : String).data = '<' :: "style".data from rfl,
        show (">" : String).data = ['>'] from rfl]
      simp [List.append_assoc]
    have hfirst2 : firstIdx "</style>".data
        (css.data ++ "</style>".data) = some css.data.length :=
      firstIdx_clean css.data "/style>".data hcss
    have hcss' : o.cssF ⟨css.data⟩ = .ok mc := hcssF
    have hsub1 : subTag "script" o.jsminF
        ("<style" ++ attrs2 ++ ">" ++ css ++ "</style>") =
        .ok ("<style" ++ attrs2 ++ ">" ++ css ++ "</style>") := by
      unfold subTag
      rw [show ("<" ++ "script" : String).data = "<script".data from rfl,
        subTagF_id _ _ _ _ _ hscr2]
      rfl
    have hsub2 : subTag "style" o.cssF
        ("<style" ++ attrs2 ++ ">" ++ css ++ "</style>") =
        .ok ("<style>" ++ mc ++ "</style>") := by
      unfold subTag
      rw [show ("<" ++ "style" : String).data = '<' :: "style".data
          from rfl,
        show ("</" ++ "style" ++ ">" : String).data = "</style>".data
          from rfl,
        hdata,
        subTagF_rewrite '<' "style".data "</style>".data o.cssF _
          attrs2.data css.data mc hattrs2 hfirst2 hcss']
      have hmk : String.mk (('<' :: "style".data) ++
          '>' :: (mc.data ++ "</style>".data)) =
          "<style>" ++ mc ++ "</style>" := by
        have hT : ("<style>" ++ mc ++ "</style>").data =
            ('<' :: "style".data) ++ '>' :: (mc.data ++ "</style>".data) := by
          rw [String.data_append, String.data_append,
            show ("<style>" : String).data =
              ('<' :: "style".data) ++ ['>'] from rfl]
          simp [List.append_assoc]
        rw [← hT]
      rw [show (Except.ok (('<' :: "style".data) ++
          '>' :: (mc.data ++ "</style>".data)) :
            Except String (List Char)).map String.mk =
          Except.ok (String.mk (('<' :: "style".data) ++
            '>' :: (mc.data ++ "</style>".data))) from rfl, hmk]
    have hchars : ∀ c ∈ ("<style>" ++ mc ++ "</style>").data,
        isPyWs c = false := by
      intro c hc
      rw [show ("<style>" ++ mc ++ "</style>").data =
          "<style>".data ++ (mc.data ++ "</style>".data) from by
        rw [String.data_append, String.data_append, List.append_assoc]] at hc
      rcases List.mem_append.mp hc with h1 | h2
      · exact (by decide :
          ∀ x ∈ ("<style>" : String).data, isPyWs x = false) c h1
      · rcases List.mem_append.mp h2 with h3 | h4
        · exact hmcws c h3
        · exact (by decide :
            ∀ x ∈ ("</style>" : String).data, isPyWs x = false) c h4
    have hdisp : minifyDispatch o
        ("<style" ++ attrs2 ++ ">" ++ css ++ "</style>") "svelte" =
        .ok ("<style>" ++ mc ++ "</style>") := by
      rw [minifyDispatch_svelte, stripComments_id _ hcmt2, hsub1]
      show (subTag "style" o.cssF
          ("<style" ++ attrs2 ++ ">" ++ css ++ "</style>")).bind
        (fun c3 => Except.ok (pyStrip (gtLtCollapse (wsCollapse c3)))) = _
      rw [hsub2]
      show Except.ok (pyStrip (gtLtCollapse (wsCollapse
        ("<style>" ++ mc ++ "</style>")))) = _
      rw [wsCollapse_id _ hchars, gtLtCollapse_id _ hchars,
        pyStrip_id _ hchars]
    unfold minifyContent
    rw [hdisp]

/-- Witness for C9: `<script lang="ts">x()</script>` and
`<style scoped>a</style>` under identity compressors. -/
theorem claim_C9_witness :
    (∀ c ∈ (" lang=\x22ts\x22" : String).data, c ≠ '>') ∧
    (∀ c ∈ ("x()" : String).data, c ≠ '<') ∧
    idO.jsminF "x()" = .ok "x()" ∧
    (∀ c ∈ ("x()" : String).data, isPyWs c = false) ∧
    listInfB "<!--".data ("<script" ++ " lang=\x22ts\x22" ++ ">" ++ "x()" ++
      "</script>").data = false ∧
    listInfB "<style".data ("<script>" ++ "x()" ++ "</script>").data =
      false ∧
    (∀ c ∈ (" scoped" : String).data, c ≠ '>') ∧
    (∀ c ∈ ("a" : String).data, c ≠ '<') ∧
    idO.cssF "a" = .ok "a" ∧
    (∀ c ∈ ("a" : String).data, isPyWs c = false) ∧
    listInfB "<!--".data ("<style" ++ " scoped" ++ ">" ++ "a" ++
      "</style>").data = false ∧
    listInfB "<script".data ("<style" ++ " scoped" ++ ">" ++ "a" ++
      "</style>").data = false ∧
    (minifyContent idO ("<script" ++ " lang=\x22ts\x22" ++ ">" ++ "x()" ++
        "</script>") "svelte" = "<script>" ++ "x()" ++ "</script>" ∧
      minifyContent idO ("<style" ++ " scoped" ++ ">" ++ "a" ++
        "</style>") "svelte" = "<style>" ++ "a" ++ "</style>") :=
  ⟨by decide, by decide, rfl, by decide, by decide, by decide, by decide,
    by decide, rfl, by decide, by decide, by decide,
    claim_C9_svelte_bare_tags idO " lang=\x22ts\x22" "x()" "x()"
      " scoped" "a" "a" (by decide) (by decide) rfl (by decide) (by decide)
      (by decide) (by decide) (by decide) rfl (by decide) (by decide)
      (by decide)⟩

end App
